import Mathlib

/-!
Verification development for the transform-tree core of the `axisviz`
repository (`src/main.rs`).

The node store (`TransformTree`), its operations (`add_node`, `name_hash`,
`set_parent`, `mark_dirty`, `update_world`) and the file representation
(`FileTransformTree` together with its conversion to a node store) are
embedded shallowly:

* Rust `Vec<TNode>` becomes `List TNode`; handles stay `Nat` indices.
* The Rust code indexes `self.nodes[i]` with the guarantee that `i` is in
  range (out-of-range indexing panics).  The embedding uses a total read
  `getNode` whose out-of-range result is a designated default node; every
  theorem about an operation only ever exercises it at in-range handles,
  matching the panic-free executions of the source.
* `f32`/`f64` arithmetic is modelled exactly over `ℚ`.  The only
  transcendental ingredient, the half-angle sine/cosine used by
  `Quat::from_euler`, has no exact rational counterpart, so the functions
  computing those two coefficients are passed as explicit parameters
  (`sinq`, `cosq`); no theorem below depends on trigonometric identities.
* Fallible conversion returns an explicit outcome type; a Rust panic
  (indexing a `HashMap` at a missing key) is modelled as the outcome
  `ConvOutcome.panicked`.
-/

namespace AxisViz

/-- Exact model of a 3-component vector (glam `Vec3`/`Vec3A`). -/
structure Vec3 where
  x : ℚ
  y : ℚ
  z : ℚ
deriving DecidableEq, Repr

def Vec3.add (a b : Vec3) : Vec3 := ⟨a.x + b.x, a.y + b.y, a.z + b.z⟩

instance : Add Vec3 := ⟨Vec3.add⟩

def Vec3.smul (s : ℚ) (v : Vec3) : Vec3 := ⟨s * v.x, s * v.y, s * v.z⟩

def Vec3.dot (a b : Vec3) : ℚ := a.x * b.x + a.y * b.y + a.z * b.z

def Vec3.cross (a b : Vec3) : Vec3 :=
  ⟨a.y * b.z - a.z * b.y, a.z * b.x - a.x * b.z, a.x * b.y - a.y * b.x⟩

def Vec3.zero : Vec3 := ⟨0, 0, 0⟩

/-- Exact model of a quaternion (glam `Quat`, `x y z w` layout). -/
structure Quat where
  x : ℚ
  y : ℚ
  z : ℚ
  w : ℚ
deriving DecidableEq, Repr

/-- Hamilton product, component for component as in glam. -/
def Quat.mul (a b : Quat) : Quat :=
  ⟨a.w * b.x + a.x * b.w + a.y * b.z - a.z * b.y,
   a.w * b.y - a.x * b.z + a.y * b.w + a.z * b.x,
   a.w * b.z + a.x * b.y - a.y * b.x + a.z * b.w,
   a.w * b.w - a.x * b.x - a.y * b.y - a.z * b.z⟩

instance : Mul Quat := ⟨Quat.mul⟩

def Quat.IDENTITY : Quat := ⟨0, 0, 0, 1⟩

/-- Rotation of a vector by a quaternion, following glam:
`2 (u·v) u + (w² − u·u) v + 2 w (u × v)` with `u` the vector part. -/
def Quat.rotate (q : Quat) (v : Vec3) : Vec3 :=
  let u : Vec3 := ⟨q.x, q.y, q.z⟩
  Vec3.smul (2 * Vec3.dot u v) u +
    (Vec3.smul (q.w * q.w - Vec3.dot u u) v + Vec3.smul (2 * q.w) (Vec3.cross u v))

/-- `Quat::from_axis_angle(Vec3::X, a)`: half-angle coefficients supplied by
`sinq`/`cosq` (see the module comment). -/
def Quat.fromRotationX (sinq cosq : ℚ → ℚ) (a : ℚ) : Quat :=
  ⟨sinq (a / 2), 0, 0, cosq (a / 2)⟩

def Quat.fromRotationY (sinq cosq : ℚ → ℚ) (a : ℚ) : Quat :=
  ⟨0, sinq (a / 2), 0, cosq (a / 2)⟩

def Quat.fromRotationZ (sinq cosq : ℚ → ℚ) (a : ℚ) : Quat :=
  ⟨0, 0, sinq (a / 2), cosq (a / 2)⟩

/-- `Quat::from_euler(EulerRot::XYZ, rx, ry, rz)`: intrinsic rotations about
X, then Y, then Z, i.e. the composition `qx * qy * qz`. -/
def Quat.fromEulerXYZ (sinq cosq : ℚ → ℚ) (rx ry rz : ℚ) : Quat :=
  Quat.fromRotationX sinq cosq rx * Quat.fromRotationY sinq cosq ry *
    Quat.fromRotationZ sinq cosq rz

/-- Exact model of bevy `Isometry3d`: a rotation and a translation. -/
structure Isometry3d where
  rotation : Quat
  translation : Vec3
deriving DecidableEq, Repr

/-- Composition of isometries as implemented by bevy's `Mul for Isometry3d`:
the rotations compose, the right translation is rotated by the left rotation
and added to the left translation. -/
def Isometry3d.mul (a b : Isometry3d) : Isometry3d :=
  ⟨a.rotation * b.rotation, a.translation + a.rotation.rotate b.translation⟩

instance : Mul Isometry3d := ⟨Isometry3d.mul⟩

def Isometry3d.IDENTITY : Isometry3d := ⟨Quat.IDENTITY, Vec3.zero⟩

/-- `Isometry3d::new(translation, rotation)`. -/
def Isometry3d.new (translation : Vec3) (rotation : Quat) : Isometry3d :=
  ⟨rotation, translation⟩

/-! ## The node store -/

/-- Node handle (`pub type NodeId = usize`). -/
abbrev NodeId := Nat

/-- A node of the store (`struct TNode`).  The Rust field `local` is a Lean
keyword, hence the quoted name. -/
structure TNode where
  name : String
  parent : Option NodeId
  children : List NodeId
  «local» : Isometry3d
  world : Isometry3d
  dirty : Bool
deriving DecidableEq, Repr

/-- Default node returned by out-of-range reads.  Its `dirty` flag is `true`
so that the dirty-propagation walk treats an out-of-range handle as
already-handled; no theorem exercises an operation out of range (the Rust
source panics there). -/
instance : Inhabited TNode :=
  ⟨{ name := "", parent := none, children := [], «local» := Isometry3d.IDENTITY,
     world := Isometry3d.IDENTITY, dirty := true }⟩

/-- The node store (`struct TransformTree`). -/
structure TransformTree where
  nodes : List TNode
deriving DecidableEq, Repr

/-- Total read of `nodes[i]` (see `Inhabited TNode`). -/
def getNode (ns : List TNode) (i : NodeId) : TNode := ns.getD i default

/-- In-place update of `nodes[i]` (no-op out of range, where Rust panics). -/
def setNode (ns : List TNode) (i : NodeId) (f : TNode → TNode) : List TNode :=
  ns.set i (f (getNode ns i))

/-- `TransformTree::add_node`; returns the updated store and the new handle. -/
def TransformTree.add_node (t : TransformTree) (name : String)
    («local» : Isometry3d) (parent : Option NodeId) : TransformTree × NodeId :=
  let id := t.nodes.length
  let newNode : TNode :=
    { name := name, parent := none, children := [],
      «local» := «local», world := Isometry3d.IDENTITY, dirty := true }
  let ns := t.nodes ++ [newNode]
  match parent with
  | some p =>
      if p < id then
        let pw := (getNode ns p).world
        let ns := setNode ns p (fun n => { n with children := n.children ++ [id] })
        let ns := setNode ns id
          (fun n => { n with parent := some p, world := pw * n.«local», dirty := false })
        (⟨ns⟩, id)
      else
        (⟨setNode ns id (fun n => { n with world := n.«local», dirty := false })⟩, id)
  | none => (⟨setNode ns id (fun n => { n with world := n.«local», dirty := false })⟩, id)

/-- Error type `FileTransformTreeError`. -/
inductive FileTransformTreeError where
  | ParentMissing (name : String)
  | Duplicate (name : String)
  | Serialization (msg : String)
deriving DecidableEq, Repr

/-- Loop body of `TransformTree::name_hash`: walk the nodes in handle order,
inserting `name ↦ handle`; fail on the first name already present.  The Rust
`HashMap` is modelled as an association list with unique keys. -/
def nameHashAux : List TNode → NodeId → List (String × NodeId) →
    Except FileTransformTreeError (List (String × NodeId))
  | [], _, m => .ok m
  | nd :: rest, id, m =>
    if (m.lookup nd.name).isSome then .error (FileTransformTreeError.Duplicate nd.name)
    else nameHashAux rest (id + 1) (m ++ [(nd.name, id)])

/-- `TransformTree::name_hash`. -/
def TransformTree.name_hash (t : TransformTree) :
    Except FileTransformTreeError (List (String × NodeId)) :=
  nameHashAux t.nodes 0 []

/-- Number of not-yet-dirty nodes; the termination measure of the
breadth-first dirty walk. -/
def countClean (ns : List TNode) : Nat := ns.countP (fun n => !n.dirty)

/-- Loop of `TransformTree::mark_dirty`: a FIFO queue (`VecDeque`), popping
from the front and appending children at the back; a popped node is expanded
only when it changes from clean to dirty.  This definition terminates for
every store, including stores whose children links contain duplicates or
cycles, because an expansion strictly decreases the number of clean nodes. -/
def markDirtyAux : List TNode → List NodeId → List TNode
  | ns, [] => ns
  | ns, n :: q =>
    if h : (getNode ns n).dirty then markDirtyAux ns q
    else
      markDirtyAux (setNode ns n (fun x => { x with dirty := true }))
        (q ++ (getNode ns n).children)
termination_by ns q => (countClean ns, q.length)
decreasing_by
  · exact Prod.Lex.right _ (Nat.lt_succ_self _)
  · refine Prod.Lex.left _ _ ?_
    have hd : (getNode ns n).dirty = false := by simpa using h
    have hn : n < ns.length := by
      by_contra hge
      have hdef : getNode ns n = default := by
        simp [getNode, List.getD_eq_getElem?_getD,
          List.getElem?_eq_none (Nat.le_of_not_lt hge)]
      rw [hdef] at hd
      simp [default] at hd
    have key : ∀ (l : List TNode) (i : Nat) (hi : i < l.length) (a : TNode),
        (l.get ⟨i, hi⟩).dirty = false → a.dirty = true →
        (l.set i a).countP (fun x => !x.dirty) < l.countP (fun x => !x.dirty) := by
      intro l
      induction l with
      | nil => intro i hi; simp at hi
      | cons hd tl ih =>
        intro i hi a hcl hda
        cases i with
        | zero =>
          simp only [List.get] at hcl
          simp [List.set_cons_zero, List.countP_cons, hcl, hda]
        | succ i =>
          have step := ih i (by simpa using hi) a (by simpa using hcl) hda
          simp only [List.set_cons_succ, List.countP_cons]
          omega
    have hget : getNode ns n = ns.get ⟨n, hn⟩ := by
      simp [getNode, List.getD_eq_getElem?_getD, List.getElem?_eq_getElem hn]
    exact key ns n hn _ (by rw [← hget]; exact hd) rfl

/-- `TransformTree::mark_dirty`. -/
def TransformTree.mark_dirty (t : TransformTree) (id : NodeId) : TransformTree :=
  ⟨markDirtyAux t.nodes [id]⟩

/-- Link surgery performed by `TransformTree::set_parent` before the dirty
walk: `parent.take()`, removal from the old parent's child list, then the
optional attach to the new parent. -/
def relink (ns : List TNode) (id : NodeId) (parent : Option NodeId) : List TNode :=
  let old := (getNode ns id).parent
  let ns1 := setNode ns id (fun n => { n with parent := none })
  let ns2 := match old with
    | some p => setNode ns1 p
        (fun n => { n with children := n.children.filter (fun c => c != id) })
    | none => ns1
  match parent with
  | some p =>
      setNode (setNode ns2 p (fun n => { n with children := n.children ++ [id] })) id
        (fun n => { n with parent := some p })
  | none => ns2

/-- `TransformTree::set_parent`. -/
def TransformTree.set_parent (t : TransformTree) (id : NodeId)
    (parent : Option NodeId) : TransformTree :=
  TransformTree.mark_dirty ⟨relink t.nodes id parent⟩ id

/-- The roots collected at the start of `TransformTree::update_world`. -/
def rootsOf (ns : List TNode) : List NodeId :=
  (List.range ns.length).filter (fun i => (getNode ns i).parent.isNone)

/-- Loop of `TransformTree::update_world`.  The Rust `Vec` stack is modelled
with its top as the list head, so a push of the child list prepends it
reversed.  The loop is fuelled; `update_world` supplies fuel covering every
terminating execution of the source (on forest-shaped stores the loop pops
each node exactly once, so `nodes.len()` iterations suffice). -/
def updateWorldAux : Nat → List (NodeId × Isometry3d) → List TNode → List TNode
  | 0, _, ns => ns
  | _ + 1, [], ns => ns
  | fuel + 1, (id, parentWorld) :: rest, ns =>
    let ns1 :=
      if (getNode ns id).dirty then
        setNode ns id
          (fun n => { n with world := parentWorld * n.«local», dirty := false })
      else ns
    let w := (getNode ns1 id).world
    updateWorldAux fuel
      (((getNode ns1 id).children.map (fun c => (c, w))).reverse ++ rest) ns1

/-- `TransformTree::update_world`. -/
def TransformTree.update_world (t : TransformTree) : TransformTree :=
  ⟨updateWorldAux t.nodes.length
    (((rootsOf t.nodes).map (fun r => (r, Isometry3d.IDENTITY))).reverse) t.nodes⟩

/-! ## File representation and conversion -/

/-- Serialization DTO `FileNode`; the `f64` triples `t` and `r` are modelled
as exact rational triples. -/
structure FileNode where
  name : String
  parent : Option String
  t : ℚ × ℚ × ℚ
  r : ℚ × ℚ × ℚ
deriving DecidableEq, Repr

/-- `FileTransformTree`. -/
structure FileTransformTree where
  version : Nat
  nodes : List FileNode
deriving DecidableEq, Repr

/-- `impl From<&FileNode> for Isometry3d`: translation from `t`, rotation
from the Euler angles `r` in intrinsic X-then-Y-then-Z order. -/
def isoOfFileNode (sinq cosq : ℚ → ℚ) (node : FileNode) : Isometry3d :=
  let (tx, ty, tz) := node.t
  let (rr, rp, ry) := node.r
  let rot := Quat.fromEulerXYZ sinq cosq rr rp ry
  Isometry3d.new ⟨tx, ty, tz⟩ rot

/-- First loop of `TryFrom<FileTransformTree>`: add every file node, in file
order, with no parent. -/
def addAll (sinq cosq : ℚ → ℚ) : List FileNode → TransformTree → TransformTree
  | [], t => t
  | fn :: rest, t =>
      addAll sinq cosq rest (t.add_node fn.name (isoOfFileNode sinq cosq fn) none).1

/-- Second loop of `TryFrom<FileTransformTree>`: for every file node with a
declared parent name, look up both handles and call `set_parent`.  The Rust
code indexes the `HashMap` directly (`name_map[&node.name]`,
`name_map[&p]`), which panics on a missing key; a missing key is therefore
modelled as `none`. -/
def linkAll (map : List (String × NodeId)) :
    List FileNode → TransformTree → Option TransformTree
  | [], t => some t
  | fn :: rest, t =>
    match fn.parent with
    | none => linkAll map rest t
    | some p =>
      match map.lookup fn.name, map.lookup p with
      | some c, some pid => linkAll map rest (t.set_parent c (some pid))
      | _, _ => none

/-- Outcome of the conversion: success, a returned error, or a panic of the
Rust process (never a value in Rust; kept apart from the error results). -/
inductive ConvOutcome where
  | ok (t : TransformTree)
  | err (e : FileTransformTreeError)
  | panicked
deriving DecidableEq, Repr

/-- `TryFrom<FileTransformTree> for TransformTree::try_from`. -/
def tryFrom (sinq cosq : ℚ → ℚ) (ftree : FileTransformTree) : ConvOutcome :=
  let res := addAll sinq cosq ftree.nodes ⟨[]⟩
  match res.name_hash with
  | .error e => ConvOutcome.err e
  | .ok map =>
    match linkAll map ftree.nodes res with
    | none => ConvOutcome.panicked
    | some res2 => ConvOutcome.ok res2.update_world

/-! ## Structural notions used by the specification

Everything below is still definitional material: the reference ("spec")
world transform, the ancestor relation induced by the parent links, forest
and consistency predicates, an instrumented variant of the dirty walk, and
the concrete stores used as inputs of witnesses and counterexamples. -/

/-- The structural fields of a node: everything except `world` and `dirty`. -/
def skel (nd : TNode) : String × Option NodeId × List NodeId × Isometry3d :=
  (nd.name, nd.parent, nd.children, nd.«local»)

/-- Two stores with the same length and the same structural fields
everywhere. -/
def SameSkeleton (ns0 ns : List TNode) : Prop :=
  ns.length = ns0.length ∧ ∀ i, skel (getNode ns i) = skel (getNode ns0 i)

/-- Fuelled composition of `local` transforms along the parent chain: the
reference value of a node's world transform ("the composition of `local`
transforms along the path from its root down to the node"). -/
def specWorldAux (ns : List TNode) : Nat → NodeId → Isometry3d
  | 0, i => (getNode ns i).«local»
  | fuel + 1, i =>
    match (getNode ns i).parent with
    | none => (getNode ns i).«local»
    | some p => specWorldAux ns fuel p * (getNode ns i).«local»

/-- Reference world transform; on a forest every parent chain is shorter
than the node count, so fuel `ns.length` reaches the root. -/
def specW (ns : List TNode) (i : NodeId) : Isometry3d :=
  specWorldAux ns ns.length i

/-- Reference world transform of a node's parent (identity for a root). -/
def parentSpec (ns : List TNode) (i : NodeId) : Isometry3d :=
  match (getNode ns i).parent with
  | none => Isometry3d.IDENTITY
  | some p => specW ns p

/-- `Anc ns i j`: `j` lies on the parent chain of `i` (ancestor-or-self). -/
inductive Anc (ns : List TNode) : NodeId → NodeId → Prop
  | refl (i : NodeId) : Anc ns i i
  | step {i p j : NodeId} : (getNode ns i).parent = some p → Anc ns p j → Anc ns i j

/-- Fuelled boolean version of `Anc`. -/
def ancB (ns : List TNode) : Nat → NodeId → NodeId → Bool
  | 0, i, j => i == j
  | fuel + 1, i, j =>
    i == j ||
      match (getNode ns i).parent with
      | some p => ancB ns fuel p j
      | none => false

/-- Number of nodes whose parent chain passes through `id` (the subtree of
`id`, counted with fuel `ns.length`, which suffices on a forest). -/
def subtreeCount (ns : List TNode) (id : NodeId) : Nat :=
  ((List.range ns.length).filter (fun i => ancB ns ns.length i id)).length

/-- The parent/child links of the store form a forest: parent and child
links are in range and mutually consistent, child lists are duplicate-free,
and the parent relation is acyclic (witnessed by a bounded rank function
that strictly decreases from child to parent). -/
structure Forest (ns : List TNode) : Prop where
  parent_valid : ∀ i, i < ns.length → ∀ p, (getNode ns i).parent = some p → p < ns.length
  child_mem : ∀ i, i < ns.length → ∀ p, (getNode ns i).parent = some p →
    i ∈ (getNode ns p).children
  children_parent : ∀ p, p < ns.length → ∀ c, c ∈ (getNode ns p).children →
    c < ns.length ∧ (getNode ns c).parent = some p
  children_nodup : ∀ p, p < ns.length → ((getNode ns p).children).Nodup
  acyclic : ∃ rank : NodeId → Nat, (∀ i, i < ns.length → rank i < ns.length) ∧
    (∀ i, i < ns.length → ∀ p, (getNode ns i).parent = some p → rank p < rank i)

/-- The data-model invariant on clean nodes: a node whose `dirty` flag is
false already caches its reference world transform. -/
def CleanOK (ns : List TNode) : Prop :=
  ∀ i, i < ns.length → (getNode ns i).dirty = false → (getNode ns i).world = specW ns i

/-- Parent/child consistency alone (no acyclicity): the invariant preserved
by every store operation. -/
structure StoreInv (ns : List TNode) : Prop where
  parent_valid : ∀ i, i < ns.length → ∀ p, (getNode ns i).parent = some p → p < ns.length
  child_mem : ∀ i, i < ns.length → ∀ p, (getNode ns i).parent = some p →
    i ∈ (getNode ns p).children
  children_parent : ∀ p, p < ns.length → ∀ c, c ∈ (getNode ns p).children →
    c < ns.length ∧ (getNode ns c).parent = some p
  children_nodup : ∀ p, p < ns.length → ((getNode ns p).children).Nodup

/-- Stores reachable from the empty store through the documented operations,
applied at in-range handles (the Rust source panics on an out-of-range
handle, so no store results from such a call). -/
inductive Reachable : TransformTree → Prop
  | empty : Reachable ⟨[]⟩
  | add (t : TransformTree) (name : String) (l : Isometry3d) (par : Option NodeId) :
      Reachable t → Reachable (t.add_node name l par).1
  | setp (t : TransformTree) (id : NodeId) (par : Option NodeId) :
      Reachable t → id < t.nodes.length →
      (∀ p, par = some p → p < t.nodes.length) → Reachable (t.set_parent id par)
  | mark (t : TransformTree) (id : NodeId) :
      Reachable t → id < t.nodes.length → Reachable (t.mark_dirty id)
  | upd (t : TransformTree) : Reachable t → Reachable t.update_world

/-- `DescC ns a b`: `b` is reachable from `a` along children links
(descendant-or-self in the children graph). -/
inductive DescC (ns : List TNode) : NodeId → NodeId → Prop
  | refl (a : NodeId) : DescC ns a a
  | step {a c b : NodeId} : c ∈ (getNode ns a).children → DescC ns c b → DescC ns a b

/-- `CReach ns a b`: `b` is reachable from `a` along children links through
clean nodes only (every node on the path, including both ends, has
`dirty = false`).  This is exactly the set of nodes newly marked by the
breadth-first dirty walk started at `a`. -/
inductive CReach (ns : List TNode) : NodeId → NodeId → Prop
  | refl (a : NodeId) : (getNode ns a).dirty = false → CReach ns a a
  | step {a c b : NodeId} : (getNode ns a).dirty = false →
      c ∈ (getNode ns a).children → CReach ns c b → CReach ns a b

/-- Downward closure of the dirty flags: every child of a dirty node is
dirty (hence, inductively, so is every descendant). -/
def DirtyClosed (ns : List TNode) : Prop :=
  ∀ p, p < ns.length → (getNode ns p).dirty = true →
    ∀ c, c ∈ (getNode ns p).children → (getNode ns c).dirty = true

/-- Instrumented copy of `markDirtyAux` that also records, in order, the
nodes it expands (the clean-to-dirty transitions). -/
def markDirtyTrace : List TNode → List NodeId → List TNode × List NodeId
  | ns, [] => (ns, [])
  | ns, n :: q =>
    if h : (getNode ns n).dirty then markDirtyTrace ns q
    else
      let res := markDirtyTrace (setNode ns n (fun x => { x with dirty := true }))
        (q ++ (getNode ns n).children)
      (res.1, n :: res.2)
termination_by ns q => (countClean ns, q.length)
decreasing_by
  · exact Prod.Lex.right _ (Nat.lt_succ_self _)
  · refine Prod.Lex.left _ _ ?_
    have hd : (getNode ns n).dirty = false := by simpa using h
    have hn : n < ns.length := by
      by_contra hge
      have hdef : getNode ns n = default := by
        simp [getNode, List.getD_eq_getElem?_getD,
          List.getElem?_eq_none (Nat.le_of_not_lt hge)]
      rw [hdef] at hd
      simp [default] at hd
    have key : ∀ (l : List TNode) (i : Nat) (hi : i < l.length) (a : TNode),
        (l.get ⟨i, hi⟩).dirty = false → a.dirty = true →
        (l.set i a).countP (fun x => !x.dirty) < l.countP (fun x => !x.dirty) := by
      intro l
      induction l with
      | nil => intro i hi; simp at hi
      | cons hd tl ih =>
        intro i hi a hcl hda
        cases i with
        | zero =>
          simp only [List.get] at hcl
          simp [List.set_cons_zero, List.countP_cons, hcl, hda]
        | succ i =>
          have step := ih i (by simpa using hi) a (by simpa using hcl) hda
          simp only [List.set_cons_succ, List.countP_cons]
          omega
    have hget : getNode ns n = ns.get ⟨n, hn⟩ := by
      simp [getNode, List.getD_eq_getElem?_getD, List.getElem?_eq_getElem hn]
    exact key ns n hn _ (by rw [← hget]; exact hd) rfl

/-- Accumulator loop of the reference "first duplicated name" scan:
the first element already seen, walking left to right. -/
def specFirstDupAux : List String → List String → Option String
  | _, [] => none
  | seen, s :: rest => if s ∈ seen then some s else specFirstDupAux (seen ++ [s]) rest

/-- First name (in handle order) that repeats an earlier name, if any; this
is the specification-side description of `name_hash`'s failure behaviour. -/
def specFirstDup (l : List String) : Option String := specFirstDupAux [] l

/-- The association list `name ↦ handle` that a successful `name_hash`
returns, built here directly. -/
def handleMapAux : List TNode → NodeId → List (String × NodeId)
  | [], _ => []
  | nd :: rest, id => (nd.name, id) :: handleMapAux rest (id + 1)

def handleMap (ns : List TNode) : List (String × NodeId) := handleMapAux ns 0

instance : Inhabited FileNode :=
  ⟨{ name := "", parent := none, t := (0, 0, 0), r := (0, 0, 0) }⟩

/-- Index of the first occurrence of a name in a list of names (the handle
a successful `name_hash` map associates to that name). -/
def idxOf : List String → String → Option NodeId
  | [], _ => none
  | s :: rest, pn => if s = pn then some 0 else (idxOf rest pn).map (fun i => i + 1)

/-- File-level parent handle: the handle the conversion's second loop links
file node `j` under, i.e. the handle of the file node bearing `j`'s declared
parent name (none when `j` declares no parent or the name is absent). -/
def parentIdx (fns : List FileNode) (j : Nat) : Option NodeId :=
  match (fns.getD j default).parent with
  | none => none
  | some pn => idxOf (fns.map FileNode.name) pn

/-- State of the store between iterations of the conversion's linking loop:
after the first `m` file nodes have been processed, names, locals and worlds
are still those set up by the adding loop, parent and child links realise
`parentIdx` on the processed prefix, exactly the processed nodes with a
declared parent are dirty, and every processed declared parent resolved. -/
def LinkedStore (sinq cosq : ℚ → ℚ) (fns : List FileNode) (m : Nat)
    (ms : List TNode) : Prop :=
  ms.length = fns.length ∧
  (∀ j, j < fns.length →
    (getNode ms j).name = (fns.getD j default).name ∧
    (getNode ms j).«local» = isoOfFileNode sinq cosq (fns.getD j default) ∧
    (getNode ms j).world = isoOfFileNode sinq cosq (fns.getD j default)) ∧
  (∀ j, (getNode ms j).parent = if j < m then parentIdx fns j else none) ∧
  (∀ j, j < fns.length →
    (getNode ms j).children =
      (List.range m).filter (fun i => parentIdx fns i == some j)) ∧
  (∀ j, j < fns.length →
    ((getNode ms j).dirty = true ↔
      (j < m ∧ ((fns.getD j default).parent).isSome = true))) ∧
  (∀ j, j < m → ∀ pn, (fns.getD j default).parent = some pn →
    (parentIdx fns j).isSome = true)

/-- Contract of the world-update loop for one stack entry: popping `(id, pw)`
with `pw` the reference world of `id`'s parent, on a store agreeing with
`ns` on structure and agreeing with `ns` on the whole subtree of `id`,
consumes between `1` and `subtreeCount ns id` iterations and leaves exactly
the subtree of `id` recomputed. -/
def ProcessSpec (ns : List TNode) (id : NodeId) : Prop :=
  ∀ (fuel : Nat) (pw : Isometry3d) (rest : List (NodeId × Isometry3d)) (ms : List TNode),
    SameSkeleton ns ms →
    (∀ i, Anc ns i id → (getNode ms i).dirty = (getNode ns i).dirty ∧
      (getNode ms i).world = (getNode ns i).world) →
    pw = parentSpec ns id →
    subtreeCount ns id ≤ fuel →
    ∃ k ms', 1 ≤ k ∧ k ≤ subtreeCount ns id ∧
      updateWorldAux fuel ((id, pw) :: rest) ms = updateWorldAux (fuel - k) rest ms' ∧
      SameSkeleton ns ms' ∧
      (∀ i, ¬ Anc ns i id → getNode ms' i = getNode ms i) ∧
      (∀ i, Anc ns i id → (getNode ms' i).dirty = false ∧
        (getNode ms' i).world = specW ns i)

/-- Boolean check of the `Forest`/`StoreInv` link conditions, used to
discharge them on concrete stores by evaluation. -/
def checkLinks (ns : List TNode) : Bool :=
  (List.range ns.length).all (fun i =>
    (match (getNode ns i).parent with
     | none => true
     | some p => decide (p < ns.length) && decide (i ∈ (getNode ns p).children)) &&
    ((getNode ns i).children.all (fun c =>
       decide (c < ns.length) && decide ((getNode ns c).parent = some i))) &&
    decide ((getNode ns i).children.Nodup))

/-- Boolean check that `rank` witnesses acyclicity on a concrete store. -/
def checkRank (ns : List TNode) (rank : NodeId → Nat) : Bool :=
  (List.range ns.length).all (fun i =>
    decide (rank i < ns.length) &&
    (match (getNode ns i).parent with
     | none => true
     | some p => decide (rank p < rank i)))

/-! ## Concrete inputs used by witnesses and counterexamples -/

/-- Constant stand-ins for the half-angle coefficient functions; used only
to instantiate theorems at concrete inputs. -/
def sinZero : ℚ → ℚ := fun _ => 0

def cosOne : ℚ → ℚ := fun _ => 1

/-- Translation-only isometry. -/
def transIso (x y z : ℚ) : Isometry3d := ⟨Quat.IDENTITY, ⟨x, y, z⟩⟩

/-- A store with a single clean root whose cached `world` differs from the
composition of `local` transforms along its (trivial) path. -/
def staleCleanStore : TransformTree :=
  ⟨[{ name := "a", parent := none, children := [], «local» := transIso 1 0 0,
      world := Isometry3d.IDENTITY, dirty := false }]⟩

/-- A store with a dirty root whose only child is clean. -/
def dirtyRootStore : TransformTree :=
  ⟨[{ name := "a", parent := none, children := [1], «local» := Isometry3d.IDENTITY,
      world := Isometry3d.IDENTITY, dirty := true },
    { name := "b", parent := some 0, children := [], «local» := Isometry3d.IDENTITY,
      world := Isometry3d.IDENTITY, dirty := false }]⟩

/-- A two-node all-dirty forest store: a root and its child. -/
def twoNodeDirtyStore : TransformTree :=
  ⟨[{ name := "a", parent := none, children := [1], «local» := transIso 1 0 0,
      world := transIso 7 7 7, dirty := true },
    { name := "b", parent := some 0, children := [], «local» := transIso 0 1 0,
      world := transIso 7 7 7, dirty := true }]⟩

/-- A two-node all-clean forest store: a root and its child, with cached
worlds matching the composition of locals. -/
def twoNodeCleanStore : TransformTree :=
  ⟨[{ name := "a", parent := none, children := [1], «local» := Isometry3d.IDENTITY,
      world := Isometry3d.IDENTITY, dirty := false },
    { name := "b", parent := some 0, children := [], «local» := Isometry3d.IDENTITY,
      world := Isometry3d.IDENTITY, dirty := false }]⟩

/-- A store whose children links form a two-cycle (not a forest); input of
the termination witness for the dirty walk. -/
def cyclicStore : TransformTree :=
  ⟨[{ name := "a", parent := some 1, children := [1], «local» := Isometry3d.IDENTITY,
      world := Isometry3d.IDENTITY, dirty := false },
    { name := "b", parent := some 0, children := [0], «local» := Isometry3d.IDENTITY,
      world := Isometry3d.IDENTITY, dirty := false }]⟩

/-- File tree whose single node names an absent parent. -/
def badParentTree : FileTransformTree :=
  ⟨1, [{ name := "a", parent := some "b", t := (0, 0, 0), r := (0, 0, 0) }]⟩

/-- File tree with two nodes named `x`. -/
def dupNameTree : FileTransformTree :=
  ⟨1, [{ name := "x", parent := none, t := (0, 0, 0), r := (0, 0, 0) },
       { name := "x", parent := none, t := (1, 0, 0), r := (0, 0, 0) }]⟩

/-- File tree whose parent names form a two-cycle. -/
def cyclicTree : FileTransformTree :=
  ⟨1, [{ name := "a", parent := some "b", t := (0, 0, 0), r := (0, 0, 0) },
       { name := "b", parent := some "a", t := (0, 0, 0), r := (0, 0, 0) }]⟩

/-- The two-node example tree from the sources (rotation angles set to 0 so
that concrete evaluation does not involve the coefficient functions). -/
def pairTree : FileTransformTree :=
  ⟨1, [{ name := "arm_base", parent := none, t := (0, 0, 0), r := (0, 0, 0) },
       { name := "lidar", parent := some "arm_base", t := (1/2, 0, 0), r := (0, 0, 0) }]⟩

/-- The node that `add_node` appends when no usable parent handle is
supplied: a clean root with `world = local`. -/
def rootNode (name : String) (l : Isometry3d) : TNode :=
  { name := name, parent := none, children := [], «local» := l, world := l,
    dirty := false }

/-- The node that `add_node` appends when linking below a parent whose world
is `w`: a clean child with `world = w ∘ local`. -/
def linkedNode (name : String) (l : Isometry3d) (p : NodeId) (w : Isometry3d) : TNode :=
  { name := name, parent := some p, children := [], «local» := l, world := w * l,
    dirty := false }

/-- Append a handle to a node's child list. -/
def pushChild (nd : TNode) (c : NodeId) : TNode :=
  { nd with children := nd.children ++ [c] }

/-- Store produced by the adding loop on `cyclicTree`: two clean roots. -/
def cycBase : List TNode :=
  [{ name := "a", parent := none, children := [], «local» := Isometry3d.IDENTITY,
     world := Isometry3d.IDENTITY, dirty := false },
   { name := "b", parent := none, children := [], «local» := Isometry3d.IDENTITY,
     world := Isometry3d.IDENTITY, dirty := false }]

/-- Store produced by the adding loop on `pairTree`: two clean roots. -/
def pairBase : List TNode :=
  [{ name := "arm_base", parent := none, children := [],
     «local» := Isometry3d.IDENTITY, world := Isometry3d.IDENTITY,
     dirty := false },
   { name := "lidar", parent := none, children := [],
     «local» := transIso (1/2) 0 0, world := transIso (1/2) 0 0,
     dirty := false }]

/-- Store of the cyclic-tree conversion after the first re-parenting
(`set_parent 0 (some 1)`), before the dirty walk of the second. -/
def cycRelink1 : List TNode :=
  [{ name := "a", parent := some 1, children := [], «local» := Isometry3d.IDENTITY,
     world := Isometry3d.IDENTITY, dirty := false },
   { name := "b", parent := none, children := [0], «local» := Isometry3d.IDENTITY,
     world := Isometry3d.IDENTITY, dirty := false }]

/-- Store of the cyclic-tree conversion after `set_parent 0 (some 1)`. -/
def cycStore1 : List TNode :=
  [{ name := "a", parent := some 1, children := [], «local» := Isometry3d.IDENTITY,
     world := Isometry3d.IDENTITY, dirty := true },
   { name := "b", parent := none, children := [0], «local» := Isometry3d.IDENTITY,
     world := Isometry3d.IDENTITY, dirty := false }]

/-- Link state of the cyclic-tree conversion after the second re-linking,
before its dirty walk. -/
def cycRelink2 : List TNode :=
  [{ name := "a", parent := some 1, children := [1], «local» := Isometry3d.IDENTITY,
     world := Isometry3d.IDENTITY, dirty := true },
   { name := "b", parent := some 0, children := [0], «local» := Isometry3d.IDENTITY,
     world := Isometry3d.IDENTITY, dirty := false }]

/-- Final pre-update store of the cyclic-tree conversion: a two-cycle of
parent links, both nodes dirty, no roots. -/
def cycStore2 : List TNode :=
  [{ name := "a", parent := some 1, children := [1], «local» := Isometry3d.IDENTITY,
     world := Isometry3d.IDENTITY, dirty := true },
   { name := "b", parent := some 0, children := [0], «local» := Isometry3d.IDENTITY,
     world := Isometry3d.IDENTITY, dirty := true }]

/-- Link state of the `pairTree` conversion after re-linking `lidar` below
`arm_base`, before the dirty walk. -/
def pairRelink1 : List TNode :=
  [{ name := "arm_base", parent := none, children := [1],
     «local» := Isometry3d.IDENTITY, world := Isometry3d.IDENTITY,
     dirty := false },
   { name := "lidar", parent := some 0, children := [],
     «local» := transIso (1/2) 0 0, world := transIso (1/2) 0 0,
     dirty := false }]

/-- Pre-update store of the `pairTree` conversion. -/
def pairStore1 : List TNode :=
  [{ name := "arm_base", parent := none, children := [1],
     «local» := Isometry3d.IDENTITY, world := Isometry3d.IDENTITY,
     dirty := false },
   { name := "lidar", parent := some 0, children := [],
     «local» := transIso (1/2) 0 0, world := transIso (1/2) 0 0,
     dirty := true }]

/-- Whether a conversion outcome is a success. -/
def ConvOutcome.isOk : ConvOutcome → Bool
  | .ok _ => true
  | _ => false

/-- The node list of a successful conversion outcome (empty otherwise). -/
def ConvOutcome.nodesOf : ConvOutcome → List TNode
  | .ok t => t.nodes
  | _ => []

/-!
# Theorems

Everything from here on is a proof about the definitions above.
-/

/-! ## Access lemmas -/

theorem length_setNode (ns : List TNode) (i : NodeId) (f : TNode → TNode) :
    (setNode ns i f).length = ns.length := by
  simp [setNode]

theorem getNode_setNode_self {ns : List TNode} {i : NodeId} (f : TNode → TNode)
    (h : i < ns.length) : getNode (setNode ns i f) i = f (getNode ns i) := by
  simp [setNode, getNode, List.getD_eq_getElem?_getD, List.getElem?_set_self h]

theorem getNode_setNode_ne {ns : List TNode} {i j : NodeId} (f : TNode → TNode)
    (h : i ≠ j) : getNode (setNode ns i f) j = getNode ns j := by
  simp [setNode, getNode, List.getD_eq_getElem?_getD, List.getElem?_set_ne h]

theorem getNode_append_left {ns ms : List TNode} {i : NodeId} (h : i < ns.length) :
    getNode (ns ++ ms) i = getNode ns i := by
  simp [getNode, List.getD_eq_getElem?_getD, List.getElem?_append_left h]

theorem getNode_concat_length (ns : List TNode) (a : TNode) :
    getNode (ns ++ [a]) ns.length = a := by
  simp [getNode, List.getD_eq_getElem?_getD, List.getElem?_concat_length]

theorem getNode_default_of_le (ns : List TNode) (i : NodeId) (h : ns.length ≤ i) :
    getNode ns i = default := by
  simp [getNode, List.getD_eq_getElem?_getD, List.getElem?_eq_none h]

theorem lt_length_of_clean {ns : List TNode} {i : NodeId}
    (h : (getNode ns i).dirty = false) : i < ns.length := by
  by_contra hi
  rw [getNode_default_of_le ns i (Nat.le_of_not_lt hi)] at h
  simp [default] at h

/-! ## Geometry lemmas -/

theorem Quat.mul_def (a b : Quat) : a * b = Quat.mul a b := rfl

theorem Vec3.add_def (a b : Vec3) : a + b = Vec3.add a b := rfl

theorem Isometry3d.mul_unfold (a b : Isometry3d) : a * b = Isometry3d.mul a b := rfl

theorem Isometry3d.identity_mul (a : Isometry3d) : Isometry3d.IDENTITY * a = a := by
  obtain ⟨⟨qx, qy, qz, qw⟩, ⟨tx, ty, tz⟩⟩ := a
  simp only [Isometry3d.mul_unfold, Isometry3d.mul, Isometry3d.IDENTITY, Quat.IDENTITY,
    Quat.mul_def, Quat.mul, Quat.rotate, Vec3.smul, Vec3.dot, Vec3.cross, Vec3.zero,
    Vec3.add_def, Vec3.add, Isometry3d.mk.injEq, Quat.mk.injEq, Vec3.mk.injEq]
  norm_num

/-! ## add_node -/
theorem set_concat_length (ns : List TNode) (a b : TNode) :
    (ns ++ [a]).set ns.length b = ns ++ [b] := by
  induction ns with
  | nil => rfl
  | cons hd tl ih => simp only [List.cons_append, List.length_cons,
      List.set_cons_succ, ih]

theorem setNode_concat (ns : List TNode) (a : TNode) (i : Nat) (f : TNode → TNode)
    (h : i = ns.length) : setNode (ns ++ [a]) i f = ns ++ [f a] := by
  subst h
  rw [setNode, getNode_concat_length, set_concat_length]

theorem setNode_append_left (ns ms : List TNode) (p : Nat) (f : TNode → TNode)
    (h : p < ns.length) : setNode (ns ++ ms) p f = setNode ns p f ++ ms := by
  rw [setNode, setNode, getNode_append_left h, List.set_append_left _ _ h]

theorem add_node_eq_root (t : TransformTree) (name : String) (l : Isometry3d)
    (par : Option NodeId) (h : ∀ p, par = some p → t.nodes.length ≤ p) :
    t.add_node name l par = (⟨t.nodes ++ [rootNode name l]⟩, t.nodes.length) := by
  cases par with
  | none =>
      simp only [TransformTree.add_node, setNode, getNode_concat_length,
        set_concat_length]
      rfl
  | some p =>
      have hp : ¬ p < t.nodes.length := Nat.not_lt.mpr (h p rfl)
      simp only [TransformTree.add_node, hp, if_false, setNode,
        getNode_concat_length, set_concat_length]
      rfl

theorem add_node_eq_link (t : TransformTree) (name : String) (l : Isometry3d)
    (p : NodeId) (h : p < t.nodes.length) :
    t.add_node name l (some p) =
      (⟨setNode t.nodes p (fun n => pushChild n t.nodes.length) ++
        [linkedNode name l p (getNode t.nodes p).world]⟩, t.nodes.length) := by
  simp only [TransformTree.add_node, h, if_true]
  rw [setNode_append_left _ _ _ _ h]
  have hlen : t.nodes.length =
      (setNode t.nodes p (fun n => { n with children := n.children ++ [t.nodes.length] })).length := by
    simp [setNode]
  rw [setNode_concat _ _ _ _ hlen]
  rw [getNode_append_left h]
  rfl

theorem getNode_concat_of_eq (ns : List TNode) (a : TNode) (i : Nat)
    (h : i = ns.length) : getNode (ns ++ [a]) i = a := by
  subst h; exact getNode_concat_length ns a

/-- C4: `add_node` never fails and always appends exactly one node whose
handle is the previous node count.  If a parent handle is supplied and is
numerically smaller than the new handle, the new node is linked as that
parent's child with `world = parent.world ∘ local` and `dirty = false`; in
every other case (no parent supplied, or a supplied parent handle that is
not smaller) the new node becomes a root with `world = local` and
`dirty = false`.  Prior nodes keep all their fields, except that a linking
parent gains the new handle at the end of its child list. -/
theorem C4_add_node (t : TransformTree) (name : String) (l : Isometry3d)
    (parent : Option NodeId) :
    (t.add_node name l parent).2 = t.nodes.length ∧
    (t.add_node name l parent).1.nodes.length = t.nodes.length + 1 ∧
    (getNode (t.add_node name l parent).1.nodes t.nodes.length).name = name ∧
    (getNode (t.add_node name l parent).1.nodes t.nodes.length).«local» = l ∧
    (getNode (t.add_node name l parent).1.nodes t.nodes.length).dirty = false ∧
    (∀ p, parent = some p → p < t.nodes.length →
      (getNode (t.add_node name l parent).1.nodes t.nodes.length).parent = some p ∧
      t.nodes.length ∈ (getNode (t.add_node name l parent).1.nodes p).children ∧
      (getNode (t.add_node name l parent).1.nodes t.nodes.length).world =
        (getNode t.nodes p).world * l) ∧
    ((∀ p, parent = some p → t.nodes.length ≤ p) →
      (getNode (t.add_node name l parent).1.nodes t.nodes.length).parent = none ∧
      (getNode (t.add_node name l parent).1.nodes t.nodes.length).world = l) ∧
    (∀ j, j < t.nodes.length →
      (getNode (t.add_node name l parent).1.nodes j).name = (getNode t.nodes j).name ∧
      (getNode (t.add_node name l parent).1.nodes j).parent = (getNode t.nodes j).parent ∧
      (getNode (t.add_node name l parent).1.nodes j).«local» =
        (getNode t.nodes j).«local» ∧
      (getNode (t.add_node name l parent).1.nodes j).world = (getNode t.nodes j).world ∧
      (getNode (t.add_node name l parent).1.nodes j).dirty = (getNode t.nodes j).dirty ∧
      (getNode (t.add_node name l parent).1.nodes j).children =
        (getNode t.nodes j).children ++
          (if parent = some j then [t.nodes.length] else [])) := by
  by_cases hlink : ∃ p, parent = some p ∧ p < t.nodes.length
  · obtain ⟨p, hpeq, hplt⟩ := hlink
    subst hpeq
    rw [add_node_eq_link t name l p hplt]
    have hlen : t.nodes.length =
        (setNode t.nodes p (fun n => pushChild n t.nodes.length)).length := by
      simp [setNode]
    have hlast : getNode (setNode t.nodes p (fun n => pushChild n t.nodes.length) ++
        [linkedNode name l p (getNode t.nodes p).world]) t.nodes.length =
        linkedNode name l p (getNode t.nodes p).world :=
      getNode_concat_of_eq _ _ _ hlen
    have hat : ∀ j, j < t.nodes.length →
        getNode (setNode t.nodes p (fun n => pushChild n t.nodes.length) ++
          [linkedNode name l p (getNode t.nodes p).world]) j =
        getNode (setNode t.nodes p (fun n => pushChild n t.nodes.length)) j := by
      intro j hj
      exact getNode_append_left (by simpa [setNode] using hj)
    refine ⟨rfl, by simp [setNode], by rw [hlast]; rfl, by rw [hlast]; rfl,
      by rw [hlast]; rfl, ?_, ?_, ?_⟩
    · intro q hq hqlt
      have hqp : p = q := Option.some.inj hq
      subst hqp
      refine ⟨by rw [hlast]; rfl, ?_, by rw [hlast]; rfl⟩
      rw [hat p hplt, getNode_setNode_self _ hplt]
      simp [pushChild]
    · intro hcontra
      exact absurd (hcontra p rfl) (Nat.not_le.mpr hplt)
    · intro j hj
      rw [hat j hj]
      by_cases hjp : j = p
      · subst hjp
        rw [getNode_setNode_self _ hplt]
        simp [pushChild]
      · rw [getNode_setNode_ne _ (Ne.symm hjp)]
        have hsome : ¬ (some p = some j) := fun hc => hjp (Option.some.inj hc).symm
        simp [pushChild, hsome]
  · have hroot : ∀ p, parent = some p → t.nodes.length ≤ p := by
      intro p hp
      by_contra hlt
      exact hlink ⟨p, hp, Nat.lt_of_not_le hlt⟩
    rw [add_node_eq_root t name l parent hroot]
    have hlast : getNode (t.nodes ++ [rootNode name l]) t.nodes.length =
        rootNode name l := getNode_concat_length _ _
    refine ⟨rfl, by simp, by rw [hlast]; rfl, by rw [hlast]; rfl, by rw [hlast]; rfl,
      ?_, ?_, ?_⟩
    · intro p hp hplt
      exact absurd (hroot p hp) (Nat.not_le.mpr hplt)
    · intro _
      exact ⟨by rw [hlast]; rfl, by rw [hlast]; rfl⟩
    · intro j hj
      rw [getNode_append_left hj]
      have hne : ¬ (parent = some j) := by
        intro hpj
        exact absurd (hroot j hpj) (Nat.not_le.mpr hj)
      simp [hne]

/-- C4 witness: `add_node` at a concrete two-node store with parent `0`. -/
theorem C4_add_node_witness :
    (twoNodeDirtyStore.add_node "c" (transIso 2 0 0) (some 0)).2 = 2 ∧
    (getNode (twoNodeDirtyStore.add_node "c" (transIso 2 0 0) (some 0)).1.nodes 2).parent
      = some 0 ∧
    (getNode (twoNodeDirtyStore.add_node "c" (transIso 2 0 0) (some 0)).1.nodes 2).world
      = (getNode twoNodeDirtyStore.nodes 0).world * transIso 2 0 0 :=
  have h := C4_add_node twoNodeDirtyStore "c" (transIso 2 0 0) (some 0)
  have hlk := h.2.2.2.2.2.1 0 rfl (by decide)
  ⟨h.1, hlk.1, hlk.2.2⟩


/-! ## Conversion: version irrelevance and the unknown-parent panic -/

/-- C10: the `version` field of a file tree does not influence conversion:
two file trees identical except for `version` convert to identical outcomes
(the conversion never inspects `version`). -/
theorem C10_version_irrelevant (sinq cosq : ℚ → ℚ) (v1 v2 : Nat)
    (nodes : List FileNode) :
    tryFrom sinq cosq ⟨v1, nodes⟩ = tryFrom sinq cosq ⟨v2, nodes⟩ := rfl

/-- C2 (code bug): converting a file tree in which a node's `parent` field
names an absent node does not return the `ParentMissing` error the
specification promises — the conversion panics, because `try_from` indexes
the name map (`name_map[&p]`) at the missing key. -/
theorem C2_unknown_parent_panics (sinq cosq : ℚ → ℚ) :
    tryFrom sinq cosq badParentTree = ConvOutcome.panicked := rfl

/-! ## name_hash -/

theorem lookup_isSome_iff (m : List (String × NodeId)) (s : String) :
    (m.lookup s).isSome = true ↔ s ∈ m.map Prod.fst := by
  induction m with
  | nil => simp [List.lookup]
  | cons a rest ih =>
      obtain ⟨k, v⟩ := a
      by_cases hk : s = k
      · subst hk
        simp [List.lookup]
      · have hbeq : (s == k) = false := by
          simp [hk]
        simp [List.lookup, hbeq, ih, hk]

theorem nameHashAux_error_iff :
    ∀ (l : List TNode) (k : NodeId) (m : List (String × NodeId)) (d : String),
      nameHashAux l k m = .error (.Duplicate d) ↔
        specFirstDupAux (m.map Prod.fst) (l.map TNode.name) = some d
  | [], k, m, d => by simp [nameHashAux, specFirstDupAux]
  | nd :: rest, k, m, d => by
      by_cases hmem : nd.name ∈ m.map Prod.fst
      · have hsome : (m.lookup nd.name).isSome = true := (lookup_isSome_iff m _).mpr hmem
        simp [nameHashAux, specFirstDupAux, hsome, hmem, eq_comm]
      · have hsome : ¬ (m.lookup nd.name).isSome = true := by
          rw [lookup_isSome_iff]; exact hmem
        have ih := nameHashAux_error_iff rest (k + 1) (m ++ [(nd.name, k)]) d
        simp only [List.map_append, List.map_cons, List.map_nil] at ih
        simp [nameHashAux, specFirstDupAux, hsome, hmem, ih]

theorem nameHashAux_ok :
    ∀ (l : List TNode) (k : NodeId) (m : List (String × NodeId)),
      specFirstDupAux (m.map Prod.fst) (l.map TNode.name) = none →
      nameHashAux l k m = .ok (m ++ handleMapAux l k)
  | [], k, m, _ => by simp [nameHashAux, handleMapAux]
  | nd :: rest, k, m, h => by
      simp only [List.map_cons, specFirstDupAux] at h
      by_cases hmem : nd.name ∈ m.map Prod.fst
      · simp [hmem] at h
      · have hsome : ¬ (m.lookup nd.name).isSome = true := by
          rw [lookup_isSome_iff]; exact hmem
        simp only [hmem, if_false] at h
        have ih := nameHashAux_ok rest (k + 1) (m ++ [(nd.name, k)])
          (by simpa using h)
        simp [nameHashAux, hsome, ih, handleMapAux]

theorem specFirstDupAux_none_iff :
    ∀ (l : List String) (seen : List String),
      specFirstDupAux seen l = none ↔ (∀ s ∈ l, s ∉ seen) ∧ l.Nodup
  | [], seen => by simp [specFirstDupAux]
  | s :: rest, seen => by
      by_cases hmem : s ∈ seen
      · simp [specFirstDupAux, hmem]
      · have ih := specFirstDupAux_none_iff rest (seen ++ [s])
        simp only [specFirstDupAux, hmem, if_false, ih, List.nodup_cons]
        constructor
        · rintro ⟨hall, hnd⟩
          have h1 : ∀ x ∈ rest, x ∉ seen := fun x hx hc =>
            hall x hx (List.mem_append.mpr (Or.inl hc))
          have h2 : s ∉ rest := fun hc =>
            hall s hc (List.mem_append.mpr (Or.inr (List.mem_singleton.mpr rfl)))
          refine ⟨?_, h2, hnd⟩
          intro x hx
          rcases List.mem_cons.mp hx with rfl | hx2
          · exact hmem
          · exact h1 x hx2
        · rintro ⟨hall, hs, hnd⟩
          refine ⟨?_, hnd⟩
          intro x hx hc
          rcases List.mem_append.mp hc with hc1 | hc2
          · exact hall x (List.mem_cons.mpr (Or.inr hx)) hc1
          · exact hs (by rwa [List.mem_singleton.mp hc2] at hx)

theorem specFirstDupAux_not_mem_seen :
    ∀ (l : List String) (seen : List String),
      specFirstDupAux seen l = none → ∀ s ∈ l, s ∉ seen := by
  intro l seen h
  exact ((specFirstDupAux_none_iff l seen).mp h).1

theorem handleMapAux_length : ∀ (l : List TNode) (k : NodeId),
    (handleMapAux l k).length = l.length
  | [], _ => rfl
  | nd :: rest, k => by simp [handleMapAux, handleMapAux_length rest (k + 1)]

theorem handleMapAux_lookup (l : List TNode) :
    ∀ (seen : List String) (k : NodeId),
      specFirstDupAux seen (l.map TNode.name) = none →
      ∀ i (h : i < l.length),
        (handleMapAux l k).lookup ((l.get ⟨i, h⟩).name) = some (k + i) := by
  induction l with
  | nil =>
      intro seen k hdup i h
      simp at h
  | cons nd rest ih =>
      intro seen k hdup i h
      cases i with
      | zero => simp [handleMapAux, List.lookup]
      | succ i =>
        simp only [List.map_cons, specFirstDupAux] at hdup
        by_cases hmem : nd.name ∈ seen
        · simp [hmem] at hdup
        · simp only [hmem, if_false] at hdup
          have hi : i < rest.length := by simpa using h
          have hget : (nd :: rest).get ⟨i + 1, h⟩ = rest.get ⟨i, hi⟩ := rfl
          have hmem2 : (rest.get ⟨i, hi⟩).name ∈ rest.map TNode.name :=
            List.mem_map_of_mem _ (rest.get_mem i hi)
          have hname : (rest.get ⟨i, hi⟩).name ≠ nd.name := by
            intro hc
            exact (specFirstDupAux_not_mem_seen _ _ hdup _ hmem2)
              (List.mem_append.mpr (Or.inr (List.mem_singleton.mpr hc)))
          have hbeq : ((rest.get ⟨i, hi⟩).name == nd.name) = false := by
            simp only [beq_eq_false_iff_ne, ne_eq]
            exact hname
          have hrec := ih (seen ++ [nd.name]) (k + 1) hdup i hi
          rw [hget]
          show List.lookup (rest.get ⟨i, hi⟩).name
            ((nd.name, k) :: handleMapAux rest (k + 1)) = some (k + (i + 1))
          simp only [List.lookup, hbeq]
          have harith : k + 1 + i = k + (i + 1) := by ring
          rw [hrec, harith]

theorem addAll_eq (sinq cosq : ℚ → ℚ) :
    ∀ (l : List FileNode) (t : TransformTree),
      (addAll sinq cosq l t).nodes =
        t.nodes ++ l.map (fun fn => rootNode fn.name (isoOfFileNode sinq cosq fn))
  | [], t => by simp [addAll]
  | fn :: rest, t => by
      have hadd : (t.add_node fn.name (isoOfFileNode sinq cosq fn) none).1 =
          ⟨t.nodes ++ [rootNode fn.name (isoOfFileNode sinq cosq fn)]⟩ := by
        rw [add_node_eq_root t fn.name _ none (fun p hp => Option.noConfusion hp)]
      show (addAll sinq cosq rest
        (t.add_node fn.name (isoOfFileNode sinq cosq fn) none).1).nodes = _
      rw [hadd, addAll_eq sinq cosq rest]
      simp

/-- C3: `name_hash` fails with `Duplicate d` exactly when `d` is the first
name, in handle order, that repeats an earlier node's name; it fails at all
iff two nodes share a name (the name list is not duplicate-free); otherwise
it succeeds with a mapping holding exactly one entry per node that sends
each node's name to that node's handle.  Consequently, converting a file
tree containing a repeated name fails with that duplicate-name error. -/
theorem C3_name_hash (t : TransformTree) (ft : FileTransformTree)
    (sinq cosq : ℚ → ℚ) (d : String) :
    (t.name_hash = .error (.Duplicate d) ↔
      specFirstDup (t.nodes.map TNode.name) = some d) ∧
    (specFirstDup (t.nodes.map TNode.name) = none ↔
      (t.nodes.map TNode.name).Nodup) ∧
    (specFirstDup (t.nodes.map TNode.name) = none →
      t.name_hash = .ok (handleMap t.nodes) ∧
      (handleMap t.nodes).length = t.nodes.length ∧
      (∀ i (h : i < t.nodes.length),
        (handleMap t.nodes).lookup ((t.nodes.get ⟨i, h⟩).name) = some i)) ∧
    (specFirstDup (ft.nodes.map FileNode.name) = some d →
      tryFrom sinq cosq ft = ConvOutcome.err (.Duplicate d)) := by
  refine ⟨?_, ?_, ?_, ?_⟩
  · simpa [TransformTree.name_hash, specFirstDup] using
      nameHashAux_error_iff t.nodes 0 [] d
  · simpa [specFirstDup] using
      specFirstDupAux_none_iff (t.nodes.map TNode.name) []
  · intro hnone
    refine ⟨?_, handleMapAux_length t.nodes 0, ?_⟩
    · simpa [TransformTree.name_hash, handleMap] using
        nameHashAux_ok t.nodes 0 [] (by simpa [specFirstDup] using hnone)
    · intro i h
      simpa using handleMapAux_lookup t.nodes []
        0 (by simpa [specFirstDup] using hnone) i h
  · intro hdup
    have hnames : (addAll sinq cosq ft.nodes ⟨[]⟩).nodes.map TNode.name =
        ft.nodes.map FileNode.name := by
      rw [addAll_eq]
      simp [rootNode]
    have herr : (addAll sinq cosq ft.nodes ⟨[]⟩).name_hash =
        .error (.Duplicate d) := by
      rw [show (addAll sinq cosq ft.nodes ⟨[]⟩).name_hash =
        nameHashAux (addAll sinq cosq ft.nodes ⟨[]⟩).nodes 0 [] from rfl]
      rw [nameHashAux_error_iff]
      simpa [specFirstDup, hnames] using hdup
    simp only [tryFrom, herr]

/-- C3 witness: a file tree with two nodes named `x` is rejected with the
duplicate-name error naming `x`. -/
theorem C3_name_hash_witness :
    specFirstDup (dupNameTree.nodes.map FileNode.name) = some "x" ∧
    tryFrom sinZero cosOne dupNameTree = ConvOutcome.err (.Duplicate "x") :=
  ⟨rfl, (C3_name_hash ⟨[]⟩ dupNameTree sinZero cosOne "x").2.2.2 rfl⟩

/-! ## The dirty walk -/

theorem setNode_dirty_length (ns : List TNode) (n : NodeId) :
    (setNode ns n (fun x => { x with dirty := true })).length = ns.length :=
  length_setNode ns n _

theorem getNode_markDirtyStep_ne {ns : List TNode} {n x : NodeId} (h : x ≠ n) :
    getNode (setNode ns n (fun y => { y with dirty := true })) x = getNode ns x :=
  getNode_setNode_ne _ (fun hc => h hc.symm)

theorem getNode_markDirtyStep_self {ns : List TNode} {n : NodeId}
    (h : n < ns.length) :
    getNode (setNode ns n (fun y => { y with dirty := true })) n =
      { getNode ns n with dirty := true } :=
  getNode_setNode_self _ h

theorem markDirtyTrace_fst : ∀ (ns : List TNode) (q : List NodeId),
    (markDirtyTrace ns q).1 = markDirtyAux ns q := by
  intro ns q
  induction ns, q using markDirtyTrace.induct with
  | case1 ns => simp [markDirtyTrace, markDirtyAux]
  | case2 ns n q hd ih =>
      rw [markDirtyTrace, markDirtyAux]
      simp only [hd, dif_pos]
      exact ih
  | case3 ns n q hd ih =>
      rw [markDirtyTrace, markDirtyAux]
      simp only [hd, dif_neg]
      exact ih

theorem markDirtyTrace_sound : ∀ (ns : List TNode) (q : List NodeId),
    (markDirtyTrace ns q).2.Nodup ∧
    ∀ x ∈ (markDirtyTrace ns q).2, x < ns.length ∧ (getNode ns x).dirty = false := by
  intro ns q
  induction ns, q using markDirtyTrace.induct with
  | case1 ns => simp [markDirtyTrace]
  | case2 ns n q hd ih =>
      rw [markDirtyTrace]
      simp only [hd, dif_pos]
      exact ih
  | case3 ns n q hd ih =>
      rw [markDirtyTrace]
      simp only [hd, dif_neg]
      have hdf : (getNode ns n).dirty = false := by simpa using hd
      have hn : n < ns.length := lt_length_of_clean hdf
      have hne : ∀ x ∈ (markDirtyTrace
          (setNode ns n (fun y => { y with dirty := true }))
          (q ++ (getNode ns n).children)).2, x ≠ n := by
        intro x hx hc
        have hcl := (ih.2 x hx).2
        rw [hc, getNode_markDirtyStep_self hn] at hcl
        simp at hcl
      refine ⟨?_, ?_⟩
      · exact List.nodup_cons.mpr ⟨fun hc => (hne n hc) rfl, ih.1⟩
      · intro x hx
        rcases List.mem_cons.mp hx with rfl | hx2
        · exact ⟨hn, hdf⟩
        · have h1 := ih.2 x hx2
          have hxn := hne x hx2
          rw [setNode_dirty_length] at h1
          refine ⟨h1.1, ?_⟩
          rw [← getNode_markDirtyStep_ne hxn]
          exact h1.2

/-- C8: the breadth-first dirty walk terminates on every store and every
handle (the instrumented walk below is a total function whose store
component agrees with `mark_dirty`), and it expands each node at most once:
its expansion list is duplicate-free, contains only in-range handles, and
consists of nodes that were clean when the walk started — a node is
enqueued for expansion only when it transitions from not-dirty to dirty.
This holds for arbitrary children links, including repeats and cycles. -/
theorem C8_mark_dirty_terminates (t : TransformTree) (id : NodeId) :
    (markDirtyTrace t.nodes [id]).1 = (t.mark_dirty id).nodes ∧
    (markDirtyTrace t.nodes [id]).2.Nodup ∧
    (∀ x ∈ (markDirtyTrace t.nodes [id]).2,
      x < t.nodes.length ∧ (getNode t.nodes x).dirty = false) :=
  ⟨markDirtyTrace_fst t.nodes [id], (markDirtyTrace_sound t.nodes [id]).1,
    (markDirtyTrace_sound t.nodes [id]).2⟩

theorem markDirtyAux_nil (ns : List TNode) : markDirtyAux ns [] = ns := by
  rw [markDirtyAux]

theorem markDirtyAux_cons_dirty (ns : List TNode) (n : NodeId) (q : List NodeId)
    (h : (getNode ns n).dirty = true) :
    markDirtyAux ns (n :: q) = markDirtyAux ns q := by
  rw [markDirtyAux]
  simp only [h, dif_pos]

theorem markDirtyAux_cons_clean (ns : List TNode) (n : NodeId) (q : List NodeId)
    (h : (getNode ns n).dirty = false) :
    markDirtyAux ns (n :: q) =
      markDirtyAux (setNode ns n (fun x => { x with dirty := true }))
        (q ++ (getNode ns n).children) := by
  rw [markDirtyAux]
  simp only [h, dite_false, Bool.false_eq_true, dif_neg, not_false_iff]

/-! ## Reachability through clean nodes: what the dirty walk marks -/

theorem setNode_of_le {ns : List TNode} {n : NodeId} (h : ns.length ≤ n)
    (f : TNode → TNode) : setNode ns n f = ns := by
  rw [setNode, List.set_eq_of_length_le h]

theorem CReach_not_of_dirty {ns : List TNode} {a x : NodeId}
    (h : (getNode ns a).dirty = true) : ¬ CReach ns a x := by
  intro hr
  cases hr with
  | refl _ hc => rw [h] at hc; simp at hc
  | step hc _ _ => rw [h] at hc; simp at hc

theorem children_markDirtyStep (ns : List TNode) (n : NodeId) (x : NodeId) :
    (getNode (setNode ns n (fun y => { y with dirty := true })) x).children =
      (getNode ns x).children := by
  by_cases hx : x = n
  · subst hx
    by_cases hn : x < ns.length
    · rw [getNode_markDirtyStep_self hn]
    · rw [setNode_of_le (Nat.le_of_not_lt hn)]
  · rw [getNode_markDirtyStep_ne hx]

theorem dirty_markDirtyStep_false {ns : List TNode} {n x : NodeId}
    (h : (getNode (setNode ns n (fun y => { y with dirty := true })) x).dirty
      = false) : x ≠ n ∧ (getNode ns x).dirty = false := by
  by_cases hx : x = n
  · subst hx
    by_cases hn : x < ns.length
    · rw [getNode_markDirtyStep_self hn] at h
      simp at h
    · rw [setNode_of_le (Nat.le_of_not_lt hn)] at h
      exact absurd (lt_length_of_clean h) hn
  · exact ⟨hx, by rwa [getNode_markDirtyStep_ne hx] at h⟩

theorem CReach_mono_set {ns : List TNode} {n a x : NodeId}
    (h : CReach (setNode ns n (fun y => { y with dirty := true })) a x) :
    CReach ns a x := by
  induction h with
  | refl b hb => exact CReach.refl b (dirty_markDirtyStep_false hb).2
  | step hb hc hr ih =>
      exact CReach.step (dirty_markDirtyStep_false hb).2
        (by rwa [children_markDirtyStep] at hc) ih

theorem CReach_avoid_step {ns : List TNode} {n b c x : NodeId}
    (hb : (getNode ns b).dirty = false) (hc : c ∈ (getNode ns b).children)
    (hend : CReach (setNode ns n (fun y => { y with dirty := true })) c x) :
    (∃ d ∈ (getNode ns n).children,
      CReach (setNode ns n (fun y => { y with dirty := true })) d x) ∨
    CReach (setNode ns n (fun y => { y with dirty := true })) b x := by
  by_cases hbn : b = n
  · subst hbn
    exact Or.inl ⟨c, hc, hend⟩
  · exact Or.inr (CReach.step (by rw [getNode_markDirtyStep_ne hbn]; exact hb)
      (by rw [children_markDirtyStep]; exact hc) hend)

theorem CReach_avoid {ns : List TNode} {n a x : NodeId} (h : CReach ns a x) :
    x = n ∨
    (∃ c ∈ (getNode ns n).children,
      CReach (setNode ns n (fun y => { y with dirty := true })) c x) ∨
    CReach (setNode ns n (fun y => { y with dirty := true })) a x := by
  induction h with
  | refl b hb =>
      by_cases hbn : b = n
      · exact Or.inl hbn
      · exact Or.inr (Or.inr (CReach.refl b
          (by rw [getNode_markDirtyStep_ne hbn]; exact hb)))
  | step hb hc hr ih =>
      rcases ih with rfl | hmid | hend
      · exact Or.inl rfl
      · exact Or.inr (Or.inl hmid)
      · rcases CReach_avoid_step hb hc hend with hmid2 | hstep
        · exact Or.inr (Or.inl hmid2)
        · exact Or.inr (Or.inr hstep)

theorem markDirtyAux_dirty_iff :
    ∀ (ns : List TNode) (q : List NodeId) (x : NodeId),
      (getNode (markDirtyAux ns q) x).dirty = true ↔
        (getNode ns x).dirty = true ∨ ∃ a ∈ q, CReach ns a x := by
  intro ns q
  induction ns, q using markDirtyAux.induct with
  | case1 ns =>
      intro x
      rw [markDirtyAux_nil]
      simp
  | case2 ns n q hd ih =>
      intro x
      rw [markDirtyAux_cons_dirty ns n q hd]
      rw [ih x]
      constructor
      · rintro (h1 | ⟨a, ha, hr⟩)
        · exact Or.inl h1
        · exact Or.inr ⟨a, List.mem_cons.mpr (Or.inr ha), hr⟩
      · rintro (h1 | ⟨a, ha, hr⟩)
        · exact Or.inl h1
        · rcases List.mem_cons.mp ha with rfl | ha2
          · exact absurd hr (CReach_not_of_dirty hd)
          · exact Or.inr ⟨a, ha2, hr⟩
  | case3 ns n q hd ih =>
      intro x
      have hdf : (getNode ns n).dirty = false := by simpa using hd
      have hn : n < ns.length := lt_length_of_clean hdf
      rw [markDirtyAux_cons_clean ns n q hdf]
      rw [ih x]
      have hdirty2 : (getNode (setNode ns n (fun y => { y with dirty := true })) x).dirty
          = true ↔ x = n ∨ (getNode ns x).dirty = true := by
        by_cases hx : x = n
        · subst hx
          rw [getNode_markDirtyStep_self hn]
          simp
        · rw [getNode_markDirtyStep_ne hx]
          simp [hx]
      constructor
      · rintro (h1 | ⟨a, ha, hr⟩)
        · rcases hdirty2.mp h1 with rfl | h2
          · exact Or.inr ⟨x, List.mem_cons.mpr (Or.inl rfl), CReach.refl x hdf⟩
          · exact Or.inl h2
        · rcases List.mem_append.mp ha with haq | hac
          · exact Or.inr ⟨a, List.mem_cons.mpr (Or.inr haq), CReach_mono_set hr⟩
          · exact Or.inr ⟨n, List.mem_cons.mpr (Or.inl rfl),
              CReach.step hdf hac (CReach_mono_set hr)⟩
      · rintro (h1 | ⟨a, ha, hr⟩)
        · exact Or.inl (hdirty2.mpr (Or.inr h1))
        · rcases List.mem_cons.mp ha with rfl | ha2
          · rcases CReach_avoid hr with hxn | ⟨c, hc, hr2⟩ | hend
            · exact Or.inl (hdirty2.mpr (Or.inl hxn))
            · exact Or.inr ⟨c, List.mem_append.mpr (Or.inr hc), hr2⟩
            · exfalso
              refine CReach_not_of_dirty ?_ hend
              rw [getNode_markDirtyStep_self hn]
          · rcases CReach_avoid hr with hxn | ⟨c, hc, hr2⟩ | hend
            · exact Or.inl (hdirty2.mpr (Or.inl hxn))
            · exact Or.inr ⟨c, List.mem_append.mpr (Or.inr hc), hr2⟩
            · exact Or.inr ⟨a, List.mem_append.mpr (Or.inl ha2), hend⟩

theorem mark_dirty_dirty_iff (t : TransformTree) (id x : NodeId) :
    (getNode (t.mark_dirty id).nodes x).dirty = true ↔
      (getNode t.nodes x).dirty = true ∨ CReach t.nodes id x := by
  show (getNode (markDirtyAux t.nodes [id]) x).dirty = true ↔ _
  rw [markDirtyAux_dirty_iff t.nodes [id] x]
  simp

theorem mark_dirty_of_dirty (t : TransformTree) (id : NodeId)
    (h : (getNode t.nodes id).dirty = true) : t.mark_dirty id = t := by
  show (⟨markDirtyAux t.nodes [id]⟩ : TransformTree) = t
  rw [markDirtyAux_cons_dirty _ _ _ h, markDirtyAux_nil]

/-! ## Re-linking -/

theorem getNode_setNode_proj {β : Type} (g : TNode → β) {ms : List TNode}
    {i x : NodeId} (f : TNode → TNode) (hf : ∀ nd, g (f nd) = g nd) :
    g (getNode (setNode ms i f) x) = g (getNode ms x) := by
  by_cases hx : i = x
  · subst hx
    by_cases hi : i < ms.length
    · rw [getNode_setNode_self _ hi, hf]
    · rw [setNode_of_le (Nat.le_of_not_lt hi)]
  · rw [getNode_setNode_ne _ hx]

theorem relink_proj {β : Type} (g : TNode → β)
    (hparent : ∀ nd q, g { nd with parent := q } = g nd)
    (hchildren : ∀ nd cs, g { nd with children := cs } = g nd)
    (ns : List TNode) (id : NodeId) (par : Option NodeId) (x : NodeId) :
    g (getNode (relink ns id par) x) = g (getNode ns x) := by
  cases par with
  | none =>
      cases hold : (getNode ns id).parent with
      | none =>
          simp only [relink, hold]
          exact getNode_setNode_proj g _ (fun nd => hparent nd none)
      | some p =>
          simp only [relink, hold]
          rw [getNode_setNode_proj g _ (fun nd => hchildren nd _)]
          exact getNode_setNode_proj g _ (fun nd => hparent nd none)
  | some p2 =>
      cases hold : (getNode ns id).parent with
      | none =>
          simp only [relink, hold]
          rw [getNode_setNode_proj g _ (fun nd => hparent nd (some p2))]
          rw [getNode_setNode_proj g _ (fun nd => hchildren nd _)]
          exact getNode_setNode_proj g _ (fun nd => hparent nd none)
      | some p =>
          simp only [relink, hold]
          rw [getNode_setNode_proj g _ (fun nd => hparent nd (some p2))]
          rw [getNode_setNode_proj g _ (fun nd => hchildren nd _)]
          rw [getNode_setNode_proj g _ (fun nd => hchildren nd _)]
          exact getNode_setNode_proj g _ (fun nd => hparent nd none)

theorem relink_dirty (ns : List TNode) (id : NodeId) (par : Option NodeId)
    (x : NodeId) :
    (getNode (relink ns id par) x).dirty = (getNode ns x).dirty :=
  relink_proj TNode.dirty (fun _ _ => rfl) (fun _ _ => rfl) ns id par x

theorem relink_world (ns : List TNode) (id : NodeId) (par : Option NodeId)
    (x : NodeId) :
    (getNode (relink ns id par) x).world = (getNode ns x).world :=
  relink_proj TNode.world (fun _ _ => rfl) (fun _ _ => rfl) ns id par x

theorem relink_name (ns : List TNode) (id : NodeId) (par : Option NodeId)
    (x : NodeId) :
    (getNode (relink ns id par) x).name = (getNode ns x).name :=
  relink_proj TNode.name (fun _ _ => rfl) (fun _ _ => rfl) ns id par x

theorem relink_local (ns : List TNode) (id : NodeId) (par : Option NodeId)
    (x : NodeId) :
    (getNode (relink ns id par) x).«local» = (getNode ns x).«local» :=
  relink_proj TNode.«local» (fun _ _ => rfl) (fun _ _ => rfl) ns id par x

theorem relink_length (ns : List TNode) (id : NodeId) (par : Option NodeId) :
    (relink ns id par).length = ns.length := by
  cases par with
  | none =>
      cases hold : (getNode ns id).parent with
      | none => simp only [relink, hold, length_setNode]
      | some p => simp only [relink, hold, length_setNode]
  | some p2 =>
      cases hold : (getNode ns id).parent with
      | none => simp only [relink, hold, length_setNode]
      | some p => simp only [relink, hold, length_setNode]

theorem relink_parent_self (ns : List TNode) (id : NodeId) (par : Option NodeId)
    (hid : id < ns.length) :
    (getNode (relink ns id par) id).parent = par := by
  cases par with
  | none =>
      cases hold : (getNode ns id).parent with
      | none =>
          simp only [relink, hold]
          rw [getNode_setNode_self _ hid]
      | some p =>
          simp only [relink, hold]
          rw [getNode_setNode_proj TNode.parent
            (fun n => { n with children := n.children.filter (fun c => c != id) })
            (fun nd => rfl)]
          rw [getNode_setNode_self _ hid]
  | some p2 =>
      simp only [relink]
      cases hold : (getNode ns id).parent with
      | none =>
          simp only [hold]
          rw [getNode_setNode_self _ (by simpa [length_setNode] using hid)]
      | some p =>
          simp only [hold]
          rw [getNode_setNode_self _ (by simpa [length_setNode] using hid)]

theorem mem_children_setNode_parent {ms : List TNode} {i x c : NodeId}
    {q : Option NodeId}
    (h : c ∈ (getNode (setNode ms i (fun nd => { nd with parent := q })) x).children) :
    c ∈ (getNode ms x).children := by
  rwa [getNode_setNode_proj TNode.children
    (fun nd => { nd with parent := q }) (fun nd => rfl)] at h

theorem mem_children_setNode_filter {ms : List TNode} {i x c : NodeId}
    {p : NodeId → Bool}
    (h : c ∈ (getNode (setNode ms i
      (fun nd => { nd with children := nd.children.filter p })) x).children) :
    c ∈ (getNode ms x).children := by
  by_cases hx : i = x
  · subst hx
    by_cases hi : i < ms.length
    · rw [getNode_setNode_self _ hi] at h
      exact List.mem_of_mem_filter h
    · rwa [setNode_of_le (Nat.le_of_not_lt hi)] at h
  · rwa [getNode_setNode_ne _ hx] at h

theorem mem_children_setNode_push {ms : List TNode} {i x c d : NodeId}
    (h : c ∈ (getNode (setNode ms i
      (fun nd => { nd with children := nd.children ++ [d] })) x).children) :
    c ∈ (getNode ms x).children ∨ (x = i ∧ c = d) := by
  by_cases hx : i = x
  · subst hx
    by_cases hi : i < ms.length
    · rw [getNode_setNode_self _ hi] at h
      rcases List.mem_append.mp h with h1 | h2
      · exact Or.inl h1
      · exact Or.inr ⟨rfl, List.mem_singleton.mp h2⟩
    · rw [setNode_of_le (Nat.le_of_not_lt hi)] at h
      exact Or.inl h
  · rw [getNode_setNode_ne _ hx] at h
    exact Or.inl h

theorem relink_children_sub {ns : List TNode} {id : NodeId} {par : Option NodeId}
    {x c : NodeId} (h : c ∈ (getNode (relink ns id par) x).children) :
    c ∈ (getNode ns x).children ∨ (par = some x ∧ c = id) := by
  cases par with
  | none =>
      refine Or.inl ?_
      cases hold : (getNode ns id).parent with
      | none =>
          simp only [relink, hold] at h
          exact mem_children_setNode_parent h
      | some p =>
          simp only [relink, hold] at h
          exact mem_children_setNode_parent (mem_children_setNode_filter h)
  | some p2 =>
      cases hold : (getNode ns id).parent with
      | none =>
          simp only [relink, hold] at h
          have h1 := mem_children_setNode_parent h
          rcases mem_children_setNode_push h1 with h2 | ⟨rfl, rfl⟩
          · exact Or.inl (mem_children_setNode_parent h2)
          · exact Or.inr ⟨rfl, rfl⟩
      | some p =>
          simp only [relink, hold] at h
          have h1 := mem_children_setNode_parent h
          rcases mem_children_setNode_push h1 with h2 | ⟨rfl, rfl⟩
          · exact Or.inl (mem_children_setNode_parent (mem_children_setNode_filter h2))
          · exact Or.inr ⟨rfl, rfl⟩

/-! ## Descendants along children links -/

theorem DescC_trans {ns : List TNode} {a b c : NodeId} (h1 : DescC ns a b)
    (h2 : DescC ns b c) : DescC ns a c := by
  induction h1 with
  | refl _ => exact h2
  | step hm _ ih => exact DescC.step hm (ih h2)

theorem CReach_to_DescC {ns : List TNode} {a x : NodeId} (h : CReach ns a x) :
    DescC ns a x := by
  induction h with
  | refl b _ => exact DescC.refl b
  | step _ hc _ ih => exact DescC.step hc ih

theorem DescC_rank {ns : List TNode} {rank : NodeId → Nat}
    (hcp : ∀ p, p < ns.length → ∀ c ∈ (getNode ns p).children,
      c < ns.length ∧ (getNode ns c).parent = some p)
    (hrk : ∀ i, i < ns.length → ∀ p, (getNode ns i).parent = some p →
      rank p < rank i) :
    ∀ {a b : NodeId}, DescC ns a b → a < ns.length →
      b = a ∨ (b < ns.length ∧ rank a < rank b) := by
  intro a b h
  induction h with
  | refl c => exact fun _ => Or.inl rfl
  | step hm hr ih =>
      rename_i u v w
      intro hu
      have hv := hcp u hu v hm
      have hrank : rank u < rank v := hrk v hv.1 u hv.2
      rcases ih hv.1 with rfl | ⟨hw, hr2⟩
      · exact Or.inr ⟨hv.1, hrank⟩
      · exact Or.inr ⟨hw, Nat.lt_trans hrank hr2⟩

theorem DescC_dirty_propagate {ns : List TNode} {a : NodeId}
    (hcl : ∀ p, DescC ns a p → (getNode ns p).dirty = true →
      ∀ c ∈ (getNode ns p).children, (getNode ns c).dirty = true) :
    ∀ {b x : NodeId}, DescC ns b x → DescC ns a b →
      (getNode ns b).dirty = true → (getNode ns x).dirty = true := by
  intro b x h
  induction h with
  | refl c => exact fun _ hd => hd
  | step hm hr ih =>
      rename_i u v w
      intro hab hdu
      have hdv : (getNode ns v).dirty = true := hcl u hab hdu v hm
      have hav : DescC ns a v := DescC_trans hab (DescC.step hm (DescC.refl v))
      exact ih hav hdv

theorem DescC_to_dirty_or_CReach {ns : List TNode} {a : NodeId}
    (hcl : ∀ p, DescC ns a p → (getNode ns p).dirty = true →
      ∀ c ∈ (getNode ns p).children, (getNode ns c).dirty = true) :
    ∀ {b x : NodeId}, DescC ns b x → DescC ns a b →
      (getNode ns x).dirty = true ∨ CReach ns b x := by
  intro b x h
  induction h with
  | refl c =>
      intro _
      cases hd : (getNode ns c).dirty with
      | true => exact Or.inl rfl
      | false => exact Or.inr (CReach.refl c hd)
  | step hm hr ih =>
      rename_i u v w
      intro hab
      cases hd : (getNode ns u).dirty with
      | true =>
          exact Or.inl (DescC_dirty_propagate hcl (DescC.step hm hr) hab hd)
      | false =>
          have hav : DescC ns a v := DescC_trans hab (DescC.step hm (DescC.refl v))
          rcases ih hav with h1 | h2
          · exact Or.inl h1
          · exact Or.inr (CReach.step hd hm h2)

/-- C6 (amended): on a forest store whose dirty flags are downward closed —
every child of a dirty node is already dirty, which is the state the
dirty-propagation engine itself maintains — and provided the re-parenting
leaves the parent/child links a forest, `set_parent(handle, new_parent)`
leaves dirty exactly the nodes that were dirty before the call plus the
re-parented node and all of its new descendants, and no other node; and
`mark_dirty` on an already-dirty node changes nothing. -/
theorem C6_set_parent_dirty (t : TransformTree) (h : NodeId) (par : Option NodeId)
    (hid : h < t.nodes.length)
    (hF : Forest t.nodes)
    (hD : DirtyClosed t.nodes)
    (hF1 : Forest (relink t.nodes h par)) :
    (∀ x, (getNode (t.set_parent h par).nodes x).dirty = true ↔
      ((getNode t.nodes x).dirty = true ∨ DescC (relink t.nodes h par) h x)) ∧
    (∀ id2, (getNode t.nodes id2).dirty = true → t.mark_dirty id2 = t) := by
  obtain ⟨rank, hrkbound, hrk⟩ := hF1.acyclic
  have hlen : (relink t.nodes h par).length = t.nodes.length :=
    relink_length t.nodes h par
  have hid1 : h < (relink t.nodes h par).length := by rwa [hlen]
  have hcl : ∀ p, DescC (relink t.nodes h par) h p →
      (getNode (relink t.nodes h par) p).dirty = true →
      ∀ c ∈ (getNode (relink t.nodes h par) p).children,
        (getNode (relink t.nodes h par) c).dirty = true := by
    intro p hdp hdirty c hc
    have hplt : p < (relink t.nodes h par).length := by
      rcases DescC_rank hF1.children_parent hrk hdp hid1 with rfl | ⟨hp, _⟩
      · exact hid1
      · exact hp
    rcases relink_children_sub hc with hc0 | ⟨hpar, hch⟩
    · rw [relink_dirty]
      rw [relink_dirty] at hdirty
      exact hD p (by rwa [hlen] at hplt) hdirty c hc0
    · exfalso
      have hph : (getNode (relink t.nodes h par) h).parent = some p :=
        (relink_parent_self t.nodes h par hid).trans hpar
      have hrankph : rank p < rank h := hrk h hid1 p hph
      rcases DescC_rank hF1.children_parent hrk hdp hid1 with rfl | ⟨_, hr2⟩
      · exact Nat.lt_irrefl _ hrankph
      · exact Nat.lt_irrefl _ (Nat.lt_trans hrankph hr2)
  constructor
  · intro x
    have hmd := mark_dirty_dirty_iff ⟨relink t.nodes h par⟩ h x
    show (getNode (TransformTree.mark_dirty ⟨relink t.nodes h par⟩ h).nodes x).dirty
      = true ↔ _
    rw [hmd, relink_dirty]
    constructor
    · rintro (h1 | h2)
      · exact Or.inl h1
      · exact Or.inr (CReach_to_DescC h2)
    · rintro (h1 | h2)
      · exact Or.inl h1
      · rcases DescC_to_dirty_or_CReach hcl h2 (DescC.refl h) with h3 | h4
        · rw [relink_dirty] at h3
          exact Or.inl h3
        · exact Or.inr h4
  · intro id2 hd2
    exact mark_dirty_of_dirty t id2 hd2

/-! ## Building the forest predicates from the boolean checks -/

theorem StoreInv.of_check {ns : List TNode} (h : checkLinks ns = true) :
    StoreInv ns := by
  rw [checkLinks, List.all_eq_true] at h
  have hmem : ∀ i, i < ns.length →
      (match (getNode ns i).parent with
       | none => true
       | some p => decide (p < ns.length) && decide (i ∈ (getNode ns p).children)) = true ∧
      ((getNode ns i).children.all (fun c =>
        decide (c < ns.length) && decide ((getNode ns c).parent = some i))) = true ∧
      decide ((getNode ns i).children.Nodup) = true := by
    intro i hi
    have := h i (List.mem_range.mpr hi)
    simp only [Bool.and_eq_true] at this
    exact ⟨this.1.1, this.1.2, this.2⟩
  refine ⟨?_, ?_, ?_, ?_⟩
  · intro i hi p hp
    have h1 := (hmem i hi).1
    rw [hp] at h1
    simp only [Bool.and_eq_true, decide_eq_true_eq] at h1
    exact h1.1
  · intro i hi p hp
    have h1 := (hmem i hi).1
    rw [hp] at h1
    simp only [Bool.and_eq_true, decide_eq_true_eq] at h1
    exact h1.2
  · intro p hp c hc
    have h2 := (hmem p hp).2.1
    rw [List.all_eq_true] at h2
    have := h2 c hc
    simp only [Bool.and_eq_true, decide_eq_true_eq] at this
    exact this
  · intro p hp
    have h3 := (hmem p hp).2.2
    simpa using h3

theorem rank_of_check {ns : List TNode} {rank : NodeId → Nat}
    (h : checkRank ns rank = true) :
    (∀ i, i < ns.length → rank i < ns.length) ∧
    (∀ i, i < ns.length → ∀ p, (getNode ns i).parent = some p → rank p < rank i) := by
  rw [checkRank, List.all_eq_true] at h
  constructor
  · intro i hi
    have := h i (List.mem_range.mpr hi)
    simp only [Bool.and_eq_true, decide_eq_true_eq] at this
    exact this.1
  · intro i hi p hp
    have := h i (List.mem_range.mpr hi)
    simp only [Bool.and_eq_true] at this
    have h2 := this.2
    rw [hp] at h2
    simpa using h2

theorem Forest.of_checks {ns : List TNode} (rank : NodeId → Nat)
    (h1 : checkLinks ns = true) (h2 : checkRank ns rank = true) : Forest ns := by
  obtain ⟨a, b, c, d⟩ := StoreInv.of_check h1
  exact ⟨a, b, c, d, rank, (rank_of_check h2).1, (rank_of_check h2).2⟩

/-- C6 counterexample: in the two-node forest store with a dirty root `0`
whose only child `1` is clean, re-parenting node `0` (making `1` a
descendant of the re-parented node) leaves node `1` clean, although the
claim as stated requires every descendant of the re-parented node to be
dirty after the call. -/
theorem C6_counterexample :
    Forest dirtyRootStore.nodes ∧
    (1 : NodeId) ∈ (getNode dirtyRootStore.nodes 0).children ∧
    DescC (relink dirtyRootStore.nodes 0 none) 0 1 ∧
    (getNode (dirtyRootStore.set_parent 0 none).nodes 1).dirty = false := by
  refine ⟨Forest.of_checks (fun i => i) (by decide) (by decide), by decide, ?_, ?_⟩
  · exact DescC.step (by decide) (DescC.refl 1)
  · show (getNode (markDirtyAux (relink dirtyRootStore.nodes 0 none) [0]) 1).dirty
      = false
    rw [markDirtyAux_cons_dirty _ _ _ (by decide), markDirtyAux_nil]
    decide

/-- C6 witness: the amended theorem applied to the all-clean two-node store,
re-parenting the root to no parent. -/
theorem C6_set_parent_dirty_witness :
    ((getNode (twoNodeCleanStore.set_parent 0 none).nodes 1).dirty = true ↔
      ((getNode twoNodeCleanStore.nodes 1).dirty = true ∨
        DescC (relink twoNodeCleanStore.nodes 0 none) 0 1)) ∧
    ((getNode twoNodeCleanStore.nodes 0).dirty = true →
      twoNodeCleanStore.mark_dirty 0 = twoNodeCleanStore) :=
  have h := C6_set_parent_dirty twoNodeCleanStore 0 none (by decide)
    (Forest.of_checks (fun i => i) (by decide) (by decide))
    (by unfold DirtyClosed; decide)
    (Forest.of_checks (fun i => i) (by decide) (by decide))
  ⟨h.1 1, h.2 0⟩

theorem markDirtyTrace_nil (ns : List TNode) : markDirtyTrace ns [] = (ns, []) := by
  rw [markDirtyTrace]

theorem markDirtyTrace_cons_dirty (ns : List TNode) (n : NodeId) (q : List NodeId)
    (h : (getNode ns n).dirty = true) :
    markDirtyTrace ns (n :: q) = markDirtyTrace ns q := by
  rw [markDirtyTrace]
  simp only [h, dif_pos]

theorem markDirtyTrace_cons_clean (ns : List TNode) (n : NodeId) (q : List NodeId)
    (h : (getNode ns n).dirty = false) :
    markDirtyTrace ns (n :: q) =
      ((markDirtyTrace (setNode ns n (fun x => { x with dirty := true }))
          (q ++ (getNode ns n).children)).1,
       n :: (markDirtyTrace (setNode ns n (fun x => { x with dirty := true }))
          (q ++ (getNode ns n).children)).2) := by
  rw [markDirtyTrace]
  simp only [h, dite_false, Bool.false_eq_true, dif_neg, not_false_iff]

/-- C8 witness: the termination-and-single-expansion theorem applied to a
store whose children links form a two-cycle. -/
theorem C8_mark_dirty_terminates_witness :
    (markDirtyTrace cyclicStore.nodes [0]).1 = (cyclicStore.mark_dirty 0).nodes ∧
    (markDirtyTrace cyclicStore.nodes [0]).2.Nodup ∧
    (0 < cyclicStore.nodes.length ∧ (getNode cyclicStore.nodes 0).dirty = false) := by
  have h := C8_mark_dirty_terminates cyclicStore 0
  have heval : (markDirtyTrace cyclicStore.nodes [0]).2 = [0, 1] := by
    rw [markDirtyTrace_cons_clean _ _ _ (by decide)]
    simp only [List.nil_append]
    rw [show (getNode cyclicStore.nodes 0).children = [1] from by decide]
    rw [markDirtyTrace_cons_clean _ _ _ (by decide)]
    simp only [List.nil_append]
    rw [show (getNode (setNode cyclicStore.nodes 0
      (fun x => { x with dirty := true })) 1).children = [0] from by decide]
    rw [markDirtyTrace_cons_dirty _ _ _ (by decide), markDirtyTrace_nil]
  exact ⟨h.1, h.2.1, h.2.2 0 (by rw [heval]; decide)⟩

/-! ## Frame conditions of the world update -/

theorem updateWorldAux_preserves :
    ∀ (fuel : Nat) (stack : List (NodeId × Isometry3d)) (ns : List TNode),
      (updateWorldAux fuel stack ns).length = ns.length ∧
      (∀ i, skel (getNode (updateWorldAux fuel stack ns) i) = skel (getNode ns i)) ∧
      (∀ i, (getNode ns i).dirty = false →
        getNode (updateWorldAux fuel stack ns) i = getNode ns i) ∧
      (∀ i, (getNode (updateWorldAux fuel stack ns) i).dirty = true →
        (getNode ns i).dirty = true)
  | 0, _, ns => by
      simp [updateWorldAux]
  | fuel + 1, [], ns => by
      simp [updateWorldAux]
  | fuel + 1, (id, pw) :: rest, ns => by
      rw [updateWorldAux]
      by_cases hd : (getNode ns id).dirty = true
      · simp only [hd, if_true]
        set f : TNode → TNode :=
          fun n => { n with world := pw * n.«local», dirty := false } with hf
        have hstep : ∀ i, (getNode ns i).dirty = false →
            getNode (setNode ns id f) i = getNode ns i := by
          intro i hdi
          by_cases hii : id = i
          · subst hii
            rw [hd] at hdi
            exact absurd hdi (by simp)
          · exact getNode_setNode_ne _ hii
        have hskel : ∀ i, skel (getNode (setNode ns id f) i) = skel (getNode ns i) := by
          intro i
          exact getNode_setNode_proj skel f (fun nd => rfl)
        have hdirty : ∀ i, (getNode (setNode ns id f) i).dirty = true →
            (getNode ns i).dirty = true := by
          intro i h1
          by_cases hii : id = i
          · subst hii
            exact hd
          · rwa [getNode_setNode_ne _ hii] at h1
        have hdirty0 : ∀ i, (getNode ns i).dirty = false →
            (getNode (setNode ns id f) i).dirty = false := by
          intro i h1
          rw [hstep i h1]
          exact h1
        obtain ⟨ih1, ih2, ih3, ih4⟩ := updateWorldAux_preserves fuel
          ((((getNode (setNode ns id f) id).children).map
            (fun c => (c, (getNode (setNode ns id f) id).world))).reverse ++ rest)
          (setNode ns id f)
        refine ⟨by rw [ih1, length_setNode], ?_, ?_, ?_⟩
        · intro i
          rw [ih2 i, hskel i]
        · intro i hdi
          rw [ih3 i (hdirty0 i hdi), hstep i hdi]
        · intro i h1
          exact hdirty i (ih4 i h1)
      · simp only [hd, if_false]
        exact updateWorldAux_preserves fuel _ ns

/-- C9: `update_world` modifies only the `world` and `dirty` fields of nodes
that are dirty when visited: every node that is clean on entry is left
entirely unchanged (in particular its `world` value, even when an ancestor
is recomputed in the same pass), no clean node ever becomes dirty, and no
node's `name`, `local` transform, `parent` link or `children` list is ever
changed. -/
theorem C9_update_world_frame (t : TransformTree) :
    t.update_world.nodes.length = t.nodes.length ∧
    (∀ i, (getNode t.update_world.nodes i).name = (getNode t.nodes i).name ∧
      (getNode t.update_world.nodes i).parent = (getNode t.nodes i).parent ∧
      (getNode t.update_world.nodes i).children = (getNode t.nodes i).children ∧
      (getNode t.update_world.nodes i).«local» = (getNode t.nodes i).«local») ∧
    (∀ i, (getNode t.nodes i).dirty = false →
      getNode t.update_world.nodes i = getNode t.nodes i) ∧
    (∀ i, (getNode t.update_world.nodes i).dirty = true →
      (getNode t.nodes i).dirty = true) := by
  obtain ⟨h1, h2, h3, h4⟩ := updateWorldAux_preserves t.nodes.length
    (((rootsOf t.nodes).map (fun r => (r, Isometry3d.IDENTITY))).reverse) t.nodes
  refine ⟨h1, ?_, h3, h4⟩
  intro i
  have hsk := h2 i
  simp only [skel, Prod.mk.injEq] at hsk
  exact ⟨hsk.1, hsk.2.1, hsk.2.2.1, hsk.2.2.2⟩

/-- C9 witness: the frame theorem applied to a store with a single clean
node of stale cached world. -/
theorem C9_update_world_frame_witness :
    getNode staleCleanStore.update_world.nodes 0 = getNode staleCleanStore.nodes 0 :=
  (C9_update_world_frame staleCleanStore).2.2.1 0 (by decide)

/-! ## Exact effect of re-linking on parent and children fields -/

theorem children_setNode_push_eq (A : List TNode) (p d : NodeId) (x : NodeId) :
    (getNode (setNode A p (fun n => { n with children := n.children ++ [d] })) x).children
      = if x = p ∧ p < A.length then (getNode A p).children ++ [d]
        else (getNode A x).children := by
  by_cases hx : x = p
  · subst hx
    by_cases hp : x < A.length
    · rw [getNode_setNode_self _ hp]
      simp [hp]
    · rw [setNode_of_le (Nat.le_of_not_lt hp)]
      simp [hp]
  · rw [getNode_setNode_ne _ (fun hc => hx hc.symm)]
    simp [hx]

theorem children_setNode_filter_eq (A : List TNode) (p d : NodeId) (x : NodeId) :
    (getNode (setNode A p
      (fun n => { n with children := n.children.filter (fun c => c != d) })) x).children
      = if x = p ∧ p < A.length
        then ((getNode A p).children).filter (fun c => c != d)
        else (getNode A x).children := by
  by_cases hx : x = p
  · subst hx
    by_cases hp : x < A.length
    · rw [getNode_setNode_self _ hp]
      simp [hp]
    · rw [setNode_of_le (Nat.le_of_not_lt hp)]
      simp [hp]
  · rw [getNode_setNode_ne _ (fun hc => hx hc.symm)]
    simp [hx]

theorem parent_setNode_push (A : List TNode) (p d : NodeId) (x : NodeId) :
    (getNode (setNode A p (fun n => { n with children := n.children ++ [d] })) x).parent
      = (getNode A x).parent :=
  getNode_setNode_proj TNode.parent _ (fun _ => rfl)

theorem parent_setNode_filter (A : List TNode) (p d : NodeId) (x : NodeId) :
    (getNode (setNode A p
      (fun n => { n with children := n.children.filter (fun c => c != d) })) x).parent
      = (getNode A x).parent :=
  getNode_setNode_proj TNode.parent _ (fun _ => rfl)

theorem children_setNode_parent (A : List TNode) (i : NodeId) (q : Option NodeId)
    (x : NodeId) :
    (getNode (setNode A i (fun nd => { nd with parent := q })) x).children
      = (getNode A x).children :=
  getNode_setNode_proj TNode.children _ (fun _ => rfl)

theorem parent_setNode_parent_ne (A : List TNode) (i : NodeId) (q : Option NodeId)
    (x : NodeId) (hx : x ≠ i) :
    (getNode (setNode A i (fun nd => { nd with parent := q })) x).parent
      = (getNode A x).parent := by
  rw [getNode_setNode_ne _ (fun hc => hx hc.symm)]

theorem relink_parent_eq (ns : List TNode) (id : NodeId) (par : Option NodeId)
    (hid : id < ns.length) (x : NodeId) :
    (getNode (relink ns id par) x).parent =
      if x = id then par else (getNode ns x).parent := by
  by_cases hx : x = id
  · subst hx
    simp only [if_pos rfl]
    exact relink_parent_self ns x par hid
  · simp only [hx, if_false]
    cases par with
    | none =>
        cases hold : (getNode ns id).parent with
        | none =>
            simp only [relink, hold]
            exact parent_setNode_parent_ne _ _ _ _ hx
        | some p =>
            simp only [relink, hold]
            rw [parent_setNode_filter]
            exact parent_setNode_parent_ne _ _ _ _ hx
    | some p2 =>
        cases hold : (getNode ns id).parent with
        | none =>
            simp only [relink, hold]
            rw [parent_setNode_parent_ne _ _ _ _ hx, parent_setNode_push]
            exact parent_setNode_parent_ne _ _ _ _ hx
        | some p =>
            simp only [relink, hold]
            rw [parent_setNode_parent_ne _ _ _ _ hx, parent_setNode_push,
              parent_setNode_filter]
            exact parent_setNode_parent_ne _ _ _ _ hx

theorem relink_children_eq (ns : List TNode) (id : NodeId) (par : Option NodeId)
    (hid : id < ns.length)
    (hold : ∀ p, (getNode ns id).parent = some p → p < ns.length)
    (hpar : ∀ p, par = some p → p < ns.length) (x : NodeId) :
    (getNode (relink ns id par) x).children =
      (if (getNode ns id).parent = some x
       then ((getNode ns x).children).filter (fun c => c != id)
       else (getNode ns x).children) ++
      (if par = some x then [id] else []) := by
  cases par with
  | none =>
      cases holdx : (getNode ns id).parent with
      | none =>
          simp only [relink, holdx, children_setNode_parent]
          simp
      | some p =>
          have hp := hold p holdx
          simp only [relink, holdx, children_setNode_filter_eq, children_setNode_parent,
            length_setNode]
          by_cases hxp : x = p
          · subst hxp
            simp [hp]
          · simp [hxp, Ne.symm hxp, fun h : some p = some x => hxp (Option.some.inj h).symm]
  | some p2 =>
      have hp2 := hpar p2 rfl
      cases holdx : (getNode ns id).parent with
      | none =>
          simp only [relink, holdx, children_setNode_parent, children_setNode_push_eq,
            length_setNode]
          by_cases hxp2 : x = p2
          · subst hxp2
            simp [hp2]
          · simp [hxp2, Ne.symm hxp2,
              fun h : some p2 = some x => hxp2 (Option.some.inj h).symm]
      | some p =>
          have hp := hold p holdx
          simp only [relink, holdx, children_setNode_parent, children_setNode_push_eq,
            children_setNode_filter_eq, length_setNode]
          by_cases hxp2 : x = p2
          · subst hxp2
            by_cases hxp : x = p
            · subst hxp
              simp [hp, hp2]
            · simp [hp2, hxp, Ne.symm hxp,
                fun h : some p = some x => hxp (Option.some.inj h).symm]
          · by_cases hxp : x = p
            · subst hxp
              simp [hp, hxp2, Ne.symm hxp2,
                fun h : some p2 = some x => hxp2 (Option.some.inj h).symm]
            · simp [hxp2, hxp, Ne.symm hxp2, Ne.symm hxp,
                fun h : some p2 = some x => hxp2 (Option.some.inj h).symm,
                fun h : some p = some x => hxp (Option.some.inj h).symm]

/-! ## Consistency invariant (C7) -/

theorem markDirtyAux_preserves :
    ∀ (ns : List TNode) (q : List NodeId),
      (markDirtyAux ns q).length = ns.length ∧
      (∀ i, skel (getNode (markDirtyAux ns q) i) = skel (getNode ns i)) ∧
      (∀ i, (getNode (markDirtyAux ns q) i).world = (getNode ns i).world) := by
  intro ns q
  induction ns, q using markDirtyAux.induct with
  | case1 ns =>
      rw [markDirtyAux_nil]
      exact ⟨rfl, fun _ => rfl, fun _ => rfl⟩
  | case2 ns n q hd ih =>
      rw [markDirtyAux_cons_dirty ns n q hd]
      exact ih
  | case3 ns n q hd ih =>
      have hdf : (getNode ns n).dirty = false := by simpa using hd
      rw [markDirtyAux_cons_clean ns n q hdf]
      obtain ⟨ih1, ih2, ih3⟩ := ih
      refine ⟨by rw [ih1, length_setNode], ?_, ?_⟩
      · intro i
        rw [ih2 i]
        exact getNode_setNode_proj skel _ (fun _ => rfl)
      · intro i
        rw [ih3 i]
        exact getNode_setNode_proj TNode.world _ (fun _ => rfl)

theorem skel_fields {nd nd' : TNode} (h : skel nd = skel nd') :
    nd.name = nd'.name ∧ nd.parent = nd'.parent ∧ nd.children = nd'.children ∧
    nd.«local» = nd'.«local» := by
  simp only [skel, Prod.mk.injEq] at h
  exact h

theorem StoreInv_of_skel {ns ms : List TNode} (hlen : ms.length = ns.length)
    (hsk : ∀ i, skel (getNode ms i) = skel (getNode ns i))
    (h : StoreInv ns) : StoreInv ms := by
  have hp : ∀ i, (getNode ms i).parent = (getNode ns i).parent :=
    fun i => (skel_fields (hsk i)).2.1
  have hc : ∀ i, (getNode ms i).children = (getNode ns i).children :=
    fun i => (skel_fields (hsk i)).2.2.1
  refine ⟨?_, ?_, ?_, ?_⟩
  · intro i hi p hpi
    rw [hlen]
    exact h.parent_valid i (by rwa [hlen] at hi) p (by rwa [hp i] at hpi)
  · intro i hi p hpi
    rw [hc p]
    exact h.child_mem i (by rwa [hlen] at hi) p (by rwa [hp i] at hpi)
  · intro p hpl c hci
    rw [hlen]
    rw [hc p] at hci
    have := h.children_parent p (by rwa [hlen] at hpl) c hci
    rw [hp c]
    exact this
  · intro p hpl
    rw [hc p]
    exact h.children_nodup p (by rwa [hlen] at hpl)

theorem StoreInv_add_node {t : TransformTree} (h : StoreInv t.nodes)
    (name : String) (l : Isometry3d) (par : Option NodeId) :
    StoreInv (t.add_node name l par).1.nodes := by
  by_cases hlink : ∃ p, par = some p ∧ p < t.nodes.length
  · obtain ⟨p, rfl, hplt⟩ := hlink
    rw [add_node_eq_link t name l p hplt]
    show StoreInv (setNode t.nodes p (fun nd => pushChild nd t.nodes.length) ++
      [linkedNode name l p (getNode t.nodes p).world])
    have hget : ∀ j, j < t.nodes.length →
        getNode (setNode t.nodes p (fun nd => pushChild nd t.nodes.length) ++
          [linkedNode name l p (getNode t.nodes p).world]) j =
        getNode (setNode t.nodes p (fun nd => pushChild nd t.nodes.length)) j := by
      intro j hj
      exact getNode_append_left (by simpa [setNode] using hj)
    have hlast : getNode (setNode t.nodes p (fun nd => pushChild nd t.nodes.length) ++
        [linkedNode name l p (getNode t.nodes p).world]) t.nodes.length =
        linkedNode name l p (getNode t.nodes p).world :=
      getNode_concat_of_eq _ _ _ (by simp [setNode])
    have hlen : (setNode t.nodes p (fun nd => pushChild nd t.nodes.length) ++
        [linkedNode name l p (getNode t.nodes p).world]).length
        = t.nodes.length + 1 := by
      simp [setNode]
    have hmemp : ∀ j, j < t.nodes.length →
        (getNode (setNode t.nodes p (fun nd => pushChild nd t.nodes.length)) j).parent
          = (getNode t.nodes j).parent :=
      fun j hj => getNode_setNode_proj TNode.parent _ (fun _ => rfl)
    have hchild : ∀ j, j < t.nodes.length →
        (getNode (setNode t.nodes p (fun nd => pushChild nd t.nodes.length)) j).children
          = (getNode t.nodes j).children ++ (if j = p then [t.nodes.length] else []) := by
      intro j hj
      by_cases hjp : j = p
      · subst hjp
        rw [getNode_setNode_self _ hplt]
        simp [pushChild]
      · rw [getNode_setNode_ne _ (Ne.symm hjp)]
        simp [hjp]
    refine ⟨?_, ?_, ?_, ?_⟩
    · intro i hi q hq
      rw [hlen] at hi
      rcases Nat.lt_succ_iff_lt_or_eq.mp hi with hi2 | rfl
      · rw [hget i hi2, hmemp i hi2] at hq
        rw [hlen]
        exact Nat.lt_succ_of_lt (h.parent_valid i hi2 q hq)
      · rw [hlast] at hq
        have hpq : p = q := by simpa [linkedNode] using hq
        subst hpq
        rw [hlen]
        exact Nat.lt_succ_of_lt hplt
    · intro i hi q hq
      rw [hlen] at hi
      rcases Nat.lt_succ_iff_lt_or_eq.mp hi with hi2 | rfl
      · rw [hget i hi2, hmemp i hi2] at hq
        have hqlt := h.parent_valid i hi2 q hq
        rw [hget q hqlt, hchild q hqlt]
        exact List.mem_append.mpr (Or.inl (h.child_mem i hi2 q hq))
      · rw [hlast] at hq
        have hpq : p = q := by simpa [linkedNode] using hq
        subst hpq
        rw [hget p hplt, hchild p hplt]
        simp
    · intro q hql c hc
      rw [hlen] at hql
      rcases Nat.lt_succ_iff_lt_or_eq.mp hql with hq2 | rfl
      · rw [hget q hq2, hchild q hq2] at hc
        rcases List.mem_append.mp hc with hc1 | hc2
        · have := h.children_parent q hq2 c hc1
          refine ⟨by rw [hlen]; exact Nat.lt_succ_of_lt this.1, ?_⟩
          rw [hget c this.1, hmemp c this.1]
          exact this.2
        · by_cases hqp : q = p
          · simp only [hqp, if_pos rfl] at hc2
            have hcn : c = t.nodes.length := List.mem_singleton.mp hc2
            subst hcn
            refine ⟨by rw [hlen]; exact Nat.lt_succ_self _, ?_⟩
            rw [hlast]
            simp [linkedNode, hqp]
          · simp [hqp] at hc2
      · rw [hlast] at hc
        simp [linkedNode] at hc
    · intro q hql
      rw [hlen] at hql
      rcases Nat.lt_succ_iff_lt_or_eq.mp hql with hq2 | rfl
      · rw [hget q hq2, hchild q hq2]
        by_cases hqp : q = p
        · subst hqp
          simp only [if_pos rfl]
          refine List.Nodup.append (h.children_nodup q hq2) (by simp) ?_
          intro a ha hb
          have halt := (h.children_parent q hq2 a ha).1
          have hb2 : a = t.nodes.length := List.mem_singleton.mp hb
          rw [hb2] at halt
          exact Nat.lt_irrefl _ halt
        · simpa [hqp] using h.children_nodup q hq2
      · rw [hlast]
        simp [linkedNode]
  · have hroot : ∀ p, par = some p → t.nodes.length ≤ p := by
      intro p hp
      by_contra hlt
      exact hlink ⟨p, hp, Nat.lt_of_not_le hlt⟩
    rw [add_node_eq_root t name l par hroot]
    show StoreInv (t.nodes ++ [rootNode name l])
    have hlast : getNode (t.nodes ++ [rootNode name l]) t.nodes.length =
        rootNode name l := getNode_concat_length _ _
    refine ⟨?_, ?_, ?_, ?_⟩
    · intro i hi q hq
      rw [List.length_append, List.length_singleton] at hi
      rcases Nat.lt_succ_iff_lt_or_eq.mp hi with hi2 | rfl
      · rw [getNode_append_left hi2] at hq
        rw [List.length_append, List.length_singleton]
        exact Nat.lt_succ_of_lt (h.parent_valid i hi2 q hq)
      · rw [hlast] at hq
        simp [rootNode] at hq
    · intro i hi q hq
      rw [List.length_append, List.length_singleton] at hi
      rcases Nat.lt_succ_iff_lt_or_eq.mp hi with hi2 | rfl
      · rw [getNode_append_left hi2] at hq
        have hqlt := h.parent_valid i hi2 q hq
        rw [getNode_append_left hqlt]
        exact h.child_mem i hi2 q hq
      · rw [hlast] at hq
        simp [rootNode] at hq
    · intro q hql c hc
      rw [List.length_append, List.length_singleton] at hql
      rcases Nat.lt_succ_iff_lt_or_eq.mp hql with hq2 | rfl
      · rw [getNode_append_left hq2] at hc
        have hcc := h.children_parent q hq2 c hc
        refine ⟨?_, ?_⟩
        · rw [List.length_append, List.length_singleton]
          exact Nat.lt_succ_of_lt hcc.1
        · rw [getNode_append_left hcc.1]
          exact hcc.2
      · rw [hlast] at hc
        simp [rootNode] at hc
    · intro q hql
      rw [List.length_append, List.length_singleton] at hql
      rcases Nat.lt_succ_iff_lt_or_eq.mp hql with hq2 | rfl
      · rw [getNode_append_left hq2]
        exact h.children_nodup q hq2
      · rw [hlast]
        simp [rootNode]

theorem StoreInv_relink {ns : List TNode} (h : StoreInv ns) (id : NodeId)
    (par : Option NodeId) (hid : id < ns.length)
    (hpar : ∀ p, par = some p → p < ns.length) :
    StoreInv (relink ns id par) := by
  have hold : ∀ p, (getNode ns id).parent = some p → p < ns.length :=
    h.parent_valid id hid
  have hpe := relink_parent_eq ns id par hid
  have hce := relink_children_eq ns id par hid hold hpar
  have hlen := relink_length ns id par
  refine ⟨?_, ?_, ?_, ?_⟩
  · intro i hi q hq
    rw [hlen] at hi ⊢
    rw [hpe i] at hq
    by_cases hiid : i = id
    · rw [if_pos hiid] at hq
      exact hpar q hq
    · rw [if_neg hiid] at hq
      exact h.parent_valid i hi q hq
  · intro i hi q hq
    rw [hlen] at hi
    rw [hpe i] at hq
    rw [hce q]
    by_cases hiid : i = id
    · rw [if_pos hiid] at hq
      subst hiid
      rw [hq]
      simp
    · rw [if_neg hiid] at hq
      refine List.mem_append.mpr (Or.inl ?_)
      have hmem := h.child_mem i hi q hq
      by_cases holdq : (getNode ns id).parent = some q
      · rw [if_pos holdq]
        refine List.mem_filter.mpr ⟨hmem, ?_⟩
        simp [hiid]
      · rw [if_neg holdq]
        exact hmem
  · intro q hql c hc
    rw [hlen] at hql ⊢
    rw [hce q] at hc
    rcases List.mem_append.mp hc with hc1 | hc2
    · have hcmem : c ∈ (getNode ns q).children ∧ c ≠ id := by
        by_cases holdq : (getNode ns id).parent = some q
        · rw [if_pos holdq] at hc1
          have := List.mem_filter.mp hc1
          refine ⟨this.1, ?_⟩
          simpa using this.2
        · rw [if_neg holdq] at hc1
          refine ⟨hc1, ?_⟩
          intro hcid
          subst hcid
          exact holdq (h.children_parent q hql c hc1).2
      have hcp := h.children_parent q hql c hcmem.1
      refine ⟨hcp.1, ?_⟩
      rw [hpe c, if_neg hcmem.2]
      exact hcp.2
    · by_cases hparq : par = some q
      · rw [if_pos hparq] at hc2
        have hcid : c = id := List.mem_singleton.mp hc2
        subst hcid
        refine ⟨hid, ?_⟩
        rw [hpe c, if_pos rfl]
        exact hparq
      · rw [if_neg hparq] at hc2
        exact absurd hc2 (List.not_mem_nil _)
  · intro q hql
    rw [hlen] at hql
    rw [hce q]
    have hfirst : (if (getNode ns id).parent = some q
        then ((getNode ns q).children).filter (fun c => c != id)
        else (getNode ns q).children).Nodup := by
      by_cases holdq : (getNode ns id).parent = some q
      · rw [if_pos holdq]
        exact (h.children_nodup q hql).filter _
      · rw [if_neg holdq]
        exact h.children_nodup q hql
    by_cases hparq : par = some q
    · rw [if_pos hparq]
      refine List.Nodup.append hfirst (by simp) ?_
      intro a ha hb
      have haid : a = id := List.mem_singleton.mp hb
      rw [haid] at ha
      by_cases holdq : (getNode ns id).parent = some q
      · rw [if_pos holdq] at ha
        have := List.mem_filter.mp ha
        simp at this
      · rw [if_neg holdq] at ha
        exact holdq (h.children_parent q hql id ha).2
    · rw [if_neg hparq]
      simpa using hfirst

theorem StoreInv_set_parent {t : TransformTree} (h : StoreInv t.nodes)
    {id : NodeId} {par : Option NodeId} (hid : id < t.nodes.length)
    (hpar : ∀ p, par = some p → p < t.nodes.length) :
    StoreInv (t.set_parent id par).nodes := by
  show StoreInv (markDirtyAux (relink t.nodes id par) [id])
  obtain ⟨h1, h2, _⟩ := markDirtyAux_preserves (relink t.nodes id par) [id]
  exact StoreInv_of_skel h1 h2 (StoreInv_relink h id par hid hpar)

theorem StoreInv_reachable {t : TransformTree} (h : Reachable t) :
    StoreInv t.nodes := by
  induction h with
  | empty =>
      refine ⟨?_, ?_, ?_, ?_⟩
      · intro i hi
        exact absurd hi (by simp)
      · intro i hi
        exact absurd hi (by simp)
      · intro p hp
        exact absurd hp (by simp)
      · intro p hp
        exact absurd hp (by simp)
  | add t name l par ht ih => exact StoreInv_add_node ih name l par
  | setp t id par ht hid hp ih => exact StoreInv_set_parent ih hid hp
  | mark t id ht hid ih =>
      obtain ⟨h1, h2, _⟩ := markDirtyAux_preserves t.nodes [id]
      exact StoreInv_of_skel h1 h2 ih
  | upd t ht ih =>
      obtain ⟨h1, h2, _, _⟩ := updateWorldAux_preserves t.nodes.length
        (((rootsOf t.nodes).map (fun r => (r, Isometry3d.IDENTITY))).reverse) t.nodes
      exact StoreInv_of_skel h1 h2 ih

/-- C7: parent/child consistency is preserved by every store operation: in
every store reachable from the empty store through `add_node`,
`set_parent`, `mark_dirty` and `update_world` (applied at in-range
handles), a node `c` has `parent = p` if and only if `c` appears in `p`'s
children list, and `c` appears in the children list of at most one node. -/
theorem C7_consistency (t : TransformTree) (h : Reachable t) :
    ∀ c, c < t.nodes.length → ∀ p, p < t.nodes.length →
      ((getNode t.nodes c).parent = some p ↔ c ∈ (getNode t.nodes p).children) ∧
      (∀ p2, p2 < t.nodes.length → c ∈ (getNode t.nodes p).children →
        c ∈ (getNode t.nodes p2).children → p = p2) := by
  have hinv := StoreInv_reachable h
  intro c hc p hp
  constructor
  · constructor
    · intro hcp
      exact hinv.child_mem c hc p hcp
    · intro hmem
      exact (hinv.children_parent p hp c hmem).2
  · intro p2 hp2 h1 h2
    have e1 := (hinv.children_parent p hp c h1).2
    have e2 := (hinv.children_parent p2 hp2 c h2).2
    rw [e1] at e2
    exact Option.some.inj e2

/-- C7 witness: the consistency claim at the two-node store built by two
`add_node` calls followed by a re-parenting. -/
theorem C7_consistency_witness :
    ((getNode ((((⟨[]⟩ : TransformTree).add_node "a" Isometry3d.IDENTITY none).1.add_node
      "b" Isometry3d.IDENTITY (some 0)).1.set_parent 1 none).nodes 1).parent = some 0 ↔
      1 ∈ (getNode ((((⟨[]⟩ : TransformTree).add_node "a" Isometry3d.IDENTITY
        none).1.add_node "b" Isometry3d.IDENTITY (some 0)).1.set_parent 1 none).nodes
        0).children) := by
  have hreach : Reachable ((((⟨[]⟩ : TransformTree).add_node "a" Isometry3d.IDENTITY
      none).1.add_node "b" Isometry3d.IDENTITY (some 0)).1.set_parent 1 none) :=
    Reachable.setp _ 1 none
      (Reachable.add _ "b" Isometry3d.IDENTITY (some 0)
        (Reachable.add _ "a" Isometry3d.IDENTITY none Reachable.empty))
      (by decide) (fun p hp => Option.noConfusion hp)
  have hlen : ((((⟨[]⟩ : TransformTree).add_node "a" Isometry3d.IDENTITY
      none).1.add_node "b" Isometry3d.IDENTITY (some 0)).1.set_parent 1 none).nodes.length
      = 2 := by
    show (markDirtyAux (relink ((((⟨[]⟩ : TransformTree).add_node "a"
      Isometry3d.IDENTITY none).1.add_node "b" Isometry3d.IDENTITY
      (some 0)).1.nodes) 1 none) [1]).length = 2
    rw [(markDirtyAux_preserves _ _).1, relink_length]
    decide
  exact (C7_consistency _ hreach 1 (by rw [hlen]; decide) 0 (by rw [hlen]; decide)).1

/-! ## The ancestor relation of a forest -/

theorem Anc_trans {ns : List TNode} {i j k : NodeId} (h1 : Anc ns i j)
    (h2 : Anc ns j k) : Anc ns i k := by
  induction h1 with
  | refl _ => exact h2
  | step hp _ ih => exact Anc.step hp (ih h2)

theorem Anc_of_parent {ns : List TNode} {c p : NodeId}
    (h : (getNode ns c).parent = some p) : Anc ns c p :=
  Anc.step h (Anc.refl p)

theorem Anc_linear {ns : List TNode} {i a b : NodeId} (h1 : Anc ns i a)
    (h2 : Anc ns i b) : Anc ns a b ∨ Anc ns b a := by
  induction h1 with
  | refl _ => exact Or.inl h2
  | step hp hr ih =>
      rename_i u v w
      cases h2 with
      | refl _ => exact Or.inr (Anc.step hp hr)
      | step hp2 hr2 =>
          rename_i v2
          rw [hp] at hp2
          obtain rfl : v = v2 := Option.some.inj hp2
          exact ih hr2

theorem Anc_valid {ns : List TNode} (hpv : ∀ i, i < ns.length →
    ∀ p, (getNode ns i).parent = some p → p < ns.length) :
    ∀ {i j : NodeId}, Anc ns i j → i < ns.length → j < ns.length := by
  intro i j h
  induction h with
  | refl _ => exact fun h => h
  | step hp hr ih =>
      rename_i u v w
      intro hu
      exact ih (hpv u hu v hp)

theorem Anc_rank_lt {ns : List TNode} {rank : NodeId → Nat}
    (hpv : ∀ i, i < ns.length → ∀ p, (getNode ns i).parent = some p →
      p < ns.length)
    (hrk : ∀ i, i < ns.length → ∀ p, (getNode ns i).parent = some p →
      rank p < rank i) :
    ∀ {i j : NodeId}, Anc ns i j → i < ns.length →
      j = i ∨ (j < ns.length ∧ rank j < rank i) := by
  intro i j h
  induction h with
  | refl _ => exact fun _ => Or.inl rfl
  | step hp hr ih =>
      rename_i u v w
      intro hu
      have hv : v < ns.length := hpv u hu v hp
      have hrv : rank v < rank u := hrk u hu v hp
      rcases ih hv with rfl | ⟨hw, hr2⟩
      · exact Or.inr ⟨hv, hrv⟩
      · exact Or.inr ⟨hw, Nat.lt_trans hr2 hrv⟩

theorem Anc_step_inv {ns : List TNode}
    (hcm : ∀ i, i < ns.length → ∀ p, (getNode ns i).parent = some p →
      i ∈ (getNode ns p).children)
    (hpv : ∀ i, i < ns.length → ∀ p, (getNode ns i).parent = some p →
      p < ns.length) :
    ∀ {i j : NodeId}, Anc ns i j → i < ns.length →
      i = j ∨ ∃ c ∈ (getNode ns j).children, Anc ns i c := by
  intro i j h
  induction h with
  | refl _ => exact fun _ => Or.inl rfl
  | step hp hr ih =>
      rename_i u v w
      intro hu
      have hv : v < ns.length := hpv u hu v hp
      rcases ih hv with heq | ⟨c, hc, hrc⟩
      · rw [heq] at hp
        exact Or.inr ⟨u, hcm u hu w hp, Anc.refl u⟩
      · exact Or.inr ⟨c, hc, Anc.step hp hrc⟩

theorem Anc_children_iff {ns : List TNode}
    (hcm : ∀ i, i < ns.length → ∀ p, (getNode ns i).parent = some p →
      i ∈ (getNode ns p).children)
    (hcp : ∀ p, p < ns.length → ∀ c ∈ (getNode ns p).children,
      c < ns.length ∧ (getNode ns c).parent = some p)
    (hpv : ∀ i, i < ns.length → ∀ p, (getNode ns i).parent = some p →
      p < ns.length)
    {id : NodeId} (hid : id < ns.length) :
    ∀ {i : NodeId}, i < ns.length →
      (Anc ns i id ↔ i = id ∨ ∃ c ∈ (getNode ns id).children, Anc ns i c) := by
  intro i hi
  constructor
  · intro h
    exact Anc_step_inv hcm hpv h hi
  · rintro (rfl | ⟨c, hc, hrc⟩)
    · exact Anc.refl i
    · exact Anc_trans hrc (Anc_of_parent (hcp id hid c hc).2)

theorem not_anc_parent_self {ns : List TNode} {rank : NodeId → Nat}
    (hpv : ∀ i, i < ns.length → ∀ p, (getNode ns i).parent = some p →
      p < ns.length)
    (hrk : ∀ i, i < ns.length → ∀ p, (getNode ns i).parent = some p →
      rank p < rank i)
    {id c : NodeId} (hid : id < ns.length) (hc : c < ns.length)
    (hpc : (getNode ns c).parent = some id) (h : Anc ns id c) : False := by
  have hrc : rank id < rank c := hrk c hc id hpc
  rcases Anc_rank_lt hpv hrk h hid with rfl | ⟨_, hr2⟩
  · exact Nat.lt_irrefl _ hrc
  · exact Nat.lt_irrefl _ (Nat.lt_trans hrc hr2)

theorem child_subtrees_disjoint {ns : List TNode} {rank : NodeId → Nat}
    (hpv : ∀ i, i < ns.length → ∀ p, (getNode ns i).parent = some p →
      p < ns.length)
    (hcp : ∀ p, p < ns.length → ∀ c ∈ (getNode ns p).children,
      c < ns.length ∧ (getNode ns c).parent = some p)
    (hrk : ∀ i, i < ns.length → ∀ p, (getNode ns i).parent = some p →
      rank p < rank i)
    {id c1 c2 : NodeId} (hid : id < ns.length)
    (h1 : c1 ∈ (getNode ns id).children) (h2 : c2 ∈ (getNode ns id).children)
    (hne : c1 ≠ c2) {i : NodeId} (ha1 : Anc ns i c1) (ha2 : Anc ns i c2) :
    False := by
  have hc1 := hcp id hid c1 h1
  have hc2 := hcp id hid c2 h2
  have hkey : ∀ {a b : NodeId}, a ∈ (getNode ns id).children →
      b ∈ (getNode ns id).children → a ≠ b → Anc ns a b → False := by
    intro a b hamem hbmem hab hanc
    have hpa := (hcp id hid a hamem).2
    cases hanc with
    | refl _ => exact hab rfl
    | step hp hr =>
        rename_i v
        rw [hpa] at hp
        have hvid : id = v := Option.some.inj hp
        rw [← hvid] at hr
        exact not_anc_parent_self hpv hrk hid (hcp id hid b hbmem).1
          (hcp id hid b hbmem).2 hr
  rcases Anc_linear ha1 ha2 with h | h
  · exact hkey h1 h2 hne h
  · exact hkey h2 h1 (Ne.symm hne) h

theorem mem_rootsOf {ns : List TNode} {r : NodeId} :
    r ∈ rootsOf ns ↔ r < ns.length ∧ (getNode ns r).parent = none := by
  simp [rootsOf, List.mem_filter, List.mem_range, Option.isNone_iff_eq_none]

theorem root_subtrees_disjoint {ns : List TNode} {r1 r2 : NodeId}
    (h1 : r1 ∈ rootsOf ns) (h2 : r2 ∈ rootsOf ns) (hne : r1 ≠ r2)
    {i : NodeId} (ha1 : Anc ns i r1) (ha2 : Anc ns i r2) : False := by
  have hkey : ∀ {a b : NodeId}, (getNode ns a).parent = none → a ≠ b →
      Anc ns a b → False := by
    intro a b hroot hab hanc
    cases hanc with
    | refl _ => exact hab rfl
    | step hp _ => rw [hroot] at hp; exact Option.noConfusion hp
  rcases Anc_linear ha1 ha2 with h | h
  · exact hkey (mem_rootsOf.mp h1).2 hne h
  · exact hkey (mem_rootsOf.mp h2).2 (Ne.symm hne) h

theorem root_cover {ns : List TNode} {rank : NodeId → Nat}
    (hpv : ∀ i, i < ns.length → ∀ p, (getNode ns i).parent = some p →
      p < ns.length)
    (hrk : ∀ i, i < ns.length → ∀ p, (getNode ns i).parent = some p →
      rank p < rank i) :
    ∀ (B : Nat) (i : NodeId), i < ns.length → rank i < B →
      ∃ r ∈ rootsOf ns, Anc ns i r := by
  intro B
  induction B with
  | zero => exact fun i _ h => absurd h (Nat.not_lt_zero _)
  | succ B ih =>
      intro i hi hr
      cases hp : (getNode ns i).parent with
      | none => exact ⟨i, mem_rootsOf.mpr ⟨hi, hp⟩, Anc.refl i⟩
      | some p =>
          have hplt := hpv i hi p hp
          have hrp : rank p < B := Nat.lt_of_lt_of_le (hrk i hi p hp)
            (Nat.lt_succ_iff.mp hr)
          obtain ⟨r, hrmem, hanc⟩ := ih p hplt hrp
          exact ⟨r, hrmem, Anc.step hp hanc⟩

/-! ## The boolean ancestor test -/

theorem ancB_self (ns : List TNode) : ∀ (fuel : Nat) (i : NodeId),
    ancB ns fuel i i = true
  | 0, i => by simp [ancB]
  | fuel + 1, i => by simp [ancB]

theorem Anc_of_ancB {ns : List TNode} :
    ∀ {fuel : Nat} {i j : NodeId}, ancB ns fuel i j = true → Anc ns i j := by
  intro fuel
  induction fuel with
  | zero =>
      intro i j h
      simp only [ancB, beq_iff_eq] at h
      subst h
      exact Anc.refl i
  | succ fuel ih =>
      intro i j h
      simp only [ancB, Bool.or_eq_true, beq_iff_eq] at h
      rcases h with rfl | h
      · exact Anc.refl i
      · cases hp : (getNode ns i).parent with
        | none => rw [hp] at h; simp at h
        | some p =>
            rw [hp] at h
            exact Anc.step hp (ih h)

theorem ancB_of_Anc {ns : List TNode} {rank : NodeId → Nat}
    (hrk : ∀ i, i < ns.length → ∀ p, (getNode ns i).parent = some p →
      rank p < rank i)
    (hpv : ∀ i, i < ns.length → ∀ p, (getNode ns i).parent = some p →
      p < ns.length) :
    ∀ {i j : NodeId}, Anc ns i j → i < ns.length →
      ∀ fuel, rank i < fuel → ancB ns fuel i j = true := by
  intro i j h
  induction h with
  | refl a => exact fun _ fuel _ => ancB_self ns fuel a
  | step hp hr ih =>
      rename_i u v w
      intro hu fuel hfuel
      cases fuel with
      | zero => exact absurd hfuel (Nat.not_lt_zero _)
      | succ fuel =>
          have hv : v < ns.length := hpv u hu v hp
          have hrf : rank v < fuel := by
            have := hrk u hu v hp
            omega
          simp only [ancB, Bool.or_eq_true, beq_iff_eq, hp]
          exact Or.inr (ih hv fuel hrf)

/-! ## Counting subtree sizes -/

theorem length_filter_add_not (p : NodeId → Bool) :
    ∀ (U : List NodeId),
      (U.filter p).length + (U.filter (fun i => !(p i))).length = U.length := by
  intro U
  induction U with
  | nil => rfl
  | cons x U ih =>
      cases hx : p x <;> simp [List.filter_cons, hx] <;> omega

theorem length_filter_mono_of_imp {p q : NodeId → Bool} :
    ∀ (U : List NodeId), (∀ x ∈ U, p x = true → q x = true) →
      (U.filter p).length ≤ (U.filter q).length := by
  intro U
  induction U with
  | nil => intro _; exact Nat.le_refl _
  | cons y U ih2 =>
      intro himp
      have h1 := himp y (List.mem_cons_self y U)
      have h2 : ∀ z ∈ U, p z = true → q z = true :=
        fun z hz => himp z (List.mem_cons_of_mem y hz)
      cases hy : p y with
      | true => simp [List.filter_cons, hy, h1 hy]; exact ih2 h2
      | false =>
          cases hy2 : q y <;> simp [List.filter_cons, hy, hy2] <;>
            exact Nat.le_trans (ih2 h2) (by omega)

theorem length_filter_lt_of_strict {p q : NodeId → Bool} :
    ∀ {U : List NodeId}, (∀ x ∈ U, p x = true → q x = true) →
      ∀ a ∈ U, q a = true → p a = false →
      (U.filter p).length < (U.filter q).length := by
  intro U
  induction U with
  | nil => intro _ a ha; exact absurd ha (List.not_mem_nil a)
  | cons x U ih =>
      intro himp a ha hqa hpa
      have himp' : ∀ y ∈ U, p y = true → q y = true :=
        fun y hy => himp y (List.mem_cons_of_mem x hy)
      have hle : (U.filter p).length ≤ (U.filter q).length :=
        length_filter_mono_of_imp U himp'
      rcases List.mem_cons.mp ha with rfl | ha'
      · simp only [List.filter_cons, hpa, hqa]
        simpa using Nat.lt_succ_of_le hle
      · have hlt := ih himp' a ha' hqa hpa
        cases hx : p x with
        | true =>
            simp [List.filter_cons, hx, himp x (List.mem_cons_self x U) hx]
            omega
        | false =>
            cases hx2 : q x <;> simp [List.filter_cons, hx, hx2] <;> omega

theorem sum_map_congr {f1 f2 : NodeId → Nat} :
    ∀ {l : List NodeId}, (∀ x ∈ l, f1 x = f2 x) →
      (l.map f1).sum = (l.map f2).sum := by
  intro l
  induction l with
  | nil => intro _; rfl
  | cons x l ih =>
      intro h
      simp only [List.map_cons, List.sum_cons,
        h x (List.mem_cons_self x l),
        ih (fun y hy => h y (List.mem_cons_of_mem x hy))]

theorem sum_filter_disjoint_le (g : NodeId → NodeId → Bool) :
    ∀ (R : List NodeId), R.Nodup → ∀ (U : List NodeId),
      (∀ r1 ∈ R, ∀ r2 ∈ R, r1 ≠ r2 → ∀ i ∈ U, g i r1 = true →
        g i r2 = true → False) →
      ((R.map (fun r => (U.filter (fun i => g i r)).length)).sum) ≤ U.length := by
  intro R
  induction R with
  | nil => intro _ U _; simp
  | cons r R ih =>
      intro hnd U hdis
      have hrR : r ∉ R := (List.nodup_cons.mp hnd).1
      have hndR : R.Nodup := (List.nodup_cons.mp hnd).2
      have hstep : ∀ r' ∈ R, (U.filter (fun i => g i r')).length =
          (((U.filter (fun i => !(g i r))).filter (fun i => g i r'))).length := by
        intro r' hr'
        have hne : r ≠ r' := fun h => hrR (h ▸ hr')
        have : (U.filter (fun i => !(g i r))).filter (fun i => g i r') =
            U.filter (fun i => g i r' && !(g i r)) :=
          List.filter_filter _ _
        rw [this]
        have hcong : U.filter (fun i => g i r') =
            U.filter (fun i => g i r' && !(g i r)) := by
          refine List.filter_congr ?_
          intro i hi
          cases hge : g i r' with
          | false => simp
          | true =>
              simp only [Bool.true_and]
              cases hgr : g i r with
              | false => simp
              | true =>
                  exact absurd (hdis r (List.mem_cons_self r R)
                    r' (List.mem_cons_of_mem r hr') hne i hi hgr hge) not_false
        rw [← hcong]
      have hdis' : ∀ r1 ∈ R, ∀ r2 ∈ R, r1 ≠ r2 →
          ∀ i ∈ U.filter (fun i => !(g i r)), g i r1 = true →
            g i r2 = true → False := by
        intro r1 h1 r2 h2 hne i hi
        exact hdis r1 (List.mem_cons_of_mem r h1) r2 (List.mem_cons_of_mem r h2)
          hne i (List.mem_filter.mp hi).1
      have hsum := ih hndR (U.filter (fun i => !(g i r))) hdis'
      have hmap : (R.map (fun r' => (U.filter (fun i => g i r')).length)).sum =
          (R.map (fun r' =>
            (((U.filter (fun i => !(g i r))).filter
              (fun i => g i r'))).length)).sum :=
        sum_map_congr hstep
      simp only [List.map_cons, List.sum_cons]
      rw [hmap]
      have := length_filter_add_not (fun i => g i r) U
      omega

theorem subtreeCount_le (ns : List TNode) (id : NodeId) :
    subtreeCount ns id ≤ ns.length := by
  unfold subtreeCount
  calc ((List.range ns.length).filter
          (fun i => ancB ns ns.length i id)).length
      ≤ (List.range ns.length).length := List.length_filter_le _ _
    _ = ns.length := List.length_range ns.length

theorem subtreeCount_pos {ns : List TNode} {id : NodeId}
    (hid : id < ns.length) : 1 ≤ subtreeCount ns id := by
  unfold subtreeCount
  exact List.length_pos_of_mem
    (List.mem_filter.mpr ⟨List.mem_range.mpr hid, ancB_self ns ns.length id⟩)

theorem subtreeCount_child_lt {ns : List TNode} (hF : Forest ns)
    {id c : NodeId} (hid : id < ns.length)
    (hc : c ∈ (getNode ns id).children) :
    subtreeCount ns c < subtreeCount ns id := by
  obtain ⟨rank, hrb, hrk⟩ := hF.acyclic
  have hcl := hF.children_parent id hid c hc
  unfold subtreeCount
  refine length_filter_lt_of_strict ?_ id (List.mem_range.mpr hid) ?_ ?_
  · intro i hi hanc
    have h1 : Anc ns i id :=
      Anc_trans (Anc_of_ancB hanc) (Anc_of_parent hcl.2)
    exact ancB_of_Anc hrk hF.parent_valid h1 (List.mem_range.mp hi)
      ns.length (hrb i (List.mem_range.mp hi))
  · exact ancB_self ns ns.length id
  · cases h : ancB ns ns.length id c with
    | false => rfl
    | true =>
        exact absurd (not_anc_parent_self hF.parent_valid hrk hid hcl.1
          hcl.2 (Anc_of_ancB h)) (fun f => f.elim)

theorem subtreeCount_children_le {ns : List TNode} (hF : Forest ns)
    {id : NodeId} (hid : id < ns.length) :
    1 + (((getNode ns id).children.map (fun c => subtreeCount ns c)).sum) ≤
      subtreeCount ns id := by
  obtain ⟨rank, hrb, hrk⟩ := hF.acyclic
  set U : List NodeId := ((List.range ns.length).filter
    (fun i => ancB ns ns.length i id)).filter (fun i => !(i == id)) with hU
  have hmem : ∀ c ∈ (getNode ns id).children,
      (U.filter (fun i => ancB ns ns.length i c)).length = subtreeCount ns c := by
    intro c hc
    have hcl := hF.children_parent id hid c hc
    have h1 : U.filter (fun i => ancB ns ns.length i c) =
        (List.range ns.length).filter
          (fun i => (ancB ns ns.length i c && !(i == id)) &&
            ancB ns ns.length i id) := by
      rw [hU, List.filter_filter, List.filter_filter]
    have hfe : (List.range ns.length).filter
        (fun i => (ancB ns ns.length i c && !(i == id)) &&
          ancB ns ns.length i id) =
        (List.range ns.length).filter (fun i => ancB ns ns.length i c) := by
      refine List.filter_congr ?_
      intro i hi
      cases hic : ancB ns ns.length i c with
      | false => simp
      | true =>
          have hanc : Anc ns i id :=
            Anc_trans (Anc_of_ancB hic) (Anc_of_parent hcl.2)
          have h2 : ancB ns ns.length i id = true :=
            ancB_of_Anc hrk hF.parent_valid hanc (List.mem_range.mp hi)
              ns.length (hrb i (List.mem_range.mp hi))
          have h3 : ¬ i = id := by
            intro h
            rw [h] at hic
            exact not_anc_parent_self hF.parent_valid hrk hid hcl.1 hcl.2
              (Anc_of_ancB hic)
          simp [h2, h3]
    rw [h1, hfe]
    rfl
  have hdis : ∀ c1 ∈ (getNode ns id).children, ∀ c2 ∈ (getNode ns id).children,
      c1 ≠ c2 → ∀ i ∈ U, ancB ns ns.length i c1 = true →
        ancB ns ns.length i c2 = true → False := by
    intro c1 h1 c2 h2 hne i _ ha1 ha2
    exact child_subtrees_disjoint hF.parent_valid hF.children_parent hrk hid
      h1 h2 hne (Anc_of_ancB ha1) (Anc_of_ancB ha2)
  have hsum := sum_filter_disjoint_le (fun i c => ancB ns ns.length i c)
    (getNode ns id).children (hF.children_nodup id hid) U hdis
  have hmapeq : ((getNode ns id).children.map
      (fun c => (U.filter (fun i => ancB ns ns.length i c)).length)).sum =
      ((getNode ns id).children.map (fun c => subtreeCount ns c)).sum :=
    sum_map_congr hmem
  rw [hmapeq] at hsum
  have hsize : U.length + 1 ≤ subtreeCount ns id := by
    have hsplit := length_filter_add_not (fun i => !(i == id))
      ((List.range ns.length).filter (fun i => ancB ns ns.length i id))
    have hidmem : id ∈ ((List.range ns.length).filter
        (fun i => ancB ns ns.length i id)).filter (fun i => !(!(i == id))) := by
      refine List.mem_filter.mpr ⟨List.mem_filter.mpr
        ⟨List.mem_range.mpr hid, ancB_self ns ns.length id⟩, ?_⟩
      simp
    have hpos := List.length_pos_of_mem hidmem
    unfold subtreeCount
    rw [hU]
    omega
  omega

theorem subtreeCount_roots_le {ns : List TNode} (hF : Forest ns) :
    (((rootsOf ns).map (fun r => subtreeCount ns r)).sum) ≤ ns.length := by
  have hnd : (rootsOf ns).Nodup := (List.nodup_range ns.length).filter _
  have hdis : ∀ r1 ∈ rootsOf ns, ∀ r2 ∈ rootsOf ns, r1 ≠ r2 →
      ∀ i ∈ List.range ns.length, ancB ns ns.length i r1 = true →
        ancB ns ns.length i r2 = true → False := by
    intro r1 h1 r2 h2 hne i _ ha1 ha2
    exact root_subtrees_disjoint h1 h2 hne (Anc_of_ancB ha1) (Anc_of_ancB ha2)
  have := sum_filter_disjoint_le (fun i r => ancB ns ns.length i r)
    (rootsOf ns) hnd (List.range ns.length) hdis
  rw [List.length_range] at this
  exact this

/-! ## Stability of the reference world transform -/

theorem specWorldAux_stable {ns : List TNode} {rank : NodeId → Nat}
    (hpv : ∀ i, i < ns.length → ∀ p, (getNode ns i).parent = some p →
      p < ns.length)
    (hrk : ∀ i, i < ns.length → ∀ p, (getNode ns i).parent = some p →
      rank p < rank i) :
    ∀ (B : Nat) (i : NodeId), i < ns.length → rank i < B →
      ∀ f1 f2, rank i < f1 → rank i < f2 →
        specWorldAux ns f1 i = specWorldAux ns f2 i := by
  intro B
  induction B with
  | zero => exact fun i _ h => absurd h (Nat.not_lt_zero _)
  | succ B ih =>
      intro i hi hB f1 f2 h1 h2
      cases hp : (getNode ns i).parent with
      | none =>
          cases f1 <;> cases f2 <;> simp [specWorldAux, hp]
      | some p =>
          have hrp : rank p < rank i := hrk i hi p hp
          have hplt : p < ns.length := hpv i hi p hp
          cases f1 with
          | zero => exact absurd h1 (Nat.not_lt_zero _)
          | succ g1 =>
              cases f2 with
              | zero => exact absurd h2 (Nat.not_lt_zero _)
              | succ g2 =>
                  simp only [specWorldAux, hp]
                  rw [ih p hplt (by omega) g1 g2 (by omega) (by omega)]

theorem specW_parentSpec {ns : List TNode} (hF : Forest ns) {i : NodeId}
    (hi : i < ns.length) :
    specW ns i = parentSpec ns i * (getNode ns i).«local» := by
  obtain ⟨rank, hrb, hrk⟩ := hF.acyclic
  have hpos : 0 < ns.length := Nat.lt_of_le_of_lt (Nat.zero_le i) hi
  obtain ⟨m, hm⟩ : ∃ m, ns.length = m + 1 :=
    ⟨ns.length - 1, by omega⟩
  cases hp : (getNode ns i).parent with
  | none =>
      rw [parentSpec, hp, Isometry3d.identity_mul]
      unfold specW
      rw [hm]
      simp [specWorldAux, hp]
  | some p =>
      have hplt : p < ns.length := hF.parent_valid i hi p hp
      have hrp : rank p < rank i := hrk i hi p hp
      have hri : rank i < ns.length := hrb i hi
      have hstep : specW ns i = specWorldAux ns m p * (getNode ns i).«local» := by
        unfold specW
        rw [hm]
        simp [specWorldAux, hp]
      rw [hstep, parentSpec, hp]
      unfold specW
      rw [specWorldAux_stable hF.parent_valid hrk (rank p + 1) p hplt
        (Nat.lt_succ_self _) m ns.length (by omega) (hrb p hplt)]

/-! ## Skeleton equality helpers -/

theorem sameSkeleton_refl (ns : List TNode) : SameSkeleton ns ns :=
  ⟨rfl, fun _ => rfl⟩

theorem sameSkeleton_trans {ns ms ks : List TNode} (h1 : SameSkeleton ns ms)
    (h2 : SameSkeleton ms ks) : SameSkeleton ns ks :=
  ⟨h2.1.trans h1.1, fun i => (h2.2 i).trans (h1.2 i)⟩

theorem sameSkeleton_setNode {ns ms : List TNode} (h : SameSkeleton ns ms)
    (id : NodeId) {g : TNode → TNode} (hg : ∀ n, skel (g n) = skel n) :
    SameSkeleton ns (setNode ms id g) := by
  refine ⟨?_, ?_⟩
  · rw [length_setNode]; exact h.1
  · intro i
    by_cases hc : id = i
    · subst hc
      by_cases hlt : id < ms.length
      · rw [getNode_setNode_self _ hlt]
        exact (hg (getNode ms id)).trans (h.2 id)
      · rw [setNode, List.set_eq_of_length_le (Nat.le_of_not_lt hlt)]
        exact h.2 id
    · rw [getNode_setNode_ne _ hc]
      exact h.2 i

theorem skel_parent {ns ms : List TNode} (h : SameSkeleton ns ms) (i : NodeId) :
    (getNode ms i).parent = (getNode ns i).parent :=
  (skel_fields (h.2 i)).2.1

theorem skel_children {ns ms : List TNode} (h : SameSkeleton ns ms) (i : NodeId) :
    (getNode ms i).children = (getNode ns i).children :=
  (skel_fields (h.2 i)).2.2.1

theorem skel_local {ns ms : List TNode} (h : SameSkeleton ns ms) (i : NodeId) :
    (getNode ms i).«local» = (getNode ns i).«local» :=
  (skel_fields (h.2 i)).2.2.2

/-! ## The world-update traversal meets its contract -/

theorem Anc_lt_of_target {ns : List TNode} {i j : NodeId} (h : Anc ns i j)
    (hj : j < ns.length) : i < ns.length := by
  cases h with
  | refl _ => exact hj
  | step hp hr =>
      by_cases hi : i < ns.length
      · exact hi
      · rw [getNode_default_of_le ns i (Nat.le_of_not_lt hi)] at hp
        exact Option.noConfusion hp

theorem updateWorldAux_nil (fuel : Nat) (ms : List TNode) :
    updateWorldAux fuel [] ms = ms := by
  cases fuel <;> rfl

theorem processList {ns : List TNode}
    (B : Nat) (IH : ∀ c, c < ns.length → subtreeCount ns c ≤ B → ProcessSpec ns c) :
    ∀ (entries : List (NodeId × Isometry3d)),
      (∀ e ∈ entries, e.1 < ns.length ∧ e.2 = parentSpec ns e.1 ∧
        subtreeCount ns e.1 ≤ B) →
      List.Pairwise (fun e1 e2 => ∀ i, Anc ns i e1.1 → Anc ns i e2.1 → False)
        entries →
      ∀ (fuel : Nat) (rest : List (NodeId × Isometry3d)) (ms : List TNode),
        SameSkeleton ns ms →
        (∀ i, (∃ e ∈ entries, Anc ns i e.1) →
          (getNode ms i).dirty = (getNode ns i).dirty ∧
          (getNode ms i).world = (getNode ns i).world) →
        ((entries.map (fun e => subtreeCount ns e.1)).sum) ≤ fuel →
        ∃ k ms', k ≤ (entries.map (fun e => subtreeCount ns e.1)).sum ∧
          updateWorldAux fuel (entries ++ rest) ms =
            updateWorldAux (fuel - k) rest ms' ∧
          SameSkeleton ns ms' ∧
          (∀ i, ¬ (∃ e ∈ entries, Anc ns i e.1) →
            getNode ms' i = getNode ms i) ∧
          (∀ i, (∃ e ∈ entries, Anc ns i e.1) →
            (getNode ms' i).dirty = false ∧
            (getNode ms' i).world = specW ns i) := by
  intro entries
  induction entries with
  | nil =>
      intro _ _ fuel rest ms hskel _ _
      refine ⟨0, ms, Nat.le_refl _, ?_, hskel, fun i _ => rfl, ?_⟩
      · rw [List.nil_append, Nat.sub_zero]
      · intro i hi
        rcases hi with ⟨e, he, _⟩
        exact absurd he (List.not_mem_nil e)
  | cons e es ih =>
      obtain ⟨c, pw⟩ := e
      intro hent hpair fuel rest ms hskel hagree hfuel
      have hc : c < ns.length := (hent (c, pw) (List.mem_cons_self _ _)).1
      have hpwc : pw = parentSpec ns c :=
        (hent (c, pw) (List.mem_cons_self _ _)).2.1
      have hszB : subtreeCount ns c ≤ B :=
        (hent (c, pw) (List.mem_cons_self _ _)).2.2
      have hhd : ∀ e2 ∈ es, ∀ i, Anc ns i c → Anc ns i e2.1 → False :=
        (List.pairwise_cons.mp hpair).1
      have htl := (List.pairwise_cons.mp hpair).2
      simp only [List.map_cons, List.sum_cons] at hfuel
      have hPS : ProcessSpec ns c := IH c hc hszB
      obtain ⟨k1, ms1, hk1ge, hk1le, heq1, hskel1, hout1, hdone1⟩ :=
        hPS fuel pw (es ++ rest) ms hskel
          (fun i hanc => hagree i ⟨(c, pw), List.mem_cons_self _ _, hanc⟩)
          hpwc (by omega)
      have hagree1 : ∀ i, (∃ e ∈ es, Anc ns i e.1) →
          (getNode ms1 i).dirty = (getNode ns i).dirty ∧
          (getNode ms1 i).world = (getNode ns i).world := by
        intro i hi
        obtain ⟨e2, he2, hanc⟩ := hi
        have hnc : ¬ Anc ns i c := fun h => hhd e2 he2 i h hanc
        rw [hout1 i hnc]
        exact hagree i ⟨e2, List.mem_cons_of_mem _ he2, hanc⟩
      obtain ⟨k2, ms2, hk2, heq2, hskel2, hout2, hdone2⟩ :=
        ih (fun e2 he2 => hent e2 (List.mem_cons_of_mem _ he2)) htl
          (fuel - k1) rest ms1 hskel1 hagree1 (by omega)
      refine ⟨k1 + k2, ms2, ?_, ?_, hskel2, ?_, ?_⟩
      · simp only [List.map_cons, List.sum_cons]
        omega
      · rw [List.cons_append, heq1, heq2, Nat.sub_sub]
      · intro i hi
        have hnc : ¬ Anc ns i c :=
          fun h => hi ⟨(c, pw), List.mem_cons_self _ _, h⟩
        have hne : ¬ (∃ e ∈ es, Anc ns i e.1) :=
          fun ⟨e2, he2, h⟩ => hi ⟨e2, List.mem_cons_of_mem _ he2, h⟩
        rw [hout2 i hne, hout1 i hnc]
      · intro i hi
        rcases hi with ⟨e2, he2, hanc⟩
        rcases List.mem_cons.mp he2 with rfl | he2'
        · have hne : ¬ (∃ e ∈ es, Anc ns i e.1) :=
            fun ⟨e3, he3, h⟩ => hhd e3 he3 i hanc h
          rw [hout2 i hne]
          exact hdone1 i hanc
        · exact hdone2 i ⟨e2, he2', hanc⟩

theorem processOne {ns : List TNode} (hF : Forest ns) (hCO : CleanOK ns) :
    ∀ (B : Nat) (id : NodeId), id < ns.length → subtreeCount ns id ≤ B →
      ProcessSpec ns id := by
  intro B
  induction B with
  | zero =>
      intro id hid hsz
      exact absurd (Nat.le_trans (subtreeCount_pos hid) hsz) (by decide)
  | succ B ihB =>
      intro id hid hsz
      intro fuel pw rest ms hskel hagree hpw hfuel
      have hpos : 1 ≤ subtreeCount ns id := subtreeCount_pos hid
      cases fuel with
      | zero => exact absurd (Nat.le_trans hpos hfuel) (by decide)
      | succ f =>
      have hagid := hagree id (Anc.refl id)
      have hmslen : ms.length = ns.length := hskel.1
      have hidms : id < ms.length := by rw [hmslen]; exact hid
      -- one step of the loop
      have hstep0 : updateWorldAux (f + 1) ((id, pw) :: rest) ms =
          (let ns1 := if (getNode ms id).dirty then
              setNode ms id
                (fun n => { n with world := pw * n.«local», dirty := false })
            else ms;
           let w := (getNode ns1 id).world;
           updateWorldAux f
             (((getNode ns1 id).children.map (fun c => (c, w))).reverse ++ rest)
             ns1) := rfl
      -- the store after the step, case split on the popped node's flag
      obtain ⟨ms1, hms1def, hstep, hskel1, hw, hdid, hother⟩ :
          ∃ ms1, (ms1 = if (getNode ms id).dirty then
              setNode ms id
                (fun n => { n with world := pw * n.«local», dirty := false })
            else ms) ∧
            updateWorldAux (f + 1) ((id, pw) :: rest) ms =
              updateWorldAux f
                (((getNode ms1 id).children.map
                  (fun c => (c, (getNode ms1 id).world))).reverse ++ rest) ms1 ∧
            SameSkeleton ns ms1 ∧
            (getNode ms1 id).world = specW ns id ∧
            (getNode ms1 id).dirty = false ∧
            (∀ i, i ≠ id → getNode ms1 i = getNode ms i) := by
        cases hd : (getNode ms id).dirty with
        | true =>
            refine ⟨setNode ms id
                (fun n => { n with world := pw * n.«local», dirty := false }),
              by rfl, ?_, ?_, ?_, ?_, ?_⟩
            · rw [hstep0]
              simp [hd]
            · exact sameSkeleton_setNode hskel id (fun n => by simp [skel])
            · rw [getNode_setNode_self _ hidms]
              show pw * (getNode ms id).«local» = specW ns id
              rw [skel_local hskel id, hpw, specW_parentSpec hF hid]
            · rw [getNode_setNode_self _ hidms]
            · intro i hne
              exact getNode_setNode_ne _ (fun h => hne h.symm)
        | false =>
            have hdns : (getNode ns id).dirty = false := hagid.1.symm.trans hd
            refine ⟨ms, by rfl, ?_, hskel, ?_, hd, fun i _ => rfl⟩
            · rw [hstep0]
              simp [hd]
            · rw [hagid.2]
              exact hCO id hid hdns
      clear hstep0
      -- rewrite the pushed entries over the original skeleton
      have hchl : (getNode ms1 id).children = (getNode ns id).children :=
        skel_children hskel1 id
      rw [hchl, hw] at hstep
      -- entries: the children of id, each with reference parent world specW id
      have hentmem : ∀ e ∈ (((getNode ns id).children.map
          (fun c => (c, specW ns id))).reverse : List (NodeId × Isometry3d)),
          ∃ c ∈ (getNode ns id).children, e = (c, specW ns id) := by
        intro e he
        rw [List.mem_reverse] at he
        obtain ⟨c, hcmem, hce⟩ := List.mem_map.mp he
        exact ⟨c, hcmem, hce.symm⟩
      have hi_ne_id : ∀ {c i}, c ∈ (getNode ns id).children → Anc ns i c →
          i ≠ id := by
        intro c i hcmem hanc h
        obtain ⟨rank, hrb, hrk⟩ := hF.acyclic
        have hcl := hF.children_parent id hid c hcmem
        rw [h] at hanc
        exact not_anc_parent_self hF.parent_valid hrk hid hcl.1 hcl.2 hanc
      have hanc_to_id : ∀ {c i}, c ∈ (getNode ns id).children → Anc ns i c →
          Anc ns i id := by
        intro c i hcmem hanc
        exact Anc_trans hanc
          (Anc_of_parent (hF.children_parent id hid c hcmem).2)
      obtain ⟨k2, ms2, hk2, heq2, hskel2, hout2, hdone2⟩ :=
        processList B ihB
          (((getNode ns id).children.map (fun c => (c, specW ns id))).reverse)
          (by
            intro e he
            obtain ⟨c, hcmem, rfl⟩ := hentmem e he
            have hcl := hF.children_parent id hid c hcmem
            refine ⟨hcl.1, ?_, ?_⟩
            · show specW ns id = parentSpec ns c
              rw [parentSpec, hcl.2]
            · show subtreeCount ns c ≤ B
              have := subtreeCount_child_lt hF hid hcmem
              omega)
          (by
            rw [List.pairwise_reverse, List.pairwise_map]
            refine List.Pairwise.imp_of_mem ?_ (hF.children_nodup id hid)
            intro c1 c2 h1 h2 hne i ha2 ha1
            obtain ⟨rank, hrb, hrk⟩ := hF.acyclic
            exact child_subtrees_disjoint hF.parent_valid hF.children_parent
              hrk hid h1 h2 hne ha1 ha2)
          f rest ms1 hskel1
          (by
            intro i hi
            obtain ⟨e, he, hanc⟩ := hi
            obtain ⟨c, hcmem, rfl⟩ := hentmem e he
            rw [hother i (hi_ne_id hcmem hanc)]
            exact hagree i (hanc_to_id hcmem hanc))
          (by
            have hsz2 := subtreeCount_children_le hF hid
            have heqsum : ((((getNode ns id).children.map
                (fun c => (c, specW ns id))).reverse).map
                  (fun e => subtreeCount ns e.1)).sum =
                ((getNode ns id).children.map
                  (fun c => subtreeCount ns c)).sum := by
              rw [List.map_reverse, List.sum_reverse, List.map_map]
              rfl
            rw [heqsum]
            omega)
      refine ⟨k2 + 1, ms2, by omega, ?_, ?_, hskel2, ?_, ?_⟩
      · have heqsum : ((((getNode ns id).children.map
            (fun c => (c, specW ns id))).reverse).map
              (fun e => subtreeCount ns e.1)).sum =
            ((getNode ns id).children.map (fun c => subtreeCount ns c)).sum := by
          rw [List.map_reverse, List.sum_reverse, List.map_map]
          rfl
        have hsz2 := subtreeCount_children_le hF hid
        omega
      · rw [hstep, heq2]
        have : f + 1 - (k2 + 1) = f - k2 := by omega
        rw [this]
      · intro i hni
        have hne : i ≠ id := fun h => hni (h ▸ Anc.refl i)
        have hnes : ¬ (∃ e ∈ (((getNode ns id).children.map
            (fun c => (c, specW ns id))).reverse : List (NodeId × Isometry3d)),
            Anc ns i e.1) := by
          rintro ⟨e, he, hanc⟩
          obtain ⟨c, hcmem, rfl⟩ := hentmem e he
          exact hni (hanc_to_id hcmem hanc)
        rw [hout2 i hnes, hother i hne]
      · intro i hanc
        have hilt : i < ns.length := Anc_lt_of_target hanc hid
        rcases Anc_step_inv hF.child_mem hF.parent_valid hanc hilt with
          heq | ⟨c, hcmem, hancc⟩
        · rw [heq]
          have hnes : ¬ (∃ e ∈ (((getNode ns id).children.map
              (fun c => (c, specW ns id))).reverse : List (NodeId × Isometry3d)),
              Anc ns id e.1) := by
            rintro ⟨e, he, hanc2⟩
            obtain ⟨c, hcmem, rfl⟩ := hentmem e he
            exact hi_ne_id hcmem hanc2 rfl
          rw [hout2 id hnes]
          exact ⟨hdid, hw⟩
        · refine hdone2 i ⟨(c, specW ns id), ?_, hancc⟩
          rw [List.mem_reverse]
          exact List.mem_map.mpr ⟨c, hcmem, rfl⟩

theorem update_world_spec (t : TransformTree) (hF : Forest t.nodes)
    (hCO : CleanOK t.nodes) :
    ∀ i, i < t.nodes.length →
      (getNode t.update_world.nodes i).dirty = false ∧
      (getNode t.update_world.nodes i).world = specW t.nodes i := by
  intro i hi
  obtain ⟨rank, hrb, hrk⟩ := hF.acyclic
  have hentmem : ∀ e ∈ ((((rootsOf t.nodes).map
      (fun r => (r, Isometry3d.IDENTITY))).reverse) :
        List (NodeId × Isometry3d)),
      ∃ r ∈ rootsOf t.nodes, e = (r, Isometry3d.IDENTITY) := by
    intro e he
    rw [List.mem_reverse] at he
    obtain ⟨r, hrmem, hre⟩ := List.mem_map.mp he
    exact ⟨r, hrmem, hre.symm⟩
  obtain ⟨k, ms', hk, heq, hskel', hout, hdone⟩ :=
    processList t.nodes.length
      (fun c hc hsz => processOne hF hCO t.nodes.length c hc hsz)
      (((rootsOf t.nodes).map (fun r => (r, Isometry3d.IDENTITY))).reverse)
      (by
        intro e he
        obtain ⟨r, hrmem, rfl⟩ := hentmem e he
        obtain ⟨hrlt, hrroot⟩ := mem_rootsOf.mp hrmem
        refine ⟨hrlt, ?_, subtreeCount_le t.nodes r⟩
        show Isometry3d.IDENTITY = parentSpec t.nodes r
        rw [parentSpec, hrroot])
      (by
        rw [List.pairwise_reverse, List.pairwise_map]
        refine List.Pairwise.imp_of_mem ?_
          ((List.nodup_range t.nodes.length).filter _)
        intro r1 r2 h1 h2 hne j ha2 ha1
        exact root_subtrees_disjoint h1 h2 hne ha1 ha2)
      t.nodes.length [] t.nodes (sameSkeleton_refl t.nodes)
      (fun j _ => ⟨rfl, rfl⟩)
      (by
        have heqsum : (((((rootsOf t.nodes).map
            (fun r => (r, Isometry3d.IDENTITY))).reverse)).map
              (fun e => subtreeCount t.nodes e.1)).sum =
            ((rootsOf t.nodes).map (fun r => subtreeCount t.nodes r)).sum := by
          rw [List.map_reverse, List.sum_reverse, List.map_map]
          rfl
        rw [heqsum]
        exact subtreeCount_roots_le hF)
  have hupd : t.update_world.nodes = ms' := by
    show updateWorldAux t.nodes.length
      (((rootsOf t.nodes).map (fun r => (r, Isometry3d.IDENTITY))).reverse)
      t.nodes = ms'
    rw [← List.append_nil ((((rootsOf t.nodes).map
      (fun r => (r, Isometry3d.IDENTITY))).reverse) :
        List (NodeId × Isometry3d)), heq, updateWorldAux_nil]
  obtain ⟨r, hrmem, hanc⟩ := root_cover hF.parent_valid hrk
    t.nodes.length i hi (hrb i hi)
  rw [hupd]
  refine hdone i ⟨(r, Isometry3d.IDENTITY), ?_, hanc⟩
  rw [List.mem_reverse]
  exact List.mem_map.mpr ⟨r, hrmem, rfl⟩

/-- C1: on a forest store, `update_world` clears every dirty flag and, as
long as the store also satisfies the engine's clean-cache invariant
(`CleanOK`: a node whose `dirty` flag is already false caches the reference
composition of `local` transforms along its path to its root), every node's
world transform afterwards equals that reference composition (`specW`; for
a root it is the node's `local`).  Without the clean-cache hypothesis the
claim is false: the loop skips clean nodes, so a clean node whose cached
world is stale keeps its wrong world (`C1_counterexample`). -/
theorem C1_update_world (t : TransformTree) (hF : Forest t.nodes)
    (hCO : CleanOK t.nodes) :
    ∀ i, i < t.nodes.length →
      (getNode t.update_world.nodes i).dirty = false ∧
      (getNode t.update_world.nodes i).world = specW t.nodes i :=
  update_world_spec t hF hCO

/-- C1 counterexample: the one-node forest store whose single root is clean
but caches a world different from its `local`.  `update_world` leaves it
untouched, so afterwards its world differs from the composition of locals
along its path (which is just its `local`), refuting the unconditional
claim. -/
theorem C1_counterexample :
    Forest staleCleanStore.nodes ∧
    ¬ ((getNode staleCleanStore.update_world.nodes 0).world =
        specW staleCleanStore.nodes 0) :=
  ⟨Forest.of_checks (fun _ => 0) (by decide) (by decide), by decide⟩

theorem C1_update_world_witness :
    Forest twoNodeDirtyStore.nodes ∧ CleanOK twoNodeDirtyStore.nodes ∧
    ((getNode twoNodeDirtyStore.update_world.nodes 0).dirty = false ∧
      (getNode twoNodeDirtyStore.update_world.nodes 0).world =
        specW twoNodeDirtyStore.nodes 0) ∧
    ((getNode twoNodeDirtyStore.update_world.nodes 1).dirty = false ∧
      (getNode twoNodeDirtyStore.update_world.nodes 1).world =
        specW twoNodeDirtyStore.nodes 1) := by
  have hF : Forest twoNodeDirtyStore.nodes :=
    Forest.of_checks (fun i => i) (by decide) (by decide)
  have hCO : CleanOK twoNodeDirtyStore.nodes := by
    unfold CleanOK
    decide
  exact ⟨hF, hCO, C1_update_world twoNodeDirtyStore hF hCO 0 (by decide),
    C1_update_world twoNodeDirtyStore hF hCO 1 (by decide)⟩

/-! ## Name lookup and the file-level parent relation -/

theorem idxOf_lt_length :
    ∀ (names : List String) (pn : String) (v : NodeId),
      idxOf names pn = some v → v < names.length := by
  intro names
  induction names with
  | nil => intro pn v h; exact Option.noConfusion h
  | cons s rest ih =>
      intro pn v h
      by_cases hs : s = pn
      · simp only [idxOf, hs, if_true] at h
        obtain rfl : (0 : NodeId) = v := Option.some.inj h
        simp
      · simp only [idxOf, hs, if_false] at h
        cases hrec : idxOf rest pn with
        | none => rw [hrec] at h; exact Option.noConfusion h
        | some w =>
            rw [hrec] at h
            obtain rfl : w + 1 = v := Option.some.inj h
            simp only [List.length_cons]
            exact Nat.add_lt_add_right (ih pn w hrec) 1

theorem idxOf_name :
    ∀ (names : List String) (pn : String) (v : NodeId),
      idxOf names pn = some v → names.getD v "" = pn := by
  intro names
  induction names with
  | nil => intro pn v h; exact Option.noConfusion h
  | cons s rest ih =>
      intro pn v h
      by_cases hs : s = pn
      · simp only [idxOf, hs, if_true] at h
        obtain rfl : (0 : NodeId) = v := Option.some.inj h
        simpa using hs
      · simp only [idxOf, hs, if_false] at h
        cases hrec : idxOf rest pn with
        | none => rw [hrec] at h; exact Option.noConfusion h
        | some w =>
            rw [hrec] at h
            obtain rfl : w + 1 = v := Option.some.inj h
            simpa using ih pn w hrec

theorem handleMapAux_lookup_idxOf :
    ∀ (l : List TNode) (k : NodeId) (s : String),
      (handleMapAux l k).lookup s =
        (idxOf (l.map TNode.name) s).map (fun i => k + i) := by
  intro l
  induction l with
  | nil => intro k s; rfl
  | cons nd rest ih =>
      intro k s
      by_cases hs : nd.name = s
      · have hbeq : (s == nd.name) = true := by simp [hs]
        simp [handleMapAux, List.lookup, hbeq, idxOf, hs]
      · have hne : s ≠ nd.name := fun h => hs h.symm
        have hbeq : (s == nd.name) = false := by simp [hne]
        simp only [handleMapAux, List.lookup, hbeq, List.map_cons, idxOf, hs,
          if_false]
        rw [ih (k + 1) s]
        cases idxOf (rest.map TNode.name) s with
        | none => rfl
        | some w =>
            show some (k + 1 + w) = some (k + (w + 1))
            have harith : k + 1 + w = k + (w + 1) := by ring
            rw [harith]

theorem getNode_map_lt {fns : List FileNode} (g : FileNode → TNode) {j : Nat}
    (hj : j < fns.length) :
    getNode (fns.map g) j = g (fns.getD j default) := by
  simp [getNode, List.getD_eq_getElem?_getD, List.getElem?_map,
    List.getElem?_eq_getElem hj]

theorem getD_map_name {fns : List FileNode} {p : Nat} (hp : p < fns.length) :
    (fns.map FileNode.name).getD p "" = (fns.getD p default).name := by
  simp [List.getD_eq_getElem?_getD, List.getElem?_map,
    List.getElem?_eq_getElem hp]

theorem CReach_single {ns : List TNode} {a : NodeId}
    (hch : ∀ c ∈ (getNode ns a).children,
      (getNode ns c).dirty = true ∨ c = a) :
    ∀ {x : NodeId}, CReach ns a x → x = a := by
  have key : ∀ {u x : NodeId}, CReach ns u x →
      u = a ∨ (getNode ns u).dirty = true → x = a := by
    intro u x h
    induction h with
    | refl b hb =>
        intro hu
        rcases hu with h1 | h2
        · exact h1
        · rw [h2] at hb; exact absurd hb (by simp)
    | step hd hcmem hr ih =>
        rename_i u c b
        intro hu
        rcases hu with heq | h2
        · rw [heq] at hcmem
          rcases hch c hcmem with hdc | hca
          · exact ih (Or.inr hdc)
          · exact ih (Or.inl hca)
        · rw [h2] at hd; exact absurd hd (by simp)
  intro x h
  exact key h (Or.inl rfl)

/-! ## The linking loop of the conversion -/

theorem linked_base (sinq cosq : ℚ → ℚ) (fns : List FileNode) :
    LinkedStore sinq cosq fns 0
      (fns.map (fun fn => rootNode fn.name (isoOfFileNode sinq cosq fn))) := by
  refine ⟨by simp, ?_, ?_, ?_, ?_, ?_⟩
  · intro j hj
    rw [getNode_map_lt _ hj]
    exact ⟨rfl, rfl, rfl⟩
  · intro j
    by_cases hj : j < fns.length
    · rw [getNode_map_lt _ hj]
      simp [rootNode]
    · rw [getNode_default_of_le _ _ (by rw [List.length_map]; exact Nat.le_of_not_lt hj)]
      simp [default]
  · intro j hj
    rw [getNode_map_lt _ hj]
    simp [rootNode]
  · intro j hj
    rw [getNode_map_lt _ hj]
    simp [rootNode]
  · intro j hj
    exact absurd hj (Nat.not_lt_zero j)

theorem parentIdx_isSome_parent {fns : List FileNode} {j : Nat} {v : NodeId}
    (h : parentIdx fns j = some v) :
    ((fns.getD j default).parent).isSome = true := by
  cases hp : (fns.getD j default).parent with
  | none => rw [parentIdx, hp] at h; exact Option.noConfusion h
  | some pn => rfl

theorem skip_step {sinq cosq : ℚ → ℚ} {fns : List FileNode} {m : Nat}
    {ms : List TNode} (hL : LinkedStore sinq cosq fns m ms)
    (hdecl : (fns.getD m default).parent = none) :
    LinkedStore sinq cosq fns (m + 1) ms := by
  obtain ⟨hlen, hnames, hparent, hchild, hdirty, hres⟩ := hL
  have hpidx : parentIdx fns m = none := by
    rw [parentIdx, hdecl]
  refine ⟨hlen, hnames, ?_, ?_, ?_, ?_⟩
  · intro j
    rw [hparent j]
    by_cases hjm : j = m
    · rw [hjm]
      simp [hpidx]
    · by_cases hlt : j < m
      · have h1 : j < m + 1 := Nat.lt_succ_of_lt hlt
        simp [hlt, h1]
      · have h1 : ¬ j < m + 1 :=
          fun h => (Nat.lt_succ_iff_lt_or_eq.mp h).elim hlt hjm
        simp [hlt, h1]
  · intro j hj
    rw [hchild j hj, List.range_succ, List.filter_append]
    have hm : (([m] : List Nat).filter
        (fun i => parentIdx fns i == some j)) = [] := by
      simp [List.filter_cons, hpidx]
    rw [hm, List.append_nil]
  · intro j hj
    rw [hdirty j hj]
    constructor
    · rintro ⟨h1, h2⟩
      exact ⟨Nat.lt_succ_of_lt h1, h2⟩
    · rintro ⟨h1, h2⟩
      refine ⟨?_, h2⟩
      rcases Nat.lt_succ_iff_lt_or_eq.mp h1 with h | h
      · exact h
      · rw [h] at h2
        rw [hdecl] at h2
        exact absurd h2 (by simp)
  · intro j hj pn hpn
    rcases Nat.lt_succ_iff_lt_or_eq.mp hj with h | h
    · exact hres j h pn hpn
    · rw [h, hdecl] at hpn
      exact Option.noConfusion hpn

theorem set_parent_step {sinq cosq : ℚ → ℚ} {fns : List FileNode} {m : Nat}
    {ms : List TNode} (hL : LinkedStore sinq cosq fns m ms)
    (hm : m < fns.length) {pn : String}
    (hdecl : (fns.getD m default).parent = some pn)
    {pid : NodeId} (hpidx : parentIdx fns m = some pid) :
    LinkedStore sinq cosq fns (m + 1)
      ((TransformTree.set_parent ⟨ms⟩ m (some pid)).nodes) := by
  obtain ⟨hlen, hnames, hparent, hchild, hdirty, hres⟩ := hL
  have hpid_lt : pid < fns.length := by
    rw [parentIdx, hdecl] at hpidx
    have := idxOf_lt_length _ _ _ hpidx
    rwa [List.length_map] at this
  have hm' : m < ms.length := by rw [hlen]; exact hm
  have hparent_m : (getNode ms m).parent = none := by
    rw [hparent m]
    simp
  have hshow : (TransformTree.set_parent ⟨ms⟩ m (some pid)).nodes =
      markDirtyAux (relink ms m (some pid)) [m] := rfl
  rw [hshow]
  set rl := relink ms m (some pid) with hrl
  have hrl_parent : ∀ x, (getNode rl x).parent =
      if x = m then some pid else (getNode ms x).parent := by
    intro x
    rw [hrl, relink_parent_eq ms m (some pid) hm' x]
  have hrl_children : ∀ x, (getNode rl x).children =
      (getNode ms x).children ++ (if pid = x then [m] else []) := by
    intro x
    have h := relink_children_eq ms m (some pid) hm'
      (by intro p hp; rw [hparent_m] at hp; exact Option.noConfusion hp)
      (by intro p hp; rw [← Option.some.inj hp, hlen]; exact hpid_lt) x
    rw [hparent_m] at h
    simpa using h
  have mp := markDirtyAux_preserves rl [m]
  have hms'_skel : ∀ x, skel (getNode (markDirtyAux rl [m]) x) =
      skel (getNode rl x) := mp.2.1
  have hms'_parent : ∀ x, (getNode (markDirtyAux rl [m]) x).parent =
      (getNode rl x).parent := fun x => (skel_fields (hms'_skel x)).2.1
  have hms'_children : ∀ x, (getNode (markDirtyAux rl [m]) x).children =
      (getNode rl x).children := fun x => (skel_fields (hms'_skel x)).2.2.1
  have hch_dirty : ∀ c ∈ (getNode rl m).children,
      (getNode rl c).dirty = true ∨ c = m := by
    intro c hc
    rw [hrl_children m] at hc
    rcases List.mem_append.mp hc with hc1 | hc2
    · rw [hchild m hm] at hc1
      have hc1' := List.mem_filter.mp hc1
      have hcm : c < m := List.mem_range.mp hc1'.1
      have hcp : parentIdx fns c = some m := by
        have := hc1'.2
        simpa using this
      refine Or.inl ?_
      rw [hrl, relink_dirty]
      exact (hdirty c (Nat.lt_trans hcm hm)).mpr
        ⟨hcm, parentIdx_isSome_parent hcp⟩
    · by_cases hpm : pid = m
      · rw [if_pos hpm] at hc2
        exact Or.inr (List.mem_singleton.mp hc2)
      · rw [if_neg hpm] at hc2
        exact absurd hc2 (List.not_mem_nil c)
  have hms'_dirty : ∀ x, ((getNode (markDirtyAux rl [m]) x).dirty = true ↔
      ((getNode ms x).dirty = true ∨ x = m)) := by
    intro x
    rw [markDirtyAux_dirty_iff rl [m] x]
    constructor
    · rintro (h | ⟨a, ha, hr⟩)
      · rw [hrl, relink_dirty] at h
        exact Or.inl h
      · rw [List.mem_singleton.mp ha] at hr
        exact Or.inr (CReach_single hch_dirty hr)
    · rintro (h | rfl)
      · refine Or.inl ?_
        rw [hrl, relink_dirty]
        exact h
      · by_cases hd : (getNode rl x).dirty = true
        · exact Or.inl hd
        · refine Or.inr ⟨x, List.mem_singleton.mpr rfl, ?_⟩
          exact CReach.refl x (by simpa using hd)
  refine ⟨?_, ?_, ?_, ?_, ?_, ?_⟩
  · rw [mp.1, hrl, relink_length, hlen]
  · intro j hj
    have h1 : (getNode (markDirtyAux rl [m]) j).name = (getNode ms j).name := by
      rw [(skel_fields (hms'_skel j)).1, hrl, relink_name]
    have h2 : (getNode (markDirtyAux rl [m]) j).«local» =
        (getNode ms j).«local» := by
      rw [(skel_fields (hms'_skel j)).2.2.2, hrl, relink_local]
    have h3 : (getNode (markDirtyAux rl [m]) j).world =
        (getNode ms j).world := by
      rw [mp.2.2 j, hrl, relink_world]
    rw [h1, h2, h3]
    exact hnames j hj
  · intro j
    rw [hms'_parent j, hrl_parent j]
    by_cases hjm : j = m
    · rw [hjm]
      simp [hpidx]
    · rw [if_neg hjm, hparent j]
      by_cases hlt : j < m
      · have h1 : j < m + 1 := Nat.lt_succ_of_lt hlt
        simp [hlt, h1]
      · have h1 : ¬ j < m + 1 :=
          fun h => (Nat.lt_succ_iff_lt_or_eq.mp h).elim hlt hjm
        simp [hlt, h1]
  · intro j hj
    rw [hms'_children j, hrl_children j, hchild j hj, List.range_succ,
      List.filter_append]
    have hsing : (([m] : List Nat).filter
        (fun i => parentIdx fns i == some j)) =
        (if pid = j then [m] else []) := by
      by_cases hpj : pid = j
      · simp [List.filter_cons, hpidx, hpj]
      · simp [List.filter_cons, hpidx, hpj]
    rw [hsing]
  · intro j hj
    rw [hms'_dirty j]
    constructor
    · rintro (h | heq)
      · obtain ⟨h1, h2⟩ := (hdirty j hj).mp h
        exact ⟨Nat.lt_succ_of_lt h1, h2⟩
      · rw [heq]
        exact ⟨Nat.lt_succ_self m, by rw [hdecl]; rfl⟩
    · rintro ⟨h1, h2⟩
      rcases Nat.lt_succ_iff_lt_or_eq.mp h1 with h | h
      · exact Or.inl ((hdirty j hj).mpr ⟨h, h2⟩)
      · exact Or.inr h
  · intro j hj pn2 hpn2
    rcases Nat.lt_succ_iff_lt_or_eq.mp hj with h | h
    · exact hres j h pn2 hpn2
    · rw [h, hpidx]
      rfl

theorem linkAll_inv (sinq cosq : ℚ → ℚ) (fns : List FileNode)
    (hdup : specFirstDupAux []
      ((fns.map (fun fn => rootNode fn.name (isoOfFileNode sinq cosq fn))).map
        TNode.name) = none) :
    ∀ (rest : List FileNode) (m : Nat) (ms : List TNode) (tfin : TransformTree),
      fns.drop m = rest → m ≤ fns.length →
      LinkedStore sinq cosq fns m ms →
      linkAll (handleMapAux
          (fns.map (fun fn => rootNode fn.name (isoOfFileNode sinq cosq fn))) 0)
        rest ⟨ms⟩ = some tfin →
      LinkedStore sinq cosq fns fns.length tfin.nodes := by
  intro rest
  induction rest with
  | nil =>
      intro m ms tfin hdrop hm hL hlink
      have htf : (⟨ms⟩ : TransformTree) = tfin := Option.some.inj hlink
      have hmn : m = fns.length := by
        have hlendrop := congrArg List.length hdrop
        rw [List.length_drop] at hlendrop
        simp only [List.length_nil] at hlendrop
        omega
      rw [← htf]
      rw [← hmn]
      exact hL
  | cons fn rest' ih =>
      intro m ms tfin hdrop hm hL hlink
      have hmlt : m < fns.length := by
        by_contra hge
        rw [List.drop_eq_nil_of_le (Nat.le_of_not_lt hge)] at hdrop
        exact List.noConfusion hdrop
      have hget : fns.getD m default = fn := by
        have h0 : (fns.drop m)[0]? = some fn := by rw [hdrop]; simp
        rw [List.getElem?_drop] at h0
        simp only [Nat.add_zero] at h0
        simp [List.getD_eq_getElem?_getD, h0]
      have hdrop' : fns.drop (m + 1) = rest' := by
        have h1 : (fns.drop m).drop 1 = fns.drop (m + 1) := List.drop_drop 1 m fns
        rw [hdrop] at h1
        exact h1.symm
      cases hdecl : fn.parent with
      | none =>
          simp only [linkAll, hdecl] at hlink
          exact ih (m + 1) ms tfin hdrop' (by omega)
            (skip_step hL (by rw [hget]; exact hdecl)) hlink
      | some pn =>
          simp only [linkAll, hdecl] at hlink
          have hmns0 : m < (fns.map
              (fun fn => rootNode fn.name (isoOfFileNode sinq cosq fn))).length := by
            rw [List.length_map]; exact hmlt
          have hlc : (handleMapAux (fns.map
              (fun fn => rootNode fn.name (isoOfFileNode sinq cosq fn))) 0).lookup
              fn.name = some m := by
            have h1 := handleMapAux_lookup _ [] 0 hdup m hmns0
            have h2 : ((fns.map
                (fun fn => rootNode fn.name (isoOfFileNode sinq cosq fn))).get
                  ⟨m, hmns0⟩).name = fn.name := by
              rw [List.get_map]
              show (fns.get ⟨m, hmlt⟩).name = fn.name
              have h3 : fns.get ⟨m, hmlt⟩ = fn := by
                rw [← hget]
                simp [List.getD_eq_getElem?_getD, List.getElem?_eq_getElem hmlt,
                  List.get_eq_getElem]
              rw [h3]
            rw [h2] at h1
            rw [h1, Nat.zero_add]
          have hnames_eq : ((fns.map
              (fun fn => rootNode fn.name (isoOfFileNode sinq cosq fn))).map
                TNode.name) = fns.map FileNode.name := by
            rw [List.map_map]
            rfl
          obtain ⟨pid, hlp, hpidx⟩ :
              ∃ pid, (handleMapAux (fns.map
                (fun fn => rootNode fn.name (isoOfFileNode sinq cosq fn))) 0).lookup
                  pn = some pid ∧ parentIdx fns m = some pid := by
            cases hl : (handleMapAux (fns.map
                (fun fn => rootNode fn.name (isoOfFileNode sinq cosq fn))) 0).lookup
                  pn with
            | none =>
                rw [hlc, hl] at hlink
                simp at hlink
            | some pid =>
                refine ⟨pid, rfl, ?_⟩
                rw [handleMapAux_lookup_idxOf, hnames_eq] at hl
                cases hidx : idxOf (fns.map FileNode.name) pn with
                | none => rw [hidx] at hl; exact Option.noConfusion hl
                | some w =>
                    rw [hidx] at hl
                    simp only [Option.map] at hl
                    have hw : w = pid := by
                      have := Option.some.inj hl
                      rw [← this, Nat.zero_add]
                    simp only [parentIdx, hget, hdecl]
                    rw [hidx, hw]
          rw [hlc, hlp] at hlink
          exact ih (m + 1) ((TransformTree.set_parent ⟨ms⟩ m (some pid)).nodes)
            tfin hdrop' (by omega)
            (set_parent_step hL hmlt (by rw [hget]; exact hdecl) hpidx) hlink

theorem tryFrom_eq (sinq cosq : ℚ → ℚ) (ftree : FileTransformTree) :
    tryFrom sinq cosq ftree =
      match (addAll sinq cosq ftree.nodes ⟨[]⟩).name_hash with
      | .error e => ConvOutcome.err e
      | .ok map =>
        match linkAll map ftree.nodes (addAll sinq cosq ftree.nodes ⟨[]⟩) with
        | none => ConvOutcome.panicked
        | some res2 => ConvOutcome.ok res2.update_world := rfl

theorem tryFrom_ok_linked (sinq cosq : ℚ → ℚ) (ftree : FileTransformTree)
    {t' : TransformTree} (h : tryFrom sinq cosq ftree = ConvOutcome.ok t') :
    ∃ ms : List TNode, t' = TransformTree.update_world ⟨ms⟩ ∧
      LinkedStore sinq cosq ftree.nodes ftree.nodes.length ms := by
  have hres2 : addAll sinq cosq ftree.nodes ⟨[]⟩ =
      ⟨ftree.nodes.map (fun fn => rootNode fn.name (isoOfFileNode sinq cosq fn))⟩ := by
    rw [show addAll sinq cosq ftree.nodes ⟨[]⟩ =
      (⟨(addAll sinq cosq ftree.nodes ⟨[]⟩).nodes⟩ : TransformTree) from rfl]
    rw [addAll_eq]
    simp
  rw [tryFrom_eq, hres2] at h
  cases hdup : specFirstDupAux []
      ((ftree.nodes.map (fun fn => rootNode fn.name (isoOfFileNode sinq cosq fn))).map
        TNode.name) with
  | some d =>
      exfalso
      have hnh : (⟨ftree.nodes.map
          (fun fn => rootNode fn.name (isoOfFileNode sinq cosq fn))⟩ :
            TransformTree).name_hash =
          .error (.Duplicate d) := by
        show nameHashAux _ 0 [] = _
        exact (nameHashAux_error_iff _ 0 [] d).mpr (by simpa using hdup)
      rw [hnh] at h
      exact ConvOutcome.noConfusion h
  | none =>
      have hnh : (⟨ftree.nodes.map
          (fun fn => rootNode fn.name (isoOfFileNode sinq cosq fn))⟩ :
            TransformTree).name_hash =
          .ok (handleMapAux (ftree.nodes.map
            (fun fn => rootNode fn.name (isoOfFileNode sinq cosq fn))) 0) := by
        show nameHashAux _ 0 [] = _
        have := nameHashAux_ok (ftree.nodes.map
          (fun fn => rootNode fn.name (isoOfFileNode sinq cosq fn))) 0 []
          (by simpa using hdup)
        simpa using this
      rw [hnh] at h
      have h2 : (match linkAll (handleMapAux (ftree.nodes.map
          (fun fn => rootNode fn.name (isoOfFileNode sinq cosq fn))) 0)
          ftree.nodes
          (⟨ftree.nodes.map
            (fun fn => rootNode fn.name (isoOfFileNode sinq cosq fn))⟩ :
              TransformTree) with
        | none => ConvOutcome.panicked
        | some res2 => ConvOutcome.ok res2.update_world) = ConvOutcome.ok t' := h
      cases hlink : linkAll (handleMapAux (ftree.nodes.map
          (fun fn => rootNode fn.name (isoOfFileNode sinq cosq fn))) 0)
          ftree.nodes
          (⟨ftree.nodes.map
            (fun fn => rootNode fn.name (isoOfFileNode sinq cosq fn))⟩ :
              TransformTree) with
      | none =>
          rw [hlink] at h2
          exact ConvOutcome.noConfusion h2
      | some res2 =>
          rw [hlink] at h2
          have h3 : ConvOutcome.ok res2.update_world = ConvOutcome.ok t' := h2
          have ht' : t' = res2.update_world := (ConvOutcome.ok.inj h3).symm
          have hL := linkAll_inv sinq cosq ftree.nodes hdup ftree.nodes 0
            (ftree.nodes.map
              (fun fn => rootNode fn.name (isoOfFileNode sinq cosq fn)))
            res2 (List.drop_zero _) (Nat.zero_le _)
            (linked_base sinq cosq ftree.nodes) hlink
          refine ⟨res2.nodes, ?_, hL⟩
          rw [ht']

theorem parentIdx_lt {fns : List FileNode} {j : Nat} {v : NodeId}
    (h : parentIdx fns j = some v) : v < fns.length := by
  cases hp : (fns.getD j default).parent with
  | none =>
      rw [parentIdx, hp] at h
      exact Option.noConfusion h
  | some pn =>
      simp only [parentIdx, hp] at h
      have := idxOf_lt_length _ _ _ h
      rwa [List.length_map] at this

theorem specW_root {ns : List TNode} {i : NodeId}
    (hp : (getNode ns i).parent = none) :
    specW ns i = (getNode ns i).«local» := by
  unfold specW
  cases h : ns.length with
  | zero => rfl
  | succ k => simp [specWorldAux, hp]

theorem LinkedStore_forest {sinq cosq : ℚ → ℚ} {fns : List FileNode}
    {ms : List TNode} (hL : LinkedStore sinq cosq fns fns.length ms)
    (rank : Nat → Nat)
    (hrb : ∀ j, j < fns.length → rank j < fns.length)
    (hrk : ∀ j, j < fns.length → ∀ v, parentIdx fns j = some v →
      rank v < rank j) :
    Forest ms := by
  obtain ⟨hlen, hnames, hparent, hchild, hdirty, hres⟩ := hL
  have hpidx : ∀ i, i < ms.length → ∀ p, (getNode ms i).parent = some p →
      parentIdx fns i = some p := by
    intro i hi p hp
    rw [hparent i, if_pos (by rw [← hlen]; exact hi)] at hp
    exact hp
  refine ⟨?_, ?_, ?_, ?_, rank, ?_, ?_⟩
  · intro i hi p hp
    rw [hlen]
    exact parentIdx_lt (hpidx i hi p hp)
  · intro i hi p hp
    have hpx := hpidx i hi p hp
    have hplt : p < fns.length := parentIdx_lt hpx
    rw [hchild p hplt]
    exact List.mem_filter.mpr
      ⟨List.mem_range.mpr (by rw [← hlen]; exact hi), by simp [hpx]⟩
  · intro p hp c hc
    rw [hchild p (by rw [← hlen]; exact hp)] at hc
    have hc' := List.mem_filter.mp hc
    have hclt : c < fns.length := List.mem_range.mp hc'.1
    have hcp : parentIdx fns c = some p := by simpa using hc'.2
    refine ⟨by rw [hlen]; exact hclt, ?_⟩
    rw [hparent c, if_pos hclt]
    exact hcp
  · intro p hp
    rw [hchild p (by rw [← hlen]; exact hp)]
    exact ((List.nodup_range fns.length).filter _)
  · intro i hi
    rw [hlen]
    exact hrb i (by rw [← hlen]; exact hi)
  · intro i hi p hp
    exact hrk i (by rw [← hlen]; exact hi) p (hpidx i hi p hp)

theorem LinkedStore_cleanok {sinq cosq : ℚ → ℚ} {fns : List FileNode}
    {ms : List TNode} (hL : LinkedStore sinq cosq fns fns.length ms) :
    CleanOK ms := by
  obtain ⟨hlen, hnames, hparent, hchild, hdirty, hres⟩ := hL
  intro i hi hclean
  have hilt : i < fns.length := by rw [← hlen]; exact hi
  have hpd : (fns.getD i default).parent = none := by
    cases hp : (fns.getD i default).parent with
    | none => rfl
    | some pn =>
        have := (hdirty i hilt).mpr ⟨hilt, by rw [hp]; rfl⟩
        rw [hclean] at this
        exact Bool.noConfusion this
  have hpnone : (getNode ms i).parent = none := by
    rw [hparent i, if_pos hilt, parentIdx, hpd]
  rw [specW_root hpnone]
  have hn := hnames i hilt
  rw [hn.2.2, hn.2.1]

/-- C5: a successful conversion produces one node per file node, in file
order, bearing the file node's name and a local transform built from its
translation and its Euler angles applied in X-then-Y-then-Z order, and
links every file node that declares a parent name as a child of the node
bearing that name.  The no-dirty-nodes part of the claim additionally
requires the declared parent relation to be acyclic (`parentIdx`-rank
hypothesis): on a cyclic file tree the conversion still returns `Ok`, the
world-update pass finds no roots, and every node stays dirty
(`C5_counterexample`). -/
theorem C5_try_from (sinq cosq : ℚ → ℚ) (ftree : FileTransformTree)
    (t' : TransformTree) (h : tryFrom sinq cosq ftree = ConvOutcome.ok t')
    (hacyc : ∃ rank : Nat → Nat,
      (∀ j, j < ftree.nodes.length → rank j < ftree.nodes.length) ∧
      (∀ j, j < ftree.nodes.length → ∀ v, parentIdx ftree.nodes j = some v →
        rank v < rank j)) :
    t'.nodes.length = ftree.nodes.length ∧
    (∀ j, j < ftree.nodes.length →
      (getNode t'.nodes j).name = (ftree.nodes.getD j default).name ∧
      (getNode t'.nodes j).«local» =
        isoOfFileNode sinq cosq (ftree.nodes.getD j default)) ∧
    (∀ j, j < ftree.nodes.length →
      ∀ pn, (ftree.nodes.getD j default).parent = some pn →
      ∃ p, p < ftree.nodes.length ∧ (getNode t'.nodes p).name = pn ∧
        (getNode t'.nodes j).parent = some p ∧
        j ∈ (getNode t'.nodes p).children) ∧
    (∀ j, j < ftree.nodes.length → (getNode t'.nodes j).dirty = false) := by
  obtain ⟨ms, ht', hL⟩ := tryFrom_ok_linked sinq cosq ftree h
  obtain ⟨rank, hrb, hrk⟩ := hacyc
  have hF : Forest ms := LinkedStore_forest hL rank hrb hrk
  have hCO : CleanOK ms := LinkedStore_cleanok hL
  obtain ⟨hlen, hnames, hparent, hchild, hdirty, hres⟩ := hL
  subst ht'
  have hu := updateWorldAux_preserves ms.length
    (((rootsOf ms).map (fun r => (r, Isometry3d.IDENTITY))).reverse) ms
  have hulen : (TransformTree.update_world ⟨ms⟩).nodes.length = ms.length :=
    hu.1
  have husk : ∀ i, skel (getNode (TransformTree.update_world ⟨ms⟩).nodes i) =
      skel (getNode ms i) := hu.2.1
  refine ⟨?_, ?_, ?_, ?_⟩
  · rw [hulen, hlen]
  · intro j hj
    have hn := hnames j hj
    exact ⟨by rw [(skel_fields (husk j)).1]; exact hn.1,
      by rw [(skel_fields (husk j)).2.2.2]; exact hn.2.1⟩
  · intro j hj pn hpn
    have hSome := hres j hj pn hpn
    obtain ⟨p, hp⟩ := Option.isSome_iff_exists.mp hSome
    have hplt : p < ftree.nodes.length := parentIdx_lt hp
    refine ⟨p, hplt, ?_, ?_, ?_⟩
    · have hidx : idxOf (ftree.nodes.map FileNode.name) pn = some p := by
        simp only [parentIdx, hpn] at hp
        exact hp
      have hname := idxOf_name _ _ _ hidx
      rw [getD_map_name hplt] at hname
      rw [(skel_fields (husk p)).1, (hnames p hplt).1]
      exact hname
    · rw [(skel_fields (husk j)).2.1, hparent j, if_pos hj, hp]
    · rw [(skel_fields (husk p)).2.2.1, hchild p hplt]
      exact List.mem_filter.mpr ⟨List.mem_range.mpr hj, by simp [hp]⟩
  · intro j hj
    exact (update_world_spec ⟨ms⟩ hF hCO j (by rw [hlen]; exact hj)).1

/-! ## Concrete conversions -/

theorem isoOfFileNode_zeroRot (nm : String) (par : Option String)
    (tx ty tz : ℚ) :
    isoOfFileNode sinZero cosOne ⟨nm, par, (tx, ty, tz), (0, 0, 0)⟩ =
      ⟨Quat.IDENTITY, ⟨tx, ty, tz⟩⟩ := by
  simp only [isoOfFileNode, Quat.fromEulerXYZ, Quat.fromRotationX,
    Quat.fromRotationY, Quat.fromRotationZ, sinZero, cosOne, Quat.mul_def,
    Quat.mul, Isometry3d.new, Quat.IDENTITY, Isometry3d.mk.injEq,
    Quat.mk.injEq]
  norm_num

theorem cyc_addAll :
    (addAll sinZero cosOne cyclicTree.nodes ⟨[]⟩).nodes = cycBase := by
  rw [addAll_eq]
  show [] ++ cyclicTree.nodes.map
    (fun fn => rootNode fn.name (isoOfFileNode sinZero cosOne fn)) = cycBase
  rw [List.nil_append]
  show [rootNode "a"
      (isoOfFileNode sinZero cosOne ⟨"a", some "b", (0, 0, 0), (0, 0, 0)⟩),
    rootNode "b"
      (isoOfFileNode sinZero cosOne ⟨"b", some "a", (0, 0, 0), (0, 0, 0)⟩)] =
      cycBase
  rw [isoOfFileNode_zeroRot, isoOfFileNode_zeroRot]
  decide

theorem pair_addAll :
    (addAll sinZero cosOne pairTree.nodes ⟨[]⟩).nodes = pairBase := by
  rw [addAll_eq]
  show [] ++ pairTree.nodes.map
    (fun fn => rootNode fn.name (isoOfFileNode sinZero cosOne fn)) = pairBase
  rw [List.nil_append]
  show [rootNode "arm_base"
      (isoOfFileNode sinZero cosOne
        ⟨"arm_base", none, (0, 0, 0), (0, 0, 0)⟩),
    rootNode "lidar"
      (isoOfFileNode sinZero cosOne
        ⟨"lidar", some "arm_base", (1/2, 0, 0), (0, 0, 0)⟩)] = pairBase
  rw [isoOfFileNode_zeroRot, isoOfFileNode_zeroRot]
  rfl

theorem cyc_set_parent1 :
    TransformTree.set_parent (⟨cycBase⟩ : TransformTree) 0 (some 1) =
      ⟨cycStore1⟩ := by
  show (⟨markDirtyAux (relink cycBase 0 (some 1)) [0]⟩ : TransformTree) =
    ⟨cycStore1⟩
  rw [show relink cycBase 0 (some 1) = cycRelink1 from by decide]
  rw [markDirtyAux_cons_clean cycRelink1 0 [] (by decide)]
  rw [show ([] : List NodeId) ++ (getNode cycRelink1 0).children =
      ([] : List NodeId) from by decide]
  rw [markDirtyAux_nil]
  exact congrArg TransformTree.mk (by decide)

theorem cyc_set_parent2 :
    TransformTree.set_parent (⟨cycStore1⟩ : TransformTree) 1 (some 0) =
      ⟨cycStore2⟩ := by
  show (⟨markDirtyAux (relink cycStore1 1 (some 0)) [1]⟩ : TransformTree) =
    ⟨cycStore2⟩
  rw [show relink cycStore1 1 (some 0) = cycRelink2 from by decide]
  rw [markDirtyAux_cons_clean cycRelink2 1 [] (by decide)]
  rw [show ([] : List NodeId) ++ (getNode cycRelink2 1).children =
      ([0] : List NodeId) from by decide]
  rw [show setNode cycRelink2 1 (fun x => { x with dirty := true }) =
      cycStore2 from by decide]
  rw [markDirtyAux_cons_dirty cycStore2 0 [] (by decide)]
  rw [markDirtyAux_nil]

theorem pair_set_parent1 :
    TransformTree.set_parent (⟨pairBase⟩ : TransformTree) 1 (some 0) =
      ⟨pairStore1⟩ := by
  show (⟨markDirtyAux (relink pairBase 1 (some 0)) [1]⟩ : TransformTree) =
    ⟨pairStore1⟩
  rw [show relink pairBase 1 (some 0) = pairRelink1 from by rfl]
  rw [markDirtyAux_cons_clean pairRelink1 1 [] (by rfl)]
  rw [show ([] : List NodeId) ++ (getNode pairRelink1 1).children =
      ([] : List NodeId) from by rfl]
  rw [markDirtyAux_nil]
  exact congrArg TransformTree.mk (by rfl)

/-- C5 counterexample: the two-node file tree whose declared parent names
form a two-cycle converts successfully, yet node `0` of the returned store
is dirty; the claim requires no node of a returned store to be dirty. -/
theorem C5_counterexample :
    (tryFrom sinZero cosOne cyclicTree).isOk = true ∧
    (getNode (ConvOutcome.nodesOf (tryFrom sinZero cosOne cyclicTree))
      0).dirty = true := by
  have h0 : tryFrom sinZero cosOne cyclicTree =
      ConvOutcome.ok ((TransformTree.set_parent
        (TransformTree.set_parent
          ⟨(addAll sinZero cosOne cyclicTree.nodes ⟨[]⟩).nodes⟩ 0 (some 1))
        1 (some 0)).update_world) := rfl
  rw [h0, cyc_addAll, cyc_set_parent1, cyc_set_parent2]
  exact ⟨rfl, by decide⟩

theorem C5_try_from_witness :
    tryFrom sinZero cosOne pairTree =
      ConvOutcome.ok (TransformTree.update_world ⟨pairStore1⟩) ∧
    (TransformTree.update_world ⟨pairStore1⟩).nodes.length =
      pairTree.nodes.length ∧
    (∀ j, j < pairTree.nodes.length →
      (getNode (TransformTree.update_world ⟨pairStore1⟩).nodes j).dirty =
        false) := by
  have h0 : tryFrom sinZero cosOne pairTree =
      ConvOutcome.ok ((TransformTree.set_parent
        ⟨(addAll sinZero cosOne pairTree.nodes ⟨[]⟩).nodes⟩
        1 (some 0)).update_world) := rfl
  have hok : tryFrom sinZero cosOne pairTree =
      ConvOutcome.ok (TransformTree.update_world ⟨pairStore1⟩) := by
    rw [h0, pair_addAll, pair_set_parent1]
  have hacyc : ∃ rank : Nat → Nat,
      (∀ j, j < pairTree.nodes.length → rank j < pairTree.nodes.length) ∧
      (∀ j, j < pairTree.nodes.length → ∀ v,
        parentIdx pairTree.nodes j = some v → rank v < rank j) := by
    refine ⟨fun j => j, by decide, ?_⟩
    intro j hj v hv
    have hj2 : j < 2 := hj
    rcases j with _ | _ | j
    · rw [show parentIdx pairTree.nodes 0 = none from by decide] at hv
      exact Option.noConfusion hv
    · rw [show parentIdx pairTree.nodes 1 = some 0 from by decide] at hv
      rw [← Option.some.inj hv]
      decide
    · exact absurd hj2 (by omega)
  have hmain := C5_try_from sinZero cosOne pairTree
    (TransformTree.update_world ⟨pairStore1⟩) hok hacyc
  exact ⟨hok, hmain.1, hmain.2.2.2⟩

end AxisViz
